import Mathlib

/-!
# Genealogy geometry engine (`src/wasm/src`)

A shallow embedding of `TreeLayoutCalculator` (`tree_layout.cpp`),
`VisibilityCalculator` (`visibility_calculator.cpp`) and `PathCalculator`
(`path_calculator.cpp`), and a verification of their contracts.  The
definitions of the three components come first, the theorems follow.

Modelling conventions.

* `float` values are IEEE 754 binary32 values (`F32`): every arithmetic
  operation rounds its exact result to nearest, ties to even, overflows to an
  infinity and propagates NaNs; comparisons with a NaN are false.  The target
  is WebAssembly, where `float` expressions are evaluated in binary32.
  `double` values (`F64`) occur only in the angles of `roundRectPath`.
* The functions `cos` and `sin` of the C library are parameters of
  `roundRectPath`; statements about the `float` path hold for every choice of
  them, under the assumptions on their values that the statements spell out.
* `std::unordered_map<std::string, V>` is an association list `StrMap V` with
  at most one entry per key.  `operator[]` is `StrMap.upsert`: it updates the
  entry in place when the key is present and appends a value-initialised entry
  otherwise.  The iteration order of an `unordered_map` is unspecified; the
  model iterates in order of first insertion.  The general statements about
  the produced lists are phrased through membership, counting or permutation,
  so they hold for any iteration order; the evaluated examples show the lists
  in the order of the model.
* The recursion of `layoutSubtree` carries a fuel argument that bounds the
  recursion depth; running out of fuel is `none`.
-/

/-! # Binary floating-point numbers

The program computes with `float` (IEEE 754 binary32, round to nearest, ties to
even); one expression of `roundRectPath` is evaluated in `double` (binary64).
A rounded result is obtained from the exact rational result by `roundQ`.  -/

namespace Binary

/-- The number of times `n` can be halved before it drops below `2`. -/
def log2Fuel : Nat → Nat → Nat
  | 0, _ => 0
  | fuel + 1, n => if n < 2 then 0 else log2Fuel fuel (n / 2) + 1

/-- The exponent `e` is the exponent of the binade of the non-negative rational `q`
in a format whose normal numbers have exponents from `emin` to `emax`: the
greatest `e` in that range, extended by `emax + 1`, with `2 ^ e ≤ q`, and `emin`
when `q` lies below all normal numbers. -/
def IsBinade (emin emax : Int) (q : ℚ) (e : Int) : Prop :=
  emin ≤ e ∧ e ≤ emax + 1 ∧ (e = emin ∨ (2 : ℚ) ^ e ≤ q) ∧ (e = emax + 1 ∨ q < (2 : ℚ) ^ (e + 1))

instance (emin emax : Int) (q : ℚ) (e : Int) : Decidable (IsBinade emin emax q e) :=
  inferInstanceAs (Decidable
    (emin ≤ e ∧ e ≤ emax + 1 ∧ (e = emin ∨ (2 : ℚ) ^ e ≤ q) ∧
      (e = emax + 1 ∨ q < (2 : ℚ) ^ (e + 1))))

/-- The search for the binade from `emin + k` downwards. -/
def binadeSearch (emin : Int) (q : ℚ) : Nat → Int
  | 0 => emin
  | k + 1 =>
    if (2 : ℚ) ^ (emin + ((k + 1 : Nat) : Int)) ≤ q then emin + ((k + 1 : Nat) : Int)
    else binadeSearch emin q k

/-- The exponent of the binade of `q`: a guess from the bit lengths of numerator
and denominator is taken when it is right, and the search decides otherwise. -/
def binade (emin emax : Int) (q : ℚ) : Int :=
  let c : Int := (log2Fuel q.num.natAbs q.num.natAbs : Int) - (log2Fuel q.den q.den : Int)
  let e0 : Int := min (max (if (2 : ℚ) ^ c ≤ q then c else c - 1) emin) (emax + 1)
  if IsBinade emin emax q e0 then e0 else binadeSearch emin q (emax + 1 - emin).toNat

/-- Rounding to the nearest integer, a tie going to the even one. -/
def rne (t : ℚ) : Int :=
  if t - ⌊t⌋ < 1 / 2 then ⌊t⌋
  else if 1 / 2 < t - ⌊t⌋ then ⌊t⌋ + 1
  else if ⌊t⌋ % 2 = 0 then ⌊t⌋ else ⌊t⌋ + 1

/-- The unit in the last place at the non-negative rational `a`, for `p`
significant bits. -/
def ulp (p : Nat) (emin emax : Int) (a : ℚ) : ℚ := (2 : ℚ) ^ (binade emin emax a - ((p : Int) - 1))

/-- Rounding of a non-negative rational to `p` significant bits (to nearest, ties
to even, subnormal below `2 ^ emin`); a result of `2 ^ (emax + 1)` or more
stands for an overflow. -/
def roundMag (p : Nat) (emin emax : Int) (a : ℚ) : ℚ :=
  (rne (a / ulp p emin emax a) : ℚ) * ulp p emin emax a

/-- Rounding of a rational to `p` significant bits. -/
def roundQ (p : Nat) (emin emax : Int) (q : ℚ) : ℚ :=
  if q < 0 then - roundMag p emin emax (-q) else roundMag p emin emax q

end Binary

/-- A `float` value: a NaN, an infinity with its sign, or a finite number given
by its value.  The two zeros are identified (they compare equal, and the
program never divides by a variable, so no other result depends on the sign of
a zero); all NaNs are identified.  Every operation returns a representable
value; the inputs of the program are representable values (`F32.IsFloat`). -/
inductive F32
  | nan
  | inf (neg : Bool)
  | fin (q : ℚ)
  deriving DecidableEq

namespace F32

/-- The `float` nearest to the rational `q`; magnitudes that round to `2 ^ 128`
or more overflow to an infinity. -/
def round (q : ℚ) : F32 :=
  if (2 : ℚ) ^ (128 : Int) ≤ Binary.roundQ 24 (-126) 127 q then inf false
  else if Binary.roundQ 24 (-126) 127 q ≤ - (2 : ℚ) ^ (128 : Int) then inf true
  else fin (Binary.roundQ 24 (-126) 127 q)

/-- The value is a `float`: a finite value is one that rounding leaves unchanged. -/
def IsFloat : F32 → Prop
  | fin q => round q = fin q
  | _ => True

instance (x : F32) : Decidable (IsFloat x) :=
  match x with
  | fin q => inferInstanceAs (Decidable (round q = fin q))
  | nan => isTrue trivial
  | inf _ => isTrue trivial

/-- The value is finite. -/
def IsFinite : F32 → Prop
  | fin _ => True
  | _ => False

instance (x : F32) : Decidable (IsFinite x) :=
  match x with
  | fin _ => isTrue trivial
  | nan => isFalse (fun h => h)
  | inf _ => isFalse (fun h => h)

/-- Unary minus. -/
def neg : F32 → F32
  | fin q => fin (-q)
  | inf s => inf (!s)
  | nan => nan

/-- Addition of `float`s. -/
def add : F32 → F32 → F32
  | fin a, fin b => round (a + b)
  | inf s, inf t => if s = t then inf s else nan
  | inf s, fin _ => inf s
  | fin _, inf t => inf t
  | _, _ => nan

/-- Subtraction of `float`s. -/
def sub (a b : F32) : F32 := add a (neg b)

/-- Multiplication of `float`s. -/
def mul : F32 → F32 → F32
  | fin a, fin b => round (a * b)
  | inf s, inf t => inf (xor s t)
  | inf s, fin b => if b = 0 then nan else inf (xor s (decide (b < 0)))
  | fin a, inf t => if a = 0 then nan else inf (xor (decide (a < 0)) t)
  | _, _ => nan

/-- Division of `float`s (a zero divisor counts as `+0`; the program divides by
the constant `2` only). -/
def div : F32 → F32 → F32
  | fin a, fin b =>
    if b = 0 then (if a = 0 then nan else inf (decide (a < 0))) else round (a / b)
  | inf s, fin b => inf (xor s (decide (b < 0)))
  | fin _, inf _ => fin 0
  | _, _ => nan

/-- The comparison `<` of `float`s; it is false when an operand is a NaN. -/
def lt : F32 → F32 → Bool
  | fin a, fin b => decide (a < b)
  | inf s, inf t => s && !t
  | inf s, fin _ => s
  | fin _, inf t => !t
  | _, _ => false

/-- The comparison `<=` of `float`s; it is false when an operand is a NaN. -/
def le : F32 → F32 → Bool
  | fin a, fin b => decide (a ≤ b)
  | inf s, inf t => s || !t
  | inf s, fin _ => s
  | fin _, inf t => !t
  | _, _ => false

/-- The conversion of a non-negative `int` to `float`. -/
def ofNat (n : Nat) : F32 := round n

instance : Add F32 := ⟨add⟩
instance : Sub F32 := ⟨sub⟩
instance : Mul F32 := ⟨mul⟩
instance : Div F32 := ⟨div⟩
instance : Neg F32 := ⟨neg⟩
instance (n : Nat) : OfNat F32 n := ⟨ofNat n⟩
instance : NatCast F32 := ⟨ofNat⟩
instance : LT F32 := ⟨fun a b => lt a b = true⟩
instance : LE F32 := ⟨fun a b => le a b = true⟩
instance (a b : F32) : Decidable (a < b) := inferInstanceAs (Decidable (lt a b = true))
instance (a b : F32) : Decidable (a ≤ b) := inferInstanceAs (Decidable (le a b = true))

/-- The function `std::max`: `(a < b) ? b : a`. -/
instance : Max F32 := ⟨fun a b => if a < b then b else a⟩

/-- The value of a finite `float` as a rational number (and `0` for the others). -/
def toRat : F32 → ℚ
  | fin q => q
  | _ => 0

/-- The `float` written as the decimal fraction `n / d` in a source text. -/
def dec (n : Int) (d : Nat) : F32 := round ((n : ℚ) / (d : ℚ))

end F32

/-- A `double` value, with the conventions of `F32`.  The program computes in
`double` only the angles of the corner arcs, from `int` constants and `M_PI`. -/
inductive F64
  | nan
  | inf (neg : Bool)
  | fin (q : ℚ)
  deriving DecidableEq

namespace F64

/-- The `double` nearest to the rational `q`; magnitudes that round to
`2 ^ 1024` or more overflow to an infinity. -/
def round (q : ℚ) : F64 :=
  if (2 : ℚ) ^ (1024 : Int) ≤ Binary.roundQ 53 (-1022) 1023 q then inf false
  else if Binary.roundQ 53 (-1022) 1023 q ≤ - (2 : ℚ) ^ (1024 : Int) then inf true
  else fin (Binary.roundQ 53 (-1022) 1023 q)

/-- Addition of `double`s. -/
def add : F64 → F64 → F64
  | fin a, fin b => round (a + b)
  | inf s, inf t => if s = t then inf s else nan
  | inf s, fin _ => inf s
  | fin _, inf t => inf t
  | _, _ => nan

/-- Multiplication of `double`s. -/
def mul : F64 → F64 → F64
  | fin a, fin b => round (a * b)
  | inf s, inf t => inf (xor s t)
  | inf s, fin b => if b = 0 then nan else inf (xor s (decide (b < 0)))
  | fin a, inf t => if a = 0 then nan else inf (xor (decide (a < 0)) t)
  | _, _ => nan

/-- Division of `double`s (a zero divisor counts as `+0`; the program divides by
the constants `2` and `16` only). -/
def div : F64 → F64 → F64
  | fin a, fin b =>
    if b = 0 then (if a = 0 then nan else inf (decide (a < 0))) else round (a / b)
  | inf s, fin b => inf (xor s (decide (b < 0)))
  | fin _, inf _ => fin 0
  | _, _ => nan

/-- The conversion of a non-negative `int` to `double`. -/
def ofNat (n : Nat) : F64 := round n

instance : Add F64 := ⟨add⟩
instance : Mul F64 := ⟨mul⟩
instance : Div F64 := ⟨div⟩
instance : NatCast F64 := ⟨ofNat⟩

/-- The conversion of a `double` to `float`, as in `float angle = <double>`. -/
def toF32 : F64 → F32
  | fin q => F32.round q
  | inf s => F32.inf s
  | nan => F32.nan

/-- The constant `M_PI` of `<cmath>`, `3.14159265358979323846` read as a
`double`: `884279719003555 / 2 ^ 48`. -/
def M_PI : F64 := fin (884279719003555 / 281474976710656)

end F64

namespace TreeLayout

/-! ## Data model -/

/-- The `Node` struct. -/
structure Node where
  id : String
  parentId : String
  spouseId : String
  x : F32
  y : F32
  width : F32
  height : F32
  generation : Int
  deriving DecidableEq

/-- A value-initialised `Node`, as created by `operator[]` on a missing key. -/
instance : Inhabited Node := ⟨⟨"", "", "", 0, 0, 0, 0, 0⟩⟩

/-- The `Connector` struct. -/
structure Connector where
  fromId : String
  toId : String
  type : String
  fromX : F32
  fromY : F32
  toX : F32
  toY : F32
  deriving DecidableEq

/-- The `LayoutResult` struct. -/
structure LayoutResult where
  nodes : List Node
  connectors : List Connector
  totalWidth : F32
  totalHeight : F32
  deriving DecidableEq

/-! ## String-keyed maps -/

/-- An association list standing for `std::unordered_map<std::string, β>`. -/
abbrev StrMap (β : Type) := List (String × β)

namespace StrMap

variable {β : Type}

/-- The map's `find`: the value stored under `k`, if any. -/
def find? : StrMap β → String → Option β
  | [], _ => none
  | (k', v) :: rest, k => if k' = k then some v else find? rest k

/-- The map's `operator[]` followed by an update of the referenced value:
`m[k] = f (m[k])`, where a missing key is first given the default value. -/
def upsert [Inhabited β] : StrMap β → String → (β → β) → StrMap β
  | [], k, f => [(k, f default)]
  | (k', v) :: rest, k, f =>
    if k' = k then (k', f v) :: rest else (k', v) :: upsert rest k f

/-- The value read through `operator[]` (the default value for a missing key). -/
def get [Inhabited β] (m : StrMap β) (k : String) : β := (m.find? k).getD default

/-- The keys in iteration order. -/
def keys (m : StrMap β) : List String := m.map Prod.fst

/-- The values in iteration order. -/
def values (m : StrMap β) : List β := m.map Prod.snd

end StrMap

abbrev NodeIndex := StrMap Node
abbrev ChildrenMap := StrMap (List String)

/-! ## The layout algorithm -/

/-- The first loop of `calculateLayout`: fill `nodeIndex` and `childrenMap`. -/
def buildMaps (inputNodes : List Node) : NodeIndex × ChildrenMap :=
  inputNodes.foldl
    (fun (maps : NodeIndex × ChildrenMap) node =>
      (maps.1.upsert node.id (fun _ => node),
       if node.parentId ≠ "" then maps.2.upsert node.parentId (fun cs => cs ++ [node.id])
       else maps.2))
    ([], [])

/-- The second loop of `calculateLayout`: ids of the nodes with empty `parentId`. -/
def rootNodeIds (inputNodes : List Node) : List String :=
  inputNodes.foldl
    (fun (roots : List String) node => if node.parentId = "" then roots ++ [node.id] else roots)
    []

/-- The `for` loop over the children in `layoutSubtree`; `step` is the recursive
call.  The state is `(currentX, maxY, nodeIndex, childrenCenters)`. -/
def childrenLoop (step : String → F32 → NodeIndex → Option (F32 × F32 × NodeIndex)) :
    List String → F32 → F32 → NodeIndex → List F32 → Option (F32 × F32 × NodeIndex × List F32)
  | [], currentX, maxY, nodeIndex, childrenCenters =>
    some (currentX, maxY, nodeIndex, childrenCenters)
  | childId :: rest, currentX, maxY, nodeIndex, childrenCenters =>
    match step childId currentX nodeIndex with
    | none => none
    | some (resultX, resultY, nodeIndex1) =>
      let nodeIndex2 := nodeIndex1.upsert childId (fun n => n)
      let childNode := nodeIndex2.get childId
      childrenLoop step rest resultX (max maxY resultY) nodeIndex2
        (childrenCenters ++ [childNode.x + childNode.width / 2])

/-- The method `layoutSubtree`, returning `(currentX, maxY)` and the updated
`nodeIndex`. -/
def layoutSubtree (levelHeight siblingDistance : F32) (childrenMap : ChildrenMap) :
    Nat → String → Nat → F32 → NodeIndex → Option (F32 × F32 × NodeIndex)
  | 0, _, _, _, _ => none
  | fuel + 1, nodeId, level, startX, nodeIndex =>
    let nodeIndex0 := nodeIndex.upsert nodeId (fun n => { n with y := (level : F32) * levelHeight })
    let maxY : F32 := (nodeIndex0.get nodeId).y
    let leaf : Option (F32 × F32 × NodeIndex) :=
      some (startX + siblingDistance, maxY,
        nodeIndex0.upsert nodeId (fun n => { n with x := startX }))
    match childrenMap.find? nodeId with
    | none => leaf
    | some [] => leaf
    | some (c :: cs) =>
      match childrenLoop
          (fun childId cx idx => layoutSubtree levelHeight siblingDistance childrenMap
            fuel childId (level + 1) cx idx)
          (c :: cs) startX maxY nodeIndex0 [] with
      | none => none
      | some (currentX, maxY1, nodeIndex1, childrenCenters) =>
        let leftMost := childrenCenters.head?.getD 0
        let rightMost := childrenCenters.getLast?.getD 0
        some (currentX, maxY1,
          nodeIndex1.upsert nodeId
            (fun n => { n with x := (leftMost + rightMost) / 2 - n.width / 2 }))

/-- The loop over the roots in `calculateLayout`; the state is
`(currentX, maxY, nodeIndex)`. -/
def rootsLoop (step : String → F32 → NodeIndex → Option (F32 × F32 × NodeIndex)) :
    List String → F32 → F32 → NodeIndex → Option (F32 × F32 × NodeIndex)
  | [], currentX, maxY, nodeIndex => some (currentX, maxY, nodeIndex)
  | rootId :: rest, currentX, maxY, nodeIndex =>
    match step rootId currentX nodeIndex with
    | none => none
    | some (resultX, resultY, nodeIndex1) =>
      rootsLoop step rest resultX (max maxY resultY) nodeIndex1

/-- The parent-child connector of `node`, if its parent resolves. -/
def parentConnector (nodeIndex : NodeIndex) (node : Node) : Option Connector :=
  if node.parentId ≠ "" then
    match nodeIndex.find? node.parentId with
    | some parent =>
      some { type := "parent-child", fromId := parent.id, toId := node.id,
             fromX := parent.x + parent.width / 2, fromY := parent.y + parent.height,
             toX := node.x + node.width / 2, toY := node.y }
    | none => none
  else none

/-- The spouse connector of `node`, if its spouse resolves and has a larger id. -/
def spouseConnector (nodeIndex : NodeIndex) (node : Node) : Option Connector :=
  if node.spouseId ≠ "" then
    match nodeIndex.find? node.spouseId with
    | some spouse =>
      if node.id < spouse.id then
        some { type := "spouse", fromId := node.id, toId := spouse.id,
               fromX := node.x + node.width, fromY := node.y + node.height / 2,
               toX := spouse.x, toY := spouse.y + spouse.height / 2 }
      else none
    | none => none
  else none

/-- The method `generateConnectors`: parent-child connectors, then spouse
connectors, each in iteration order of the index. -/
def generateConnectors (nodeIndex : NodeIndex) : List Connector :=
  nodeIndex.values.filterMap (parentConnector nodeIndex) ++
    nodeIndex.values.filterMap (spouseConnector nodeIndex)

/-- The method `calculateLayout` with an explicit bound on the recursion depth. -/
def calculateLayoutFuel (fuel : Nat) (inputNodes : List Node)
    (levelHeight siblingDistance : F32) : Option LayoutResult :=
  let maps := buildMaps inputNodes
  match rootsLoop
      (fun rootId cx idx => layoutSubtree levelHeight siblingDistance maps.2 fuel rootId 0 cx idx)
      (rootNodeIds inputNodes) 0 0 maps.1 with
  | none => none
  | some (currentX, maxY, nodeIndex) =>
    some { nodes := nodeIndex.values,
           connectors := generateConnectors nodeIndex,
           totalWidth := currentX,
           totalHeight := maxY + levelHeight }

/-- The method `calculateLayout`.  The recursion depth is bounded by the number
of input nodes plus one.  A larger bound never changes a result
(`calculateLayoutFuel_mono`), and under unique ids the bound is never reached
(`fits_of_depth`), so the result is that of the unbounded recursion. -/
def calculateLayout (inputNodes : List Node) (levelHeight siblingDistance : F32) :
    Option LayoutResult :=
  calculateLayoutFuel (inputNodes.length + 1) inputNodes levelHeight siblingDistance

/-! ## The calls of `layoutSubtree`

The same code with a log added: every invocation of `layoutSubtree` appends its
arguments `(nodeId, level)` to the log.  `calculateLayoutLog_eq` shows that the
log changes nothing in the result. -/

/-- The loop `childrenLoop` around a logging `step`; `log` collects the calls. -/
def childrenLoopLog
    (step : String → F32 → NodeIndex → Option ((F32 × F32 × NodeIndex) × List (String × Nat))) :
    List String → F32 → F32 → NodeIndex → List F32 → List (String × Nat) →
      Option ((F32 × F32 × NodeIndex × List F32) × List (String × Nat))
  | [], currentX, maxY, nodeIndex, childrenCenters, log =>
    some ((currentX, maxY, nodeIndex, childrenCenters), log)
  | childId :: rest, currentX, maxY, nodeIndex, childrenCenters, log =>
    match step childId currentX nodeIndex with
    | none => none
    | some ((resultX, resultY, nodeIndex1), calls) =>
      let nodeIndex2 := nodeIndex1.upsert childId (fun n => n)
      let childNode := nodeIndex2.get childId
      childrenLoopLog step rest resultX (max maxY resultY) nodeIndex2
        (childrenCenters ++ [childNode.x + childNode.width / 2]) (log ++ calls)

/-- The method `layoutSubtree` with the log of its calls, its own call first. -/
def layoutSubtreeLog (levelHeight siblingDistance : F32) (childrenMap : ChildrenMap) :
    Nat → String → Nat → F32 → NodeIndex → Option ((F32 × F32 × NodeIndex) × List (String × Nat))
  | 0, _, _, _, _ => none
  | fuel + 1, nodeId, level, startX, nodeIndex =>
    let nodeIndex0 := nodeIndex.upsert nodeId (fun n => { n with y := (level : F32) * levelHeight })
    let maxY : F32 := (nodeIndex0.get nodeId).y
    let leaf : Option ((F32 × F32 × NodeIndex) × List (String × Nat)) :=
      some ((startX + siblingDistance, maxY,
        nodeIndex0.upsert nodeId (fun n => { n with x := startX })), [(nodeId, level)])
    match childrenMap.find? nodeId with
    | none => leaf
    | some [] => leaf
    | some (c :: cs) =>
      match childrenLoopLog
          (fun childId cx idx => layoutSubtreeLog levelHeight siblingDistance childrenMap
            fuel childId (level + 1) cx idx)
          (c :: cs) startX maxY nodeIndex0 [] [(nodeId, level)] with
      | none => none
      | some ((currentX, maxY1, nodeIndex1, childrenCenters), log) =>
        let leftMost := childrenCenters.head?.getD 0
        let rightMost := childrenCenters.getLast?.getD 0
        some ((currentX, maxY1,
          nodeIndex1.upsert nodeId
            (fun n => { n with x := (leftMost + rightMost) / 2 - n.width / 2 })), log)

/-- The loop `rootsLoop` around a logging `step`. -/
def rootsLoopLog
    (step : String → F32 → NodeIndex → Option ((F32 × F32 × NodeIndex) × List (String × Nat))) :
    List String → F32 → F32 → NodeIndex → List (String × Nat) →
      Option ((F32 × F32 × NodeIndex) × List (String × Nat))
  | [], currentX, maxY, nodeIndex, log => some ((currentX, maxY, nodeIndex), log)
  | rootId :: rest, currentX, maxY, nodeIndex, log =>
    match step rootId currentX nodeIndex with
    | none => none
    | some ((resultX, resultY, nodeIndex1), calls) =>
      rootsLoopLog step rest resultX (max maxY resultY) nodeIndex1 (log ++ calls)

/-- The method `calculateLayout` together with the log of all calls of
`layoutSubtree`. -/
def calculateLayoutLog (inputNodes : List Node) (levelHeight siblingDistance : F32) :
    Option (LayoutResult × List (String × Nat)) :=
  let maps := buildMaps inputNodes
  match rootsLoopLog
      (fun rootId cx idx => layoutSubtreeLog levelHeight siblingDistance maps.2
        (inputNodes.length + 1) rootId 0 cx idx)
      (rootNodeIds inputNodes) 0 0 maps.1 [] with
  | none => none
  | some ((currentX, maxY, nodeIndex), log) =>
    some ({ nodes := nodeIndex.values,
            connectors := generateConnectors nodeIndex,
            totalWidth := currentX,
            totalHeight := maxY + levelHeight }, log)

/-! ## Specification-level notions -/

/-- The ids of the children of the node with id `pid`, in input order: the
nodes whose `parentId` is non-empty and equal to `pid`. -/
def childIds (nodes : List Node) (pid : String) : List String :=
  if pid = "" then [] else (nodes.filter (fun n => n.parentId = pid)).map (fun n => n.id)

/-- The ids of the roots in input order: the nodes with empty `parentId`. -/
def rootIds (nodes : List Node) : List String :=
  (nodes.filter (fun n => n.parentId = "")).map (fun n => n.id)

/-- The ids of the input nodes are pairwise distinct. -/
def UniqueIds (nodes : List Node) : Prop := (nodes.map (fun n => n.id)).Nodup

/-- The node with id `id` is reachable from a root by parent links, and `d` is
the number of parent links between it and its root.  A root is an input node
with empty `parentId`; a parent link goes from an input node with non-empty
`parentId` to the node with that id. -/
inductive AtDepth (nodes : List Node) : String → Nat → Prop
  | root (n : Node) : n ∈ nodes → n.parentId = "" → AtDepth nodes n.id 0
  | child (n : Node) (d : Nat) : n ∈ nodes → n.parentId ≠ "" →
      AtDepth nodes n.parentId d → AtDepth nodes n.id (d + 1)

/-- The node with id `a` names the node with id `b` as its parent. -/
def ParentLink (nodes : List Node) (a b : String) : Prop :=
  ∃ n ∈ nodes, n.id = a ∧ n.parentId ≠ "" ∧ n.parentId = b

/-- Every parent reference resolves: a non-empty `parentId` is the id of an
input node. -/
def Resolves (nodes : List Node) : Prop :=
  ∀ n ∈ nodes, n.parentId ≠ "" → ∃ p ∈ nodes, p.id = n.parentId

/-- The parent references are acyclic: no node is reached from itself by one or
more parent links. -/
def Acyclic (nodes : List Node) : Prop :=
  ∀ a, ¬ Relation.TransGen (ParentLink nodes) a a

/-- Following parent links from any input node ends at a root.  Under unique
ids this says that all parent references resolve and are acyclic
(`parentsOK_iff`). -/
def ParentsOK (nodes : List Node) : Prop := ∀ n ∈ nodes, ∃ d, AtDepth nodes n.id d

/-- The ids met by a depth-first traversal from `id` that visits children in
the order given by `K`, cut off below `fuel` levels. -/
def subtreeIds (K : String → List String) : Nat → String → List String
  | 0, _ => []
  | fuel + 1, id => id :: (K id).flatMap (subtreeIds K fuel)

/-- The ids and levels met by the depth-first traversal from `id` at level
`lvl`, cut off below `fuel` levels. -/
def levels (K : String → List String) : Nat → String → Nat → List (String × Nat)
  | 0, _, _ => []
  | fuel + 1, id, lvl => (id, lvl) :: (K id).flatMap (fun c => levels K fuel c (lvl + 1))

/-- The depth-first traversal of the forest that visits the roots in input
order and the children of a node in input order.  Under unique ids no subtree
hanging from a root is deeper than the number of nodes, so the bound on the
depth cuts nothing off. -/
def dfsOrder (nodes : List Node) : List String :=
  (rootIds nodes).flatMap (subtreeIds (childIds nodes) (nodes.length + 1))

/-- The leaves in the order in which the depth-first traversal meets them. -/
def leafOrder (nodes : List Node) : List String :=
  (dfsOrder nodes).filter (fun id => (childIds nodes id).isEmpty)

/-- The number of leaves: the input nodes that no node names as its parent (a
node names a parent through a non-empty `parentId`). -/
def leafCount (nodes : List Node) : Nat :=
  (nodes.filter (fun n => (childIds nodes n.id).isEmpty)).length

/-- The node `a` stands before the node `b` in the input list. -/
def Precedes (nodes : List Node) (a b : Node) : Prop :=
  ∃ l1 l2 l3, nodes = l1 ++ a :: (l2 ++ b :: l3)

/-- The node with id `u` belongs to the subtree of the node with id `r`: it is
that node or reaches it by parent links. -/
def InSubtree (nodes : List Node) (u r : String) : Prop :=
  Relation.ReflTransGen (ParentLink nodes) u r

/-- The node `n` with its `generation` field replaced by `g n.id`. -/
def setGeneration (g : String → Int) (n : Node) : Node := { n with generation := g n.id }

/-- The positions and the total size of a result. -/
def LayoutResult.geometry (r : LayoutResult) : List (String × F32 × F32) × F32 × F32 :=
  (r.nodes.map (fun m => (m.id, m.x, m.y)), r.totalWidth, r.totalHeight)

/-! ## The layout as a function of the tree

The positions that `calculateLayout` assigns, computed without an index: the
verification shows that `layoutSubtree` writes exactly this plan. -/

/-- The children recorded in a `childrenMap` for `id` (none when there is no
entry). -/
def kids (cm : ChildrenMap) (id : String) : List String := (cm.find? id).getD []

/-- The width of the input node with id `k`. -/
def widthOf (nodes : List Node) (k : String) : F32 :=
  (StrMap.get (nodes.map (fun n => (n.id, n))) k).width

/-- The cursor `cx` after `k` more leaves: `siblingDistance` is added `k`
times, and every sum is rounded. -/
def advance (sd : F32) (k : Nat) (cx : F32) : F32 := (fun c => c + sd)^[k] cx

/-- A value that the cursor `currentX` can take when `siblingDistance` is not
negative: a `float` that is at least zero (`+∞` included). -/
def Cursor (c : F32) : Prop := F32.IsFloat c ∧ 0 ≤ c

/-- A planned placement of a node: its id, its level and its horizontal position. -/
structure Placed where
  id : String
  level : Nat
  x : F32
  deriving DecidableEq

/-- The placements of a list of sibling subtrees laid out from cursor `cx` on:
the centres of the siblings, the final cursor, and all placements in visiting
order.  `W` gives the width of a node and `step` plans one subtree. -/
def planForest (W : String → F32) (step : String → F32 → F32 × F32 × List Placed) :
    List String → F32 → List F32 × F32 × List Placed
  | [], cx => ([], cx, [])
  | c :: rest, cx =>
    let r := step c cx
    let rs := planForest W step rest r.2.1
    ((r.1 + W c / 2) :: rs.1, rs.2.1, r.2.2 ++ rs.2.2)

/-- The placements of the subtree of `id`, as a function of the tree alone (`K`
gives the children of a node): the position of `id`, the final cursor, and
the placements of the whole subtree, `id` first.  At most `fuel` levels are
planned. -/
def planSubtree (W : String → F32) (K : String → List String) (sd : F32) :
    Nat → String → Nat → F32 → F32 × F32 × List Placed
  | 0, _, _, sx => (0, sx, [])
  | fuel + 1, id, lvl, sx =>
    match K id with
    | [] => (sx, sx + sd, [⟨id, lvl, sx⟩])
    | c :: cs =>
      let r := planForest W (fun c cx => planSubtree W K sd fuel c (lvl + 1) cx) (c :: cs) sx
      let x := (r.1.head?.getD 0 + r.1.getLast?.getD 0) / 2 - W id / 2
      (x, r.2.1, ⟨id, lvl, x⟩ :: r.2.2)

/-- The plan of the whole layout: the root subtrees in input order, from
cursor 0 and level 0. -/
def layoutPlan (nodes : List Node) (sd : F32) : List F32 × F32 × List Placed :=
  planForest (widthOf nodes)
    (fun c cx => planSubtree (widthOf nodes) (childIds nodes) sd (nodes.length + 1) c 0 cx)
    (rootIds nodes) 0

/-- The input node `n` with its planned position written into `x` and `y`; a
node without a placement is left as it is. -/
def placeNode (lh : F32) (plan : List Placed) (n : Node) : Node :=
  match plan.find? (fun p => p.id = n.id) with
  | some p => { n with x := p.x, y := (p.level : F32) * lh }
  | none => n

/-- The subtree of `id` is less than `fuel` levels deep. -/
def fits (K : String → List String) : Nat → String → Prop
  | 0, _ => False
  | fuel + 1, id => ∀ c ∈ K id, fits K fuel c

/-- The index `idx1` is `idx` with the placements of `plan` written into the
`x` and `y` fields of the planned nodes, and nothing else changed. -/
def Applied (lh : F32) (plan : List Placed) (idx idx1 : NodeIndex) : Prop :=
  idx1.keys = idx.keys ∧
  (∀ k, k ∉ plan.map (fun p => p.id) → idx1.find? k = idx.find? k) ∧
  (∀ p ∈ plan, ∃ n, idx.find? p.id = some n ∧
    idx1.find? p.id = some { n with x := p.x, y := (p.level : F32) * lh })

/-- The value of `maxY` after the loop over sibling subtrees that starts from
`my`: `std::max` is applied to the running value and the result of each
subtree in turn. -/
def maxForest (step : String → F32) : List String → F32 → F32
  | [], my => my
  | c :: rest, my => maxForest step rest (max my (step c))

/-- The value of `maxY` that `layoutSubtree` returns for the subtree of `id`, as
a function of the tree alone. -/
def maxSubtree (lh : F32) (K : String → List String) : Nat → String → Nat → F32
  | 0, _, _ => 0
  | fuel + 1, id, lvl =>
    maxForest (fun c => maxSubtree lh K fuel c (lvl + 1)) (K id) ((lvl : F32) * lh)

/-- The value of `maxY` at the end of the loop over the roots. -/
def layoutMax (nodes : List Node) (lh : F32) : F32 :=
  maxForest (fun c => maxSubtree lh (childIds nodes) (nodes.length + 1) c 0) (rootIds nodes) 0

/-- The widths stored in `idx` are those given by `W`. -/
def WidthsOK (W : String → F32) (idx : NodeIndex) : Prop :=
  ∀ k n, idx.find? k = some n → n.width = W k

/-- The contract of `layoutSubtree` at recursion bound `f`: on an index that
holds every node of the subtree, whose traversal meets no node twice, the call
returns, advances the cursor as planned, returns the planned `maxY` and writes
the plan into the index. -/
def SubtreeSpec (W : String → F32) (lh sd : F32) (cm : ChildrenMap) (f : Nat) : Prop :=
  ∀ (id : String) (lvl : Nat) (sx : F32) (idx : NodeIndex),
    fits (kids cm) f id →
    (∀ k ∈ subtreeIds (kids cm) f id, k ∈ idx.keys) →
    (subtreeIds (kids cm) f id).Nodup →
    WidthsOK W idx →
    ∃ idx1,
      layoutSubtree lh sd cm f id lvl sx idx
        = some ((planSubtree W (kids cm) sd f id lvl sx).2.1,
            maxSubtree lh (kids cm) f id lvl, idx1) ∧
      Applied lh (planSubtree W (kids cm) sd f id lvl sx).2.2 idx idx1

/-! ## Sample inputs -/

/-- Two roots that are wider than the sibling distance used with them. -/
def wideRoots : List Node :=
  [⟨"a", "", "", 0, 0, 100, 10, 0⟩, ⟨"b", "", "", 0, 0, 100, 10, 0⟩]

/-- Two trees of nodes of one width: the root `r` with its child `c`, and the
root `s`. -/
def twoTrees : List Node :=
  [⟨"r", "", "", 5, 5, 20, 10, 0⟩, ⟨"c", "r", "", 5, 5, 20, 10, 0⟩,
   ⟨"s", "", "", 5, 5, 20, 10, 0⟩]

/-- A list with a root `r`, a cycle between `x` and `y`, a node `s` that names
itself as parent, and a node `z` with a dangling parent. -/
def tangled : List Node :=
  [⟨"r", "", "", 1, 1, 4, 10, 0⟩, ⟨"x", "y", "", 1, 1, 4, 10, 0⟩,
   ⟨"y", "x", "", 1, 1, 4, 10, 0⟩, ⟨"s", "s", "", 1, 1, 4, 10, 0⟩,
   ⟨"z", "q", "", 1, 1, 4, 10, 0⟩]

/-- A leaf root `x0` of width `1.1`, and a root `p` of width `0.3` with the single
child `c0` of width `1.1`. -/
def offCentre : List Node :=
  [⟨"x0", "", "", 0, 0, F32.dec 11 10, 1, 0⟩, ⟨"p", "", "", 0, 0, F32.dec 3 10, 1, 0⟩,
   ⟨"c0", "p", "", 0, 0, F32.dec 11 10, 1, 0⟩]

/-- Eleven roots without children. -/
def elevenRoots : List Node :=
  [⟨"r0", "", "", 0, 0, 1, 1, 0⟩, ⟨"r1", "", "", 0, 0, 1, 1, 0⟩, ⟨"r2", "", "", 0, 0, 1, 1, 0⟩,
   ⟨"r3", "", "", 0, 0, 1, 1, 0⟩, ⟨"r4", "", "", 0, 0, 1, 1, 0⟩, ⟨"r5", "", "", 0, 0, 1, 1, 0⟩,
   ⟨"r6", "", "", 0, 0, 1, 1, 0⟩, ⟨"r7", "", "", 0, 0, 1, 1, 0⟩, ⟨"r8", "", "", 0, 0, 1, 1, 0⟩,
   ⟨"r9", "", "", 0, 0, 1, 1, 0⟩, ⟨"r10", "", "", 0, 0, 1, 1, 0⟩]

/-- A chain of seven nodes: `n0` is the root and each `n(i+1)` is the child of
`n(i)`. -/
def chain : List Node :=
  [⟨"n0", "", "", 0, 0, 1, 1, 0⟩, ⟨"n1", "n0", "", 0, 0, 1, 1, 0⟩, ⟨"n2", "n1", "", 0, 0, 1, 1, 0⟩,
   ⟨"n3", "n2", "", 0, 0, 1, 1, 0⟩, ⟨"n4", "n3", "", 0, 0, 1, 1, 0⟩, ⟨"n5", "n4", "", 0, 0, 1, 1, 0⟩,
   ⟨"n6", "n5", "", 0, 0, 1, 1, 0⟩]

/-- Two roots of width `0.7`, the second with one child of the same width. -/
def snugRoots : List Node :=
  [⟨"r1", "", "", 0, 0, F32.dec 7 10, 1, 0⟩, ⟨"r2", "", "", 0, 0, F32.dec 7 10, 1, 0⟩,
   ⟨"c", "r2", "", 0, 0, F32.dec 7 10, 1, 0⟩]

/-- Two roots `a` and `b` with one child each, all of width `2 ^ 25`. -/
def hugeBoxes : List Node :=
  [⟨"a", "", "", 0, 0, 33554432, 1, 0⟩, ⟨"a1", "a", "", 0, 0, 33554432, 1, 0⟩,
   ⟨"b", "", "", 0, 0, 33554432, 1, 0⟩, ⟨"b1", "b", "", 0, 0, 33554432, 1, 0⟩]

/-- A sample family: a parent `p` with two children `a` and `b`, who name each
other as spouse. -/
def sampleFamily : List Node :=
  [⟨"p", "", "", 7, 9, 4, 10, 5⟩, ⟨"a", "p", "b", 1, 2, 2, 10, 0⟩, ⟨"b", "p", "a", 3, 4, 2, 10, 0⟩]

/-- A one-sided spouse reference: `b` names `a` as spouse, `a` names nobody. -/
def loneReference : List Node :=
  [⟨"b", "", "a", 0, 0, 2, 10, 0⟩, ⟨"a", "", "", 0, 0, 2, 10, 0⟩]

/-- A single node whose parent reference `q` matches no node. -/
def danglingNode : List Node := [⟨"z", "q", "", 7, 9, 1, 10, 5⟩]

/-- The same node with its `parentId` replaced by the empty string. -/
def danglingAsRoot : List Node := [⟨"z", "", "", 7, 9, 1, 10, 5⟩]

end TreeLayout

/-! # Viewport culling (`src/wasm/src/visibility_calculator.cpp`) -/

namespace VisibilityCalculator

/-- The `Rect` struct. -/
structure Rect where
  id : String
  x : F32
  y : F32
  width : F32
  height : F32
  deriving DecidableEq

/-- The `VisibleArea` struct. -/
structure VisibleArea where
  left : F32
  top : F32
  right : F32
  bottom : F32
  buffer : F32
  deriving DecidableEq

/-- The method `isVisible`. -/
def isVisible (rect : Rect) (area : VisibleArea) : Bool :=
  !(decide (rect.x > area.right + area.buffer) ||
    decide (rect.x + rect.width < area.left - area.buffer) ||
    decide (rect.y > area.bottom + area.buffer) ||
    decide (rect.y + rect.height < area.top - area.buffer))

/-- The method `calculateVisibleElements`: the loop pushes the id of every
visible element. -/
def calculateVisibleElements (elements : List Rect) (area : VisibleArea) : List String :=
  elements.foldl
    (fun (visibleIds : List String) element =>
      if isVisible element area then visibleIds ++ [element.id] else visibleIds)
    []

/-- The viewport of the sample: the square from `(0, 0)` to `(100, 100)` without
margin. -/
def sampleArea : VisibleArea := ⟨0, 0, 100, 100, 0⟩

/-- A viewport whose left edge `0.6`, moved out by the margin `0.3`, is rounded to
the `float` `10066330 / 33554432`. -/
def tenthsArea : VisibleArea := ⟨F32.dec 6 10, 0, 1, 1, F32.dec 3 10⟩

/-- An element at `x = 0.1` of width `0.2`, whose right edge is rounded to the
same `float`. -/
def tenthsRect : Rect := ⟨"e", F32.dec 1 10, 0, F32.dec 2 10, 1⟩

end VisibilityCalculator

/-! # Path points (`src/wasm/src/path_calculator.cpp`)

`roundRectPath` is written once, over two number types: `D` for the `double`
arithmetic in which the angles are computed (`M_PI` is a `double`, so
`i * M_PI / (2 * segments)` is a `double` expression) and `F` for the `float`
arithmetic of everything else; `narrow` is the conversion of the `double` angle
to the `float` variable `angle`.  The program is the instance `D = F64`,
`F = F32`, `narrow = F64.toF32`, with `cos` and `sin` the `float` overloads
that `<cmath>` of the WebAssembly toolchain declares; they are parameters,
because the C library fixes their values only up to its accuracy.  The instance
`D = F = ℝ` with the real cosine, sine and `π` is the path in exact arithmetic. -/

namespace PathCalculator

/-- The `Point` struct. -/
structure Point (F : Type) where
  x : F
  y : F
  deriving DecidableEq

/-- The number of segments per corner (the local constant `segments`). -/
def segments : Nat := 8

/-- The method `roundRectPath`: four loops, each pushing `segments + 1` points. -/
def roundRectPath {D F : Type} [NatCast D] [Add D] [Mul D] [Div D] [Add F] [Sub F] [Mul F]
    (narrow : D → F) (cos sin : F → F) (pi : D) (x y width height radius : F) :
    List (Point F) :=
  let points : List (Point F) := []
  let points := (List.range (segments + 1)).foldl
    (fun (pts : List (Point F)) i =>
      let angle : F := narrow ((i : D) * pi / ((2 * segments : Nat) : D))
      pts ++ [⟨x + width - radius + radius * cos angle, y + radius - radius * sin angle⟩])
    points
  let points := (List.range (segments + 1)).foldl
    (fun (pts : List (Point F)) i =>
      let angle : F := narrow ((i : D) * pi / ((2 * segments : Nat) : D) + pi / ((2 : Nat) : D))
      pts ++ [⟨x + width - radius + radius * cos angle,
               y + height - radius + radius * sin angle⟩])
    points
  let points := (List.range (segments + 1)).foldl
    (fun (pts : List (Point F)) i =>
      let angle : F := narrow ((i : D) * pi / ((2 * segments : Nat) : D) + pi)
      pts ++ [⟨x + radius + radius * cos angle, y + height - radius + radius * sin angle⟩])
    points
  let points := (List.range (segments + 1)).foldl
    (fun (pts : List (Point F)) i =>
      let angle : F := narrow
        ((i : D) * pi / ((2 * segments : Nat) : D) + ((3 : Nat) : D) * pi / ((2 : Nat) : D))
      pts ++ [⟨x + radius + radius * cos angle, y + radius + radius * sin angle⟩])
    points
  points

/-- The method `generateConnectorPoints`. -/
def generateConnectorPoints (fromX fromY toX toY : F32) (isSpouse : Bool) :
    List (Point F32) :=
  if isSpouse then
    [⟨fromX, fromY⟩, ⟨toX, toY⟩]
  else
    let midY := (fromY + toY) / 2
    [⟨fromX, fromY⟩, ⟨fromX, midY⟩, ⟨toX, midY⟩, ⟨toX, toY⟩]

/-- The value of `angle` in the loop of corner `k` at the counter `i`. -/
def arcAngle {D F : Type} [NatCast D] [Add D] [Mul D] [Div D] (narrow : D → F) (pi : D)
    (k i : Nat) : F :=
  match k with
  | 0 => narrow ((i : D) * pi / ((2 * segments : Nat) : D))
  | 1 => narrow ((i : D) * pi / ((2 * segments : Nat) : D) + pi / ((2 : Nat) : D))
  | 2 => narrow ((i : D) * pi / ((2 * segments : Nat) : D) + pi)
  | _ => narrow
      ((i : D) * pi / ((2 * segments : Nat) : D) + ((3 : Nat) : D) * pi / ((2 : Nat) : D))

/-- The point that the loop of corner `k` computes for the counter `i`. -/
def arcPoint {D F : Type} [NatCast D] [Add D] [Mul D] [Div D] [Add F] [Sub F] [Mul F]
    (narrow : D → F) (cos sin : F → F) (pi : D) (x y width height radius : F)
    (k i : Nat) : Point F :=
  match k with
  | 0 =>
    ⟨x + width - radius + radius * cos (arcAngle narrow pi 0 i),
     y + radius - radius * sin (arcAngle narrow pi 0 i)⟩
  | 1 =>
    ⟨x + width - radius + radius * cos (arcAngle narrow pi 1 i),
     y + height - radius + radius * sin (arcAngle narrow pi 1 i)⟩
  | 2 =>
    ⟨x + radius + radius * cos (arcAngle narrow pi 2 i),
     y + height - radius + radius * sin (arcAngle narrow pi 2 i)⟩
  | _ =>
    ⟨x + radius + radius * cos (arcAngle narrow pi 3 i),
     y + radius + radius * sin (arcAngle narrow pi 3 i)⟩

/-- The path of the program: `float` arithmetic, the angles computed in `double`
from `M_PI`, for the `float` functions `cos` and `sin` of the C library. -/
def floatPath (cos sin : F32 → F32) (x y width height radius : F32) : List (Point F32) :=
  roundRectPath F64.toF32 cos sin F64.M_PI x y width height radius

/-- The `float` angle of corner `k` at the counter `i`. -/
def floatAngle (k i : Nat) : F32 := arcAngle F64.toF32 F64.M_PI k i

/-- A stand-in for the cosine of a C library: its value to two decimals at the
`float`s nearest to `π / 4`, `π / 2`, `π` and `3 π / 2`, and `1` elsewhere. -/
def tableCos (a : F32) : F32 :=
  if a = F32.fin (13176795 / 16777216) then F32.dec 71 100
  else if a = F32.fin (13176795 / 8388608) then 0
  else if a = F32.fin (13176795 / 4194304) then -1
  else if a = F32.fin (2470649 / 524288) then 0
  else 1

/-- A stand-in for the sine of a C library: its value to two decimals at the
`float`s nearest to `π / 4`, `π / 2`, `π` and `3 π / 2`, and `0` elsewhere. -/
def tableSin (a : F32) : F32 :=
  if a = F32.fin (13176795 / 16777216) then F32.dec 71 100
  else if a = F32.fin (13176795 / 8388608) then 1
  else if a = F32.fin (13176795 / 4194304) then 0
  else if a = F32.fin (2470649 / 524288) then -1
  else 0

end PathCalculator

/-! # Rounding: verification -/

namespace Binary

theorem two_zpow_pos (e : Int) : (0 : ℚ) < (2 : ℚ) ^ e := zpow_pos (by norm_num) e

theorem two_zpow_le {a b : Int} (h : a ≤ b) : (2 : ℚ) ^ a ≤ (2 : ℚ) ^ b :=
  zpow_le_zpow_right₀ (by norm_num) h

theorem binadeSearch_spec (emin : Int) (q : ℚ) :
    ∀ k : Nat, emin ≤ binadeSearch emin q k ∧ binadeSearch emin q k ≤ emin + (k : Int) ∧
      (binadeSearch emin q k = emin ∨ (2 : ℚ) ^ (binadeSearch emin q k) ≤ q) ∧
      (binadeSearch emin q k = emin + (k : Int) ∨ q < (2 : ℚ) ^ (binadeSearch emin q k + 1)) := by
  intro k
  induction k with
  | zero => simp [binadeSearch]
  | succ k ih =>
    by_cases h : (2 : ℚ) ^ (emin + ((k + 1 : Nat) : Int)) ≤ q
    · have e : binadeSearch emin q (k + 1) = emin + ((k + 1 : Nat) : Int) := if_pos h
      rw [e]
      refine ⟨by omega, le_refl _, Or.inr h, Or.inl rfl⟩
    · have e : binadeSearch emin q (k + 1) = binadeSearch emin q k := if_neg h
      rw [e]
      obtain ⟨h1, h2, h3, h4⟩ := ih
      refine ⟨h1, by push_cast; omega, h3, ?_⟩
      rcases h4 with h4 | h4
      · right
        rw [h4]
        have : emin + (k : Int) + 1 = emin + ((k + 1 : Nat) : Int) := by push_cast; ring
        rw [this]
        exact lt_of_not_le h
      · exact Or.inr h4

theorem binade_spec (emin emax : Int) (q : ℚ) (he : emin ≤ emax + 1) :
    IsBinade emin emax q (binade emin emax q) := by
  unfold binade
  dsimp only
  generalize min (max (if (2 : ℚ) ^ ((log2Fuel q.num.natAbs q.num.natAbs : Int)
    - (log2Fuel q.den q.den : Int)) ≤ q then (log2Fuel q.num.natAbs q.num.natAbs : Int)
    - (log2Fuel q.den q.den : Int) else (log2Fuel q.num.natAbs q.num.natAbs : Int)
    - (log2Fuel q.den q.den : Int) - 1) emin) (emax + 1) = e0
  split_ifs with h
  · exact h
  · obtain ⟨h1, h2, h3, h4⟩ := binadeSearch_spec emin q (emax + 1 - emin).toNat
    have hk : ((emax + 1 - emin).toNat : Int) = emax + 1 - emin := Int.toNat_of_nonneg (by omega)
    rw [hk] at h2 h4
    refine ⟨h1, by omega, h3, ?_⟩
    rcases h4 with h4 | h4
    · left; omega
    · exact Or.inr h4

theorem isBinade_le {emin emax : Int} {q q' : ℚ} {e e' : Int} (h : q ≤ q')
    (hE : IsBinade emin emax q e) (hE' : IsBinade emin emax q' e') : e ≤ e' := by
  by_contra hlt
  have hlt : e' < e := lt_of_not_le hlt
  obtain ⟨a1, a2, a3, a4⟩ := hE
  obtain ⟨b1, b2, b3, b4⟩ := hE'
  have h1 : (2 : ℚ) ^ e ≤ q := by
    rcases a3 with a3 | a3
    · omega
    · exact a3
  have h2 : q' < (2 : ℚ) ^ (e' + 1) := by
    rcases b4 with b4 | b4
    · omega
    · exact b4
  have h3 : (2 : ℚ) ^ (e' + 1) ≤ (2 : ℚ) ^ e := two_zpow_le (by omega)
  linarith

theorem isBinade_unique {emin emax : Int} {q : ℚ} {e e' : Int}
    (hE : IsBinade emin emax q e) (hE' : IsBinade emin emax q e') : e = e' :=
  le_antisymm (isBinade_le (le_refl q) hE hE') (isBinade_le (le_refl q) hE' hE)

theorem binade_eq {emin emax : Int} {q : ℚ} {e : Int} (he : emin ≤ emax + 1)
    (hE : IsBinade emin emax q e) : binade emin emax q = e :=
  isBinade_unique (binade_spec emin emax q he) hE

theorem rne_mono {t t' : ℚ} (h : t ≤ t') : rne t ≤ rne t' := by
  have hf := Int.floor_mono h
  have e1 := Int.floor_le t
  have e2 := Int.lt_floor_add_one t
  have e3 := Int.floor_le t'
  have e4 := Int.lt_floor_add_one t'
  rcases hf.lt_or_eq with hlt | heq
  · have h1 : rne t ≤ ⌊t⌋ + 1 := by
      unfold rne
      split_ifs <;> omega
    have h2 : ⌊t'⌋ ≤ rne t' := by
      unfold rne
      split_ifs <;> omega
    omega
  · unfold rne
    rw [← heq]
    split_ifs <;> first | omega | (exfalso; linarith)

theorem rne_intCast (n : Int) : rne (n : ℚ) = n := by
  unfold rne
  simp

theorem rne_le_of_le {t : ℚ} {n : Int} (h : t ≤ (n : ℚ)) : rne t ≤ n := by
  have := rne_mono h
  rwa [rne_intCast] at this

theorem le_rne_of_le {t : ℚ} {n : Int} (h : (n : ℚ) ≤ t) : n ≤ rne t := by
  have := rne_mono h
  rwa [rne_intCast] at this

theorem ulp_pos (p : Nat) (emin emax : Int) (a : ℚ) : 0 < ulp p emin emax a :=
  two_zpow_pos _

theorem roundMag_zero (p : Nat) (emin emax : Int) : roundMag p emin emax 0 = 0 := by
  unfold roundMag
  simp [rne]

theorem roundMag_nonneg (p : Nat) (emin emax : Int) {a : ℚ} (ha : 0 ≤ a) :
    0 ≤ roundMag p emin emax a := by
  unfold roundMag
  have h1 : (0 : Int) ≤ rne (a / ulp p emin emax a) :=
    le_rne_of_le (by simpa using div_nonneg ha (le_of_lt (ulp_pos p emin emax a)))
  exact mul_nonneg (by exact_mod_cast h1) (le_of_lt (ulp_pos p emin emax a))

/-- In the binade with exponent `e` the rounded value lies between the ends of
the binade. -/
theorem roundMag_bounds (p : Nat) (emin emax : Int) (hp : 1 ≤ p) (a : ℚ) :
    ((2 : ℚ) ^ (binade emin emax a) ≤ a → (2 : ℚ) ^ (binade emin emax a) ≤ roundMag p emin emax a) ∧
    (a < (2 : ℚ) ^ (binade emin emax a + 1) →
      roundMag p emin emax a ≤ (2 : ℚ) ^ (binade emin emax a + 1)) := by
  have hu := ulp_pos p emin emax a
  have hlo : (2 : ℚ) ^ (binade emin emax a) = ((2 ^ (p - 1) : Int) : ℚ) * ulp p emin emax a := by
    unfold ulp
    push_cast
    rw [← zpow_natCast, ← zpow_add₀ (by norm_num : (2 : ℚ) ≠ 0)]
    congr 1
    have : ((p - 1 : Nat) : Int) = (p : Int) - 1 := by omega
    omega
  have hhi : (2 : ℚ) ^ (binade emin emax a + 1) = ((2 ^ p : Int) : ℚ) * ulp p emin emax a := by
    unfold ulp
    push_cast
    rw [← zpow_natCast, ← zpow_add₀ (by norm_num : (2 : ℚ) ≠ 0)]
    congr 1
    omega
  constructor
  · intro h
    rw [hlo] at h ⊢
    unfold roundMag
    have h1 : (2 ^ (p - 1) : Int) ≤ rne (a / ulp p emin emax a) :=
      le_rne_of_le ((le_div_iff₀ hu).2 h)
    exact mul_le_mul_of_nonneg_right (by exact_mod_cast h1) (le_of_lt hu)
  · intro h
    rw [hhi] at h ⊢
    unfold roundMag
    have h1 : rne (a / ulp p emin emax a) ≤ (2 ^ p : Int) :=
      rne_le_of_le ((div_le_iff₀ hu).2 (le_of_lt h))
    exact mul_le_mul_of_nonneg_right (by exact_mod_cast h1) (le_of_lt hu)

theorem roundMag_mono (p : Nat) (emin emax : Int) (hp : 1 ≤ p) (he : emin ≤ emax + 1)
    {a a' : ℚ} (h : a ≤ a') : roundMag p emin emax a ≤ roundMag p emin emax a' := by
  have hE := binade_spec emin emax a he
  have hE' := binade_spec emin emax a' he
  have hle := isBinade_le h hE hE'
  rcases hle.lt_or_eq with hlt | heq
  · have h1 : a < (2 : ℚ) ^ (binade emin emax a + 1) := by
      rcases hE.2.2.2 with h | h
      · have := hE'.2.1
        omega
      · exact h
    have h2 : (2 : ℚ) ^ (binade emin emax a') ≤ a' := by
      rcases hE'.2.2.1 with h | h
      · have := hE.1
        omega
      · exact h
    have h3 := (roundMag_bounds p emin emax hp a).2 h1
    have h4 := (roundMag_bounds p emin emax hp a').1 h2
    have h5 : (2 : ℚ) ^ (binade emin emax a + 1) ≤ (2 : ℚ) ^ (binade emin emax a') :=
      two_zpow_le (by omega)
    linarith
  · unfold roundMag ulp
    rw [← heq]
    have hu : (0 : ℚ) < (2 : ℚ) ^ (binade emin emax a - ((p : Int) - 1)) := two_zpow_pos _
    have h1 : rne (a / (2 : ℚ) ^ (binade emin emax a - ((p : Int) - 1)))
        ≤ rne (a' / (2 : ℚ) ^ (binade emin emax a - ((p : Int) - 1))) :=
      rne_mono (div_le_div_of_nonneg_right h (le_of_lt hu))
    exact mul_le_mul_of_nonneg_right (by exact_mod_cast h1) (le_of_lt hu)

/-- A multiple of the unit in the last place of its own binade is left unchanged. -/
theorem roundMag_of_grid (p : Nat) (emin emax : Int) (r : ℚ) (n : Int)
    (h : r = (n : ℚ) * ulp p emin emax r) : roundMag p emin emax r = r := by
  have hu := ulp_pos p emin emax r
  unfold roundMag
  have : r / ulp p emin emax r = (n : ℚ) := by
    rw [div_eq_iff (ne_of_gt hu)]
    exact h
  rw [this, rne_intCast]
  exact h.symm

theorem roundMag_idem (p : Nat) (emin emax : Int) (hp : 1 ≤ p) (he : emin ≤ emax + 1)
    {a : ℚ} (ha : 0 ≤ a) :
    roundMag p emin emax (roundMag p emin emax a) = roundMag p emin emax a := by
  have hE := binade_spec emin emax a he
  obtain ⟨b1, b2, b3, b4⟩ := hE
  have hr0 := roundMag_nonneg p emin emax ha
  have hb := roundMag_bounds p emin emax hp a
  have hu := ulp_pos p emin emax a
  -- the rounded value, as a multiple of the unit of `a`
  have hdef : roundMag p emin emax a
      = (rne (a / ulp p emin emax a) : ℚ) * ulp p emin emax a := rfl
  by_cases hcase : emax + 1 ≠ binade emin emax a ∧
      roundMag p emin emax a = (2 : ℚ) ^ (binade emin emax a + 1)
  · -- the value was rounded up to the next binade
    obtain ⟨hne, hval⟩ := hcase
    have hbin : binade emin emax (roundMag p emin emax a) = binade emin emax a + 1 := by
      apply binade_eq he
      refine ⟨by omega, by omega, Or.inr (le_of_eq hval.symm), Or.inr ?_⟩
      rw [hval]
      exact zpow_lt_zpow_right₀ (by norm_num) (by omega)
    apply roundMag_of_grid p emin emax _ (2 ^ (p - 1) : Int)
    unfold ulp
    rw [hbin, hval]
    push_cast
    rw [← zpow_natCast, ← zpow_add₀ (by norm_num : (2 : ℚ) ≠ 0)]
    congr 1
    have : ((p - 1 : Nat) : Int) = (p : Int) - 1 := by omega
    omega
  · have hbin : binade emin emax (roundMag p emin emax a) = binade emin emax a := by
      apply binade_eq he
      refine ⟨b1, b2, ?_, ?_⟩
      · rcases b3 with b3 | b3
        · exact Or.inl b3
        · exact Or.inr (hb.1 b3)
      · by_cases hmax : binade emin emax a = emax + 1
        · exact Or.inl hmax
        · rcases b4 with b4 | b4
          · exact Or.inl b4
          · right
            have h1 := hb.2 b4
            rcases h1.lt_or_eq with h1 | h1
            · exact h1
            · exact absurd ⟨fun e => hmax e.symm, h1⟩ hcase
    apply roundMag_of_grid p emin emax _ (rne (a / ulp p emin emax a))
    have : ulp p emin emax (roundMag p emin emax a) = ulp p emin emax a := by
      unfold ulp
      rw [hbin]
    rw [this]
    exact hdef

theorem roundQ_zero (p : Nat) (emin emax : Int) : roundQ p emin emax 0 = 0 := by
  unfold roundQ
  simp [roundMag_zero]

theorem roundQ_neg (p : Nat) (emin emax : Int) (q : ℚ) :
    roundQ p emin emax (-q) = - roundQ p emin emax q := by
  unfold roundQ
  rcases lt_trichotomy q 0 with h | h | h
  · have h1 : ¬ (-q < 0) := by linarith
    simp [h, h1]
  · subst h
    simp [roundMag_zero]
  · have h1 : -q < 0 := by linarith
    have h2 : ¬ (q < 0) := by linarith
    simp [h1, h2]

theorem roundQ_mono (p : Nat) (emin emax : Int) (hp : 1 ≤ p) (he : emin ≤ emax + 1)
    {q q' : ℚ} (h : q ≤ q') : roundQ p emin emax q ≤ roundQ p emin emax q' := by
  unfold roundQ
  by_cases h1 : q < 0
  · by_cases h2 : q' < 0
    · simp only [h1, h2, if_true]
      have := roundMag_mono p emin emax hp he (by linarith : -q' ≤ -q)
      linarith
    · simp only [h1, h2, if_true, if_false]
      have a1 := roundMag_nonneg p emin emax (by linarith : (0 : ℚ) ≤ -q)
      have a2 := roundMag_nonneg p emin emax (by linarith : (0 : ℚ) ≤ q')
      linarith
  · have h2 : ¬ q' < 0 := by linarith
    simp only [h1, h2, if_false]
    exact roundMag_mono p emin emax hp he h

theorem roundQ_idem (p : Nat) (emin emax : Int) (hp : 1 ≤ p) (he : emin ≤ emax + 1) (q : ℚ) :
    roundQ p emin emax (roundQ p emin emax q) = roundQ p emin emax q := by
  by_cases h1 : q < 0
  · have e : roundQ p emin emax q = - roundMag p emin emax (-q) := by
      unfold roundQ
      simp [h1]
    rw [e, roundQ_neg]
    congr 1
    have h0 := roundMag_nonneg p emin emax (by linarith : (0 : ℚ) ≤ -q)
    unfold roundQ
    rw [if_neg (by linarith)]
    exact roundMag_idem p emin emax hp he (by linarith)
  · have e : roundQ p emin emax q = roundMag p emin emax q := by
      unfold roundQ
      simp [h1]
    rw [e]
    have h0 := roundMag_nonneg p emin emax (by linarith : (0 : ℚ) ≤ q)
    unfold roundQ
    rw [if_neg (by linarith)]
    exact roundMag_idem p emin emax hp he (by linarith)

end Binary

/-! # The `float` operations: verification -/

namespace F32

theorem le_def (a b : F32) : a ≤ b ↔ le a b = true := Iff.rfl

theorem lt_def (a b : F32) : a < b ↔ lt a b = true := Iff.rfl

theorem fin_le_fin (a b : ℚ) : fin a ≤ fin b ↔ a ≤ b := by
  simp [le_def, le]

theorem fin_lt_fin (a b : ℚ) : fin a < fin b ↔ a < b := by
  simp [lt_def, lt]

theorem add_def (a b : F32) : a + b = add a b := rfl

theorem mul_def (a b : F32) : a * b = mul a b := rfl

theorem div_def (a b : F32) : a / b = div a b := rfl

theorem max_def (a b : F32) : max a b = if a < b then b else a := rfl

theorem natCast_def (n : Nat) : (n : F32) = round (n : ℚ) := rfl

theorem ofNat_def (n : Nat) : (OfNat.ofNat n : F32) = round (n : ℚ) := rfl

theorem roundQ32_zero : Binary.roundQ 24 (-126) 127 0 = 0 := Binary.roundQ_zero 24 (-126) 127

theorem round_zero : round 0 = fin 0 := by
  unfold round
  rw [roundQ32_zero]
  norm_num

theorem zero_def : (0 : F32) = fin 0 := by
  rw [ofNat_def]
  simpa using round_zero

theorem round_ne_nan (q : ℚ) : round q ≠ nan := by
  unfold round
  split_ifs <;> simp

theorem round_mono {q q' : ℚ} (h : q ≤ q') : round q ≤ round q' := by
  have hr := Binary.roundQ_mono 24 (-126) 127 (by norm_num) (by norm_num) h
  unfold round
  split_ifs <;> simp only [le_def, le, Bool.or_false, Bool.not_false, Bool.not_true,
    Bool.or_true, Bool.false_or, decide_eq_true_eq] <;> first | trivial | linarith

theorem round_isFloat (q : ℚ) : IsFloat (round q) := by
  have hi := Binary.roundQ_idem 24 (-126) 127 (by norm_num) (by norm_num) q
  unfold round
  split_ifs with h1 h2
  · trivial
  · trivial
  · show round (Binary.roundQ 24 (-126) 127 q) = fin (Binary.roundQ 24 (-126) 127 q)
    unfold round
    rw [hi, if_neg h1, if_neg h2]

theorem le_refl_of_ne_nan {x : F32} (h : x ≠ nan) : x ≤ x := by
  rcases x with _ | s | q
  · exact absurd rfl h
  · cases s <;> simp [le_def, le]
  · simp [le_def, le]

theorem ne_nan_of_le_left {a b : F32} (h : a ≤ b) : a ≠ nan := by
  rintro rfl
  simp [le_def, le] at h

theorem ne_nan_of_le_right {a b : F32} (h : a ≤ b) : b ≠ nan := by
  rintro rfl
  rcases a with _ | s | q <;> simp [le_def, le] at h

theorem le_chain {a b c : F32} (h1 : a ≤ b) (h2 : b ≤ c) : a ≤ c := by
  rcases a with _ | sa | qa <;> rcases b with _ | sb | qb <;> rcases c with _ | sc | qc <;>
    simp only [le_def, le, Bool.or_eq_true, Bool.not_eq_true', decide_eq_true_eq,
      Bool.false_eq_true] at h1 h2 ⊢ <;>
    first
    | exact le_trans h1 h2
    | (cases sa <;> cases sb <;> cases sc <;> simp_all)
    | (cases sa <;> cases sb <;> simp_all)
    | (cases sb <;> cases sc <;> simp_all)
    | (cases sa <;> cases sc <;> simp_all)
    | (cases sb <;> simp_all)
    | simp_all

theorem lt_le {a b : F32} (h : a < b) : a ≤ b := by
  rcases a with _ | sa | qa <;> rcases b with _ | sb | qb <;>
    simp only [le_def, lt_def, le, lt, Bool.and_eq_true, Bool.or_eq_true, Bool.not_eq_true',
      decide_eq_true_eq, Bool.false_eq_true] at h ⊢ <;>
    first
    | exact le_of_lt h
    | (cases sa <;> cases sb <;> simp_all)
    | simp_all

theorem not_lt_le {a b : F32} (ha : a ≠ nan) (hb : b ≠ nan) (h : ¬ a < b) : b ≤ a := by
  rcases a with _ | sa | qa
  · exact absurd rfl ha
  all_goals rcases b with _ | sb | qb
  all_goals first
    | exact absurd rfl hb
    | (simp only [le_def, lt_def, le, lt, Bool.and_eq_true, Bool.or_eq_true,
        Bool.not_eq_true', decide_eq_true_eq, Bool.false_eq_true, not_and, not_lt] at h ⊢
       first
       | exact h
       | (cases sa <;> cases sb <;> simp_all)
       | simp_all)

theorem le_not_lt {a b : F32} (h : a ≤ b) : ¬ b < a := by
  rcases a with _ | sa | qa <;> rcases b with _ | sb | qb <;>
    simp only [le_def, lt_def, le, lt, Bool.and_eq_true, Bool.or_eq_true, Bool.not_eq_true',
      decide_eq_true_eq, Bool.false_eq_true, not_and, not_lt, not_false_eq_true] at h ⊢ <;>
    first
    | exact h
    | (cases sa <;> cases sb <;> simp_all)
    | simp_all

theorem le_pinf {x : F32} (h : x ≠ nan) : x ≤ inf false := by
  rcases x with _ | s | q
  · exact absurd rfl h
  · simp [le_def, le]
  · simp [le_def, le]

theorem ninf_le {x : F32} (h : x ≠ nan) : inf true ≤ x := by
  rcases x with _ | s | q
  · exact absurd rfl h
  · simp [le_def, le]
  · simp [le_def, le]

/-- The values that are at least zero: the non-negative finite ones and `+∞`. -/
theorem zero_le_iff (x : F32) : 0 ≤ x ↔ x = inf false ∨ ∃ q, 0 ≤ q ∧ x = fin q := by
  rw [zero_def]
  rcases x with _ | s | q
  · simp [le_def, le]
  · cases s <;> simp [le_def, le]
  · simp [le_def, le]

theorem zero_lt_iff (x : F32) : 0 < x ↔ x = inf false ∨ ∃ q, 0 < q ∧ x = fin q := by
  rw [zero_def]
  rcases x with _ | s | q
  · simp [lt_def, lt]
  · cases s <;> simp [lt_def, lt]
  · simp [lt_def, lt]

theorem add_zero_of_isFloat {x : F32} (h : IsFloat x) : x + 0 = x := by
  rw [zero_def, add_def]
  rcases x with _ | s | q
  · rfl
  · rfl
  · simp only [add, add_zero]
    exact h

theorem zero_add_of_isFloat {x : F32} (h : IsFloat x) : 0 + x = x := by
  rw [zero_def, add_def]
  rcases x with _ | s | q
  · rfl
  · rfl
  · simp only [add, zero_add]
    exact h

theorem add_isFloat (a b : F32) : IsFloat (a + b) := by
  rw [add_def]
  rcases a with _ | sa | qa <;> rcases b with _ | sb | qb <;> simp only [add] <;>
    first
    | exact round_isFloat _
    | trivial
    | (split_ifs <;> trivial)

theorem mul_isFloat (a b : F32) : IsFloat (a * b) := by
  rw [mul_def]
  rcases a with _ | sa | qa <;> rcases b with _ | sb | qb <;> simp only [mul] <;>
    first
    | exact round_isFloat _
    | trivial
    | (split_ifs <;> trivial)

theorem natCast_isFloat (n : Nat) : IsFloat (n : F32) := round_isFloat _

/-- Addition is monotone in both arguments wherever its results are numbers. -/
theorem add_mono {a a' b b' : F32} (h1 : a ≤ a') (h2 : b ≤ b') (hn : a + b ≠ nan)
    (hn' : a' + b' ≠ nan) : a + b ≤ a' + b' := by
  rcases a with _ | (_ | _) | qa <;> rcases a' with _ | (_ | _) | qa' <;>
    rcases b with _ | (_ | _) | qb <;> rcases b' with _ | (_ | _) | qb' <;>
    simp only [add_def, add, le_def, le, decide_eq_true_eq, Bool.or_self, Bool.or_false,
      Bool.or_true, Bool.not_false, Bool.not_true, Bool.false_eq_true, ne_eq,
      not_true_eq_false, not_false_eq_true, if_true, if_false, reduceCtorEq] at h1 h2 hn hn' ⊢ <;>
    first
    | exact round_mono (add_le_add h1 h2)
    | exact le_pinf (round_ne_nan _)
    | exact ninf_le (round_ne_nan _)

theorem zero_le_add {a b : F32} (ha : 0 ≤ a) (hb : 0 ≤ b) : 0 ≤ a + b := by
  rcases (zero_le_iff a).1 ha with rfl | ⟨qa, hqa, rfl⟩ <;>
    rcases (zero_le_iff b).1 hb with rfl | ⟨qb, hqb, rfl⟩
  · rw [zero_def]; simp [add_def, add, le_def, le]
  · rw [zero_def]; simp [add_def, add, le_def, le]
  · rw [zero_def]; simp [add_def, add, le_def, le]
  · have := round_mono (add_nonneg hqa hqb)
    rw [round_zero] at this
    rw [zero_def]
    exact this

theorem le_add_right {a b : F32} (hf : IsFloat a) (ha : 0 ≤ a) (hb : 0 ≤ b) : a ≤ a + b := by
  have h := add_mono (le_refl_of_ne_nan (ne_nan_of_le_right ha)) hb
    (by rw [add_zero_of_isFloat hf]; exact ne_nan_of_le_right ha)
    (ne_nan_of_le_right (zero_le_add ha hb))
  rwa [add_zero_of_isFloat hf] at h

theorem natCast_mono {m n : Nat} (h : m ≤ n) : (m : F32) ≤ (n : F32) := by
  rw [natCast_def, natCast_def]
  exact round_mono (by exact_mod_cast h)

theorem natCast_nonneg (n : Nat) : (0 : F32) ≤ (n : F32) := by
  have := natCast_mono (Nat.zero_le n)
  rwa [natCast_def, Nat.cast_zero, round_zero, ← zero_def] at this

/-- Multiplication by a positive finite number is monotone on the values that
are at least zero. -/
theorem mul_le_mul_right {a a' : F32} (l : ℚ) (hl : 0 < l) (ha : 0 ≤ a) (h : a ≤ a') :
    a * fin l ≤ a' * fin l := by
  have ha' : 0 ≤ a' := le_chain ha h
  have hl0 : ¬ l = 0 := ne_of_gt hl
  have hl1 : ¬ l < 0 := not_lt.2 (le_of_lt hl)
  rcases (zero_le_iff a).1 ha with rfl | ⟨qa, hqa, rfl⟩ <;>
    rcases (zero_le_iff a').1 ha' with rfl | ⟨qb, hqb, rfl⟩
  · simp [mul_def, mul, hl0, hl1, le_def, le]
  · simp [le_def, le] at h
  · simp only [mul_def, mul, hl0, hl1, if_false, decide_False, Bool.xor_false]
    exact le_pinf (round_ne_nan _)
  · simp only [mul_def, mul]
    exact round_mono (mul_le_mul_of_nonneg_right ((fin_le_fin _ _).1 h) (le_of_lt hl))

theorem mul_nonneg_fin {a : F32} (l : ℚ) (hl : 0 < l) (ha : 0 ≤ a) : 0 ≤ a * fin l := by
  have h := mul_le_mul_right l hl (le_refl_of_ne_nan (ne_nan_of_le_left ha)) ha
  have e : (0 : F32) * fin l = 0 := by
    rw [zero_def]
    simp only [mul_def, mul, zero_mul]
    exact round_zero
  rwa [e] at h

theorem le_max_l {a b : F32} (ha : a ≠ nan) : a ≤ max a b := by
  rw [max_def]
  split_ifs with h
  · exact lt_le h
  · exact le_refl_of_ne_nan ha

theorem le_max_r {a b : F32} (ha : a ≠ nan) (hb : b ≠ nan) : b ≤ max a b := by
  rw [max_def]
  split_ifs with h
  · exact le_refl_of_ne_nan hb
  · exact not_lt_le ha hb h

theorem max_cases (a b : F32) : max a b = a ∨ max a b = b := by
  rw [max_def]
  split_ifs
  · exact Or.inr rfl
  · exact Or.inl rfl

theorem max_eq_right_of_le {a b : F32} (h : a ≤ b) : max a b = b := by
  rw [max_def]
  split_ifs with h1
  · rfl
  · have h2 := not_lt_le (ne_nan_of_le_left h) (ne_nan_of_le_right h) h1
    rcases a with _ | sa | qa <;> rcases b with _ | sb | qb <;>
      simp only [le_def, le, Bool.or_eq_true, Bool.not_eq_true', decide_eq_true_eq,
        Bool.false_eq_true] at h h2 ⊢ <;>
      first
      | exact le_antisymm h h2
      | (congr 1; exact le_antisymm h h2)
      | (cases sa <;> cases sb <;> simp_all)
      | simp_all

theorem max_eq_left_of_le {a b : F32} (h : b ≤ a) : max a b = a := by
  rw [max_def]
  rw [if_neg (le_not_lt h)]

theorem zero_mul_of_isFinite {x : F32} (h : IsFinite x) : ((0 : Nat) : F32) * x = 0 := by
  rcases x with _ | s | q
  · exact absurd h (by simp [IsFinite])
  · exact absurd h (by simp [IsFinite])
  · rw [natCast_def, Nat.cast_zero, round_zero, zero_def]
    simp only [mul_def, mul, zero_mul]
    exact round_zero

theorem le_antisymm_of_le {a b : F32} (h1 : a ≤ b) (h2 : b ≤ a) : a = b := by
  rcases a with _ | sa | qa <;> rcases b with _ | sb | qb <;>
    simp only [le_def, le, Bool.or_eq_true, Bool.not_eq_true', decide_eq_true_eq,
      Bool.false_eq_true] at h1 h2 ⊢ <;>
    first
    | exact le_antisymm h1 h2
    | (congr 1; exact le_antisymm h1 h2)
    | (cases sa <;> cases sb <;> simp_all)
    | simp_all

theorem pos_finite {x : F32} (h : 0 < x) (hf : IsFinite x) : ∃ q, 0 < q ∧ x = fin q := by
  rcases (zero_lt_iff x).1 h with rfl | h
  · exact absurd hf (by simp [IsFinite])
  · exact h

theorem natCast_mul_nonneg (l : ℚ) (hl : 0 < l) (n : Nat) : 0 ≤ (n : F32) * fin l :=
  mul_nonneg_fin l hl (natCast_nonneg n)

theorem natCast_mul_mono (l : ℚ) (hl : 0 < l) {m n : Nat} (h : m ≤ n) :
    (m : F32) * fin l ≤ (n : F32) * fin l :=
  mul_le_mul_right l hl (natCast_nonneg m) (natCast_mono h)

theorem zero_isFloat : IsFloat (0 : F32) := by
  rw [zero_def]
  exact round_zero

theorem zero_le_zero : (0 : F32) ≤ 0 := by
  rw [zero_def]
  simp [le_def, le]

theorem lt_of_le_ne {a b : F32} (h : a ≤ b) (hne : a ≠ b) : a < b := by
  rcases a with _ | sa | qa <;> rcases b with _ | sb | qb <;>
    simp only [le_def, lt_def, le, lt, Bool.and_eq_true, Bool.or_eq_true, Bool.not_eq_true',
      decide_eq_true_eq, Bool.false_eq_true, ne_eq, fin.injEq, inf.injEq] at h hne ⊢ <;>
    first
    | exact lt_iff_le_and_ne.2 ⟨h, hne⟩
    | (cases sa <;> cases sb <;> simp_all)
    | simp_all

theorem lt_le_chain {a b c : F32} (h1 : a < b) (h2 : b ≤ c) : a < c := by
  rcases a with _ | sa | qa <;> rcases b with _ | sb | qb <;> rcases c with _ | sc | qc <;>
    simp only [le_def, lt_def, le, lt, Bool.and_eq_true, Bool.or_eq_true, Bool.not_eq_true',
      decide_eq_true_eq, Bool.false_eq_true] at h1 h2 ⊢ <;>
    first
    | exact h1.trans_le h2
    | simp_all

theorem ne_nan_of_isFinite {x : F32} (h : IsFinite x) : x ≠ nan := by
  rintro rfl
  exact h

theorem add_ne_nan {a b : F32} (ha : IsFinite a) (hb : 0 ≤ b) : a + b ≠ nan := by
  rcases a with _ | sa | qa
  · exact absurd ha (by simp [IsFinite])
  · exact absurd ha (by simp [IsFinite])
  · rcases (zero_le_iff b).1 hb with rfl | ⟨qb, -, rfl⟩
    · simp [add_def, add]
    · rw [add_def]
      exact round_ne_nan _

/-- Adding a non-negative number to a finite `float` does not make it smaller. -/
theorem le_add_nonneg {a b : F32} (hf : IsFloat a) (ha : IsFinite a) (hb : 0 ≤ b) :
    a ≤ a + b := by
  have h := add_mono (le_refl_of_ne_nan (ne_nan_of_isFinite ha)) hb
    (by rw [add_zero_of_isFloat hf]; exact ne_nan_of_isFinite ha) (add_ne_nan ha hb)
  rwa [add_zero_of_isFloat hf] at h

theorem neg_def (a : F32) : -a = neg a := rfl

theorem one_def : (1 : F32) = fin 1 := by
  rw [ofNat_def]
  decide!

/-- Unary minus reverses the order. -/
theorem neg_le_neg_of_le {a b : F32} (h : a ≤ b) : -b ≤ -a := by
  rw [neg_def, neg_def]
  rcases a with _ | sa | qa <;> rcases b with _ | sb | qb <;>
    simp only [le_def, le, neg, Bool.or_eq_true, Bool.not_eq_true', decide_eq_true_eq,
      Bool.false_eq_true] at h ⊢ <;>
    first
    | exact neg_le_neg h
    | (cases sa <;> cases sb <;> simp_all)
    | (cases sa <;> simp_all)
    | (cases sb <;> simp_all)

/-- Multiplication by a positive finite number keeps the order. -/
theorem mul_mono_right {q : ℚ} (hq : 0 < q) {b b' : F32} (h : b ≤ b') :
    fin q * b ≤ fin q * b' := by
  have hq0 : ¬ q = 0 := ne_of_gt hq
  have hq1 : ¬ q < 0 := not_lt.2 hq.le
  rcases b with _ | sb | qb
  · exact absurd rfl (ne_nan_of_le_left h)
  · rcases b' with _ | sb' | qb'
    · exact absurd rfl (ne_nan_of_le_right h)
    · simp only [mul_def, mul, hq0, hq1, if_false, decide_False, Bool.false_xor]
      exact h
    · cases sb
      · simp [le_def, le] at h
      · simp only [mul_def, mul, hq0, hq1, if_false, decide_False, Bool.false_xor]
        exact ninf_le (round_ne_nan _)
  · rcases b' with _ | sb' | qb'
    · exact absurd rfl (ne_nan_of_le_right h)
    · cases sb'
      · simp only [mul_def, mul, hq0, hq1, if_false, decide_False, Bool.false_xor]
        exact le_pinf (round_ne_nan _)
      · simp [le_def, le] at h
    · simp only [mul_def, mul]
      exact round_mono (mul_le_mul_of_nonneg_left ((fin_le_fin _ _).1 h) hq.le)

/-- Multiplication of finite numbers by a non-negative finite number keeps the
order. -/
theorem mul_mono_fin {q : ℚ} (hq : 0 ≤ q) {b b' : ℚ} (h : b ≤ b') :
    fin q * fin b ≤ fin q * fin b' := by
  simp only [mul_def, mul]
  exact round_mono (mul_le_mul_of_nonneg_left h hq)

theorem add_ne_nan_left {a b : F32} (ha : IsFinite a) (hb : b ≠ nan) : a + b ≠ nan := by
  rcases a with _ | sa | qa
  · exact absurd ha (by simp [IsFinite])
  · exact absurd ha (by simp [IsFinite])
  · rcases b with _ | sb | qb
    · exact absurd rfl hb
    · simp [add_def, add]
    · rw [add_def]
      exact round_ne_nan _

theorem mul_one_of_isFloat {x : F32} (h : IsFloat x) (hf : IsFinite x) : x * 1 = x := by
  rcases x with _ | s | q
  · exact absurd hf (by simp [IsFinite])
  · exact absurd hf (by simp [IsFinite])
  · rw [one_def, mul_def]
    simp only [mul, mul_one]
    exact h

theorem sub_as_add (a b : F32) : a - b = a + -b := rfl

theorem affine_mono (b : ℚ) {r : ℚ} (hr : 0 < r) {c c' : F32} (h : c ≤ c') :
    fin b + fin r * c ≤ fin b + fin r * c' :=
  add_mono (le_refl_of_ne_nan (by simp)) (mul_mono_right hr h)
    (add_ne_nan_left trivial (ne_nan_of_le_left (mul_mono_right hr h)))
    (add_ne_nan_left trivial (ne_nan_of_le_right (mul_mono_right hr h)))

theorem affine_anti (b : ℚ) {r : ℚ} (hr : 0 < r) {c c' : F32} (h : c ≤ c') :
    fin b - fin r * c' ≤ fin b - fin r * c := by
  have hm := neg_le_neg_of_le (mul_mono_right hr h)
  rw [sub_as_add, sub_as_add]
  exact add_mono (le_refl_of_ne_nan (by simp)) hm
    (add_ne_nan_left trivial (ne_nan_of_le_left hm))
    (add_ne_nan_left trivial (ne_nan_of_le_right hm))

theorem le_lt_absurd {a b c : F32} (h1 : a ≤ b) (h2 : b < c) (h3 : c ≤ a) : False :=
  le_not_lt (le_chain h3 h1) h2

theorem ne_above {a b c : F32} (h : a ≤ b) (hbc : b < c) : a ≠ c := by
  rintro rfl
  exact le_not_lt h hbc

theorem ne_below {a b c : F32} (hab : a < b) (h : b ≤ c) : c ≠ a := by
  rintro rfl
  exact le_not_lt h hab

end F32

/-! # Tree layout: verification -/

namespace TreeLayout

/-! ## Basic facts about string-keyed maps -/

namespace StrMap

variable {β : Type}

theorem find?_eq_none_iff (m : StrMap β) (k : String) : m.find? k = none ↔ k ∉ m.keys := by
  induction m with
  | nil => simp [find?, keys]
  | cons e rest ih =>
    obtain ⟨k', v⟩ := e
    by_cases h : k' = k
    · simp [find?, keys, h]
    · have h' : ¬ k = k' := fun e => h e.symm
      simp [find?, keys, h, h'] at ih ⊢
      exact ih

theorem find?_isSome_of_mem (m : StrMap β) (k : String) (h : k ∈ m.keys) :
    ∃ v, m.find? k = some v := by
  cases hf : m.find? k with
  | none => exact absurd h ((find?_eq_none_iff m k).1 hf)
  | some v => exact ⟨v, rfl⟩

theorem find?_upsert [Inhabited β] (m : StrMap β) (k k' : String) (f : β → β) :
    (m.upsert k f).find? k' = if k' = k then some (f (m.get k)) else m.find? k' := by
  induction m with
  | nil =>
    by_cases h : k' = k
    · simp [upsert, find?, get, h]
    · have h' : ¬ k = k' := fun e => h e.symm
      simp [upsert, find?, h, h']
  | cons e rest ih =>
    obtain ⟨k0, v⟩ := e
    by_cases h0 : k0 = k
    · subst h0
      by_cases h : k' = k0
      · simp [upsert, find?, get, h]
      · have h' : ¬ k0 = k' := fun e => h e.symm
        simp [upsert, find?, h, h']
    · by_cases h : k' = k
      · subst h
        simp [upsert, find?, get, h0] at ih ⊢
        exact ih
      · by_cases h1 : k0 = k'
        · simp [upsert, find?, h0, h, h1]
        · simp [upsert, find?, h0, h, h1] at ih ⊢
          exact ih

theorem get_upsert_self [Inhabited β] (m : StrMap β) (k : String) (f : β → β) :
    (m.upsert k f).get k = f (m.get k) := by
  simp [get, find?_upsert]

theorem keys_upsert_of_mem [Inhabited β] (m : StrMap β) (k : String) (f : β → β)
    (h : k ∈ m.keys) : (m.upsert k f).keys = m.keys := by
  induction m with
  | nil => simp [keys] at h
  | cons e rest ih =>
    obtain ⟨k0, v⟩ := e
    by_cases h0 : k0 = k
    · simp [upsert, keys, h0]
    · have hr : k ∈ keys rest := by
        simp only [keys, List.map_cons, List.mem_cons] at h
        rcases h with h | h
        · exact absurd h.symm h0
        · exact h
      have := ih hr
      simp only [keys] at this
      simp [upsert, keys, h0, this]

theorem upsert_of_not_mem [Inhabited β] (m : StrMap β) (k : String) (f : β → β)
    (h : k ∉ m.keys) : m.upsert k f = m ++ [(k, f default)] := by
  induction m with
  | nil => simp [upsert]
  | cons e rest ih =>
    obtain ⟨k0, v⟩ := e
    simp only [keys, List.map_cons, List.mem_cons, not_or] at h
    have h0 : ¬ k0 = k := fun e => h.1 e.symm
    have := ih h.2
    simp [upsert, h0, this]

theorem upsert_id_of_mem [Inhabited β] (m : StrMap β) (k : String) (h : k ∈ m.keys) :
    m.upsert k (fun n => n) = m := by
  induction m with
  | nil => simp [keys] at h
  | cons e rest ih =>
    obtain ⟨k0, v⟩ := e
    by_cases h0 : k0 = k
    · simp [upsert, h0]
    · have hr : k ∈ keys rest := by
        simp only [keys, List.map_cons, List.mem_cons] at h
        rcases h with h | h
        · exact absurd h.symm h0
        · exact h
      simp [upsert, h0, ih hr]

end StrMap

/-! ## The lookup tables built by `calculateLayout` -/

theorem buildMaps_fold (nodes : List Node) (ni : NodeIndex) (cm : ChildrenMap) :
    nodes.foldl
      (fun (maps : NodeIndex × ChildrenMap) node =>
        (maps.1.upsert node.id (fun _ => node),
         if node.parentId ≠ "" then maps.2.upsert node.parentId (fun cs => cs ++ [node.id])
         else maps.2))
      (ni, cm)
    = (nodes.foldl (fun (m : NodeIndex) node => m.upsert node.id (fun _ => node)) ni,
       nodes.foldl (fun (m : ChildrenMap) node =>
         if node.parentId ≠ "" then m.upsert node.parentId (fun cs => cs ++ [node.id])
         else m) cm) := by
  induction nodes generalizing ni cm with
  | nil => rfl
  | cons n rest ih => simp only [List.foldl_cons]; exact ih _ _

theorem index_fold_of_nodup (nodes : List Node) (ni : NodeIndex)
    (hn : (nodes.map (fun n => n.id)).Nodup) (hd : ∀ n ∈ nodes, n.id ∉ ni.keys) :
    nodes.foldl (fun (m : NodeIndex) node => m.upsert node.id (fun _ => node)) ni
      = ni ++ nodes.map (fun n => (n.id, n)) := by
  induction nodes generalizing ni with
  | nil => simp
  | cons n rest ih =>
    simp only [List.map_cons, List.nodup_cons] at hn
    simp only [List.foldl_cons]
    rw [StrMap.upsert_of_not_mem _ _ _ (hd n (List.mem_cons_self _ _))]
    rw [ih _ hn.2]
    · simp
    · intro m hm hk
      simp only [StrMap.keys, List.map_append, List.map_cons, List.map_nil, List.mem_append,
        List.mem_singleton] at hk
      rcases hk with hk | hk
      · exact hd m (List.mem_cons_of_mem _ hm) hk
      · exact hn.1 (hk ▸ List.mem_map.2 ⟨m, hm, rfl⟩)

theorem buildMaps_index (nodes : List Node) (hn : (nodes.map (fun n => n.id)).Nodup) :
    (buildMaps nodes).1 = nodes.map (fun n => (n.id, n)) := by
  unfold buildMaps
  rw [buildMaps_fold]
  simp only
  rw [index_fold_of_nodup nodes [] hn (by intro n _; simp [StrMap.keys])]
  simp

theorem kids_upsert (cm : ChildrenMap) (p i q : String) :
    kids (cm.upsert p (fun cs => cs ++ [i])) q
      = if q = p then kids cm p ++ [i] else kids cm q := by
  unfold kids
  rw [StrMap.find?_upsert]
  by_cases h : q = p
  · simp only [h, if_true, Option.getD_some, StrMap.get]
    rfl
  · simp [h]

theorem kids_fold (nodes : List Node) (cm : ChildrenMap) (pid : String) :
    kids (nodes.foldl (fun (m : ChildrenMap) node =>
         if node.parentId ≠ "" then m.upsert node.parentId (fun cs => cs ++ [node.id])
         else m) cm) pid
      = kids cm pid ++ childIds nodes pid := by
  induction nodes generalizing cm with
  | nil => simp [childIds]
  | cons n rest ih =>
    simp only [List.foldl_cons]
    rw [ih]
    by_cases hp : n.parentId = ""
    · by_cases hq : pid = ""
      · simp [childIds, hp, hq]
      · have : ¬ "" = pid := fun e => hq e.symm
        simp [childIds, hp, hq, List.filter_cons, this]
    · by_cases hq : pid = n.parentId
      · subst hq
        simp [childIds, hp, kids_upsert, List.filter_cons]
      · have : ¬ n.parentId = pid := fun e => hq e.symm
        by_cases hq0 : pid = ""
        · subst hq0
          simp [childIds, hp, kids_upsert, hq]
        · simp [childIds, hp, kids_upsert, hq, hq0, List.filter_cons, this]

theorem kids_buildMaps (nodes : List Node) (pid : String) :
    kids (buildMaps nodes).2 pid = childIds nodes pid := by
  unfold buildMaps
  rw [buildMaps_fold]
  simp only
  rw [kids_fold]
  simp [kids, StrMap.find?]

theorem roots_fold (nodes : List Node) (acc : List String) :
    nodes.foldl
      (fun (roots : List String) node => if node.parentId = "" then roots ++ [node.id] else roots)
      acc = acc ++ rootIds nodes := by
  induction nodes generalizing acc with
  | nil => simp [rootIds]
  | cons n rest ih =>
    simp only [List.foldl_cons]
    rw [ih]
    by_cases hp : n.parentId = ""
    · simp [rootIds, hp, List.filter_cons]
    · simp [rootIds, hp, List.filter_cons]

theorem rootNodeIds_eq (nodes : List Node) : rootNodeIds nodes = rootIds nodes := by
  unfold rootNodeIds
  rw [roots_fold]
  simp

/-! ## The plan of a subtree -/

theorem planForest_ids (W : String → F32) (step : String → F32 → F32 × F32 × List Placed)
    (g : String → List String)
    (h : ∀ c cx, (step c cx).2.2.map (fun p => p.id) = g c) (cs : List String) (cx : F32) :
    (planForest W step cs cx).2.2.map (fun p => p.id) = cs.flatMap g := by
  induction cs generalizing cx with
  | nil => simp [planForest]
  | cons c rest ih => simp [planForest, h, ih]

theorem planSubtree_ids (W : String → F32) (K : String → List String) (sd : F32) (f : Nat) :
    ∀ (id : String) (lvl : Nat) (sx : F32),
      (planSubtree W K sd f id lvl sx).2.2.map (fun p => p.id) = subtreeIds K f id := by
  induction f with
  | zero => intro id lvl sx; simp [planSubtree, subtreeIds]
  | succ f ih =>
    intro id lvl sx
    cases hk : K id with
    | nil => simp [planSubtree, subtreeIds, hk]
    | cons c cs =>
      simp only [planSubtree, subtreeIds, hk, List.map_cons]
      rw [planForest_ids W _ (subtreeIds K f) (fun c cx => ih c (lvl + 1) cx)]

theorem planForest_subtree_ids (W : String → F32) (K : String → List String) (sd : F32) (f : Nat)
    (lvl : Nat) (cs : List String) (cx : F32) :
    (planForest W (fun c cx => planSubtree W K sd f c lvl cx) cs cx).2.2.map (fun p => p.id)
      = cs.flatMap (subtreeIds K f) :=
  planForest_ids W _ _ (fun c cx => planSubtree_ids W K sd f c lvl cx) cs cx

theorem planSubtree_self (W : String → F32) (K : String → List String) (sd : F32) (f : Nat)
    (id : String) (lvl : Nat) (sx : F32) :
    (⟨id, lvl, (planSubtree W K sd (f + 1) id lvl sx).1⟩ : Placed)
      ∈ (planSubtree W K sd (f + 1) id lvl sx).2.2 := by
  cases hk : K id with
  | nil => simp [planSubtree, hk]
  | cons c cs => simp [planSubtree, hk]

theorem fits_pos (K : String → List String) (f : Nat) (id : String) (h : fits K f id) :
    ∃ g, f = g + 1 := by
  cases f with
  | zero => exact absurd h (by simp [fits])
  | succ g => exact ⟨g, rfl⟩

/-! ## Writing a plan into the index -/

theorem Applied.nil (lh : F32) (idx : NodeIndex) : Applied lh [] idx idx :=
  ⟨rfl, fun _ _ => rfl, fun p hp => absurd hp (List.not_mem_nil p)⟩

theorem Applied.append (lh : F32) (pl1 pl2 : List Placed) (idx idx1 idx2 : NodeIndex)
    (h1 : Applied lh pl1 idx idx1) (h2 : Applied lh pl2 idx1 idx2)
    (hd : ∀ k, k ∈ pl1.map (fun p => p.id) → k ∉ pl2.map (fun p => p.id)) :
    Applied lh (pl1 ++ pl2) idx idx2 := by
  obtain ⟨k1, f1, p1⟩ := h1
  obtain ⟨k2, f2, p2⟩ := h2
  refine ⟨k2.trans k1, ?_, ?_⟩
  · intro k hk
    simp only [List.map_append, List.mem_append, not_or] at hk
    rw [f2 k hk.2, f1 k hk.1]
  · intro p hp
    rcases List.mem_append.1 hp with hp | hp
    · obtain ⟨n, hn, hn1⟩ := p1 p hp
      refine ⟨n, hn, ?_⟩
      rw [f2 p.id (hd p.id (List.mem_map.2 ⟨p, hp, rfl⟩)), hn1]
    · obtain ⟨n, hn, hn1⟩ := p2 p hp
      refine ⟨n, ?_, hn1⟩
      rw [← f1 p.id ?_]
      · exact hn
      · intro hin
        exact hd p.id hin (List.mem_map.2 ⟨p, hp, rfl⟩)

theorem WidthsOK.applied (W : String → F32) (lh : F32) (plan : List Placed) (idx idx1 : NodeIndex)
    (hw : WidthsOK W idx) (ha : Applied lh plan idx idx1) : WidthsOK W idx1 := by
  obtain ⟨_, fr, pl⟩ := ha
  intro k n hn
  by_cases hk : k ∈ plan.map (fun p => p.id)
  · obtain ⟨p, hp, rfl⟩ := List.mem_map.1 hk
    obtain ⟨n0, h0, h1⟩ := pl p hp
    rw [h1] at hn
    cases hn
    exact hw p.id n0 h0
  · rw [fr k hk] at hn
    exact hw _ _ hn

/-! ## `layoutSubtree` writes the plan -/

theorem layoutSubtree_leaf (lh sd : F32) (cm : ChildrenMap) (f : Nat) (id : String) (lvl : Nat)
    (sx : F32) (idx : NodeIndex) (h : kids cm id = []) :
    layoutSubtree lh sd cm (f + 1) id lvl sx idx =
      some (sx + sd, (lvl : F32) * lh,
        (idx.upsert id (fun n => { n with y := (lvl : F32) * lh })).upsert id
          (fun n => { n with x := sx })) := by
  unfold kids at h
  simp only [layoutSubtree, StrMap.get_upsert_self]
  cases hf : cm.find? id with
  | none => rfl
  | some l =>
    cases l with
    | nil => rfl
    | cons c cs => simp [hf] at h

theorem layoutSubtree_node (lh sd : F32) (cm : ChildrenMap) (f : Nat) (id : String) (lvl : Nat)
    (sx : F32) (idx : NodeIndex) (c : String) (cs : List String) (h : kids cm id = c :: cs) :
    layoutSubtree lh sd cm (f + 1) id lvl sx idx =
      match childrenLoop (fun childId cx idx => layoutSubtree lh sd cm f childId (lvl + 1) cx idx)
          (c :: cs) sx ((lvl : F32) * lh)
          (idx.upsert id (fun n => { n with y := (lvl : F32) * lh })) [] with
      | none => none
      | some (currentX, maxY1, nodeIndex1, childrenCenters) =>
        some (currentX, maxY1,
          nodeIndex1.upsert id
            (fun n => { n with x := (childrenCenters.head?.getD 0
              + childrenCenters.getLast?.getD 0) / 2 - n.width / 2 })) := by
  unfold kids at h
  simp only [layoutSubtree, StrMap.get_upsert_self]
  cases hf : cm.find? id with
  | none => simp [hf] at h
  | some l =>
    simp only [hf, Option.getD_some] at h
    subst h
    rfl

theorem childrenLoop_spec (W : String → F32) (lh sd : F32) (cm : ChildrenMap) (f : Nat)
    (hS : SubtreeSpec W lh sd cm f) (lvl : Nat) :
    ∀ (cs : List String) (cx my0 : F32) (idx : NodeIndex) (cen : List F32),
      (∀ c ∈ cs, fits (kids cm) f c) →
      (∀ k ∈ cs.flatMap (subtreeIds (kids cm) f), k ∈ idx.keys) →
      (cs.flatMap (subtreeIds (kids cm) f)).Nodup →
      WidthsOK W idx →
      ∃ idx1,
        childrenLoop (fun c cx idx => layoutSubtree lh sd cm f c lvl cx idx) cs cx my0 idx cen
          = some ((planForest W (fun c cx => planSubtree W (kids cm) sd f c lvl cx) cs cx).2.1,
              maxForest (fun c => maxSubtree lh (kids cm) f c lvl) cs my0, idx1,
              cen ++ (planForest W (fun c cx => planSubtree W (kids cm) sd f c lvl cx) cs cx).1) ∧
        Applied lh (planForest W (fun c cx => planSubtree W (kids cm) sd f c lvl cx) cs cx).2.2
          idx idx1 := by
  intro cs
  induction cs with
  | nil =>
    intro cx my0 idx cen _ _ _ _
    exact ⟨idx, by simp [childrenLoop, planForest, maxForest], Applied.nil lh idx⟩
  | cons c rest ih =>
    intro cx my0 idx cen hfit hpres hnd hw
    have hfc := hfit c (List.mem_cons_self _ _)
    obtain ⟨g, rfl⟩ := fits_pos _ _ _ hfc
    simp only [List.flatMap_cons] at hpres hnd
    obtain ⟨hnd1, hnd2, hdisj⟩ := List.nodup_append.1 hnd
    obtain ⟨idx1, hrun, happ⟩ :=
      hS c lvl cx idx hfc (fun k hk => hpres k (List.mem_append_left _ hk)) hnd1 hw
    have hw1 := WidthsOK.applied W lh _ idx idx1 hw happ
    have hcin : c ∈ idx1.keys := by
      rw [happ.1]
      exact hpres c (List.mem_append_left _ (by simp [subtreeIds]))
    obtain ⟨n, hn, hn1⟩ := happ.2.2 _ (planSubtree_self W (kids cm) sd g c lvl cx)
    obtain ⟨idx2, hrun2, happ2⟩ :=
      ih (planSubtree W (kids cm) sd (g + 1) c lvl cx).2.1
        (max my0 (maxSubtree lh (kids cm) (g + 1) c lvl)) idx1
        (cen ++ [(planSubtree W (kids cm) sd (g + 1) c lvl cx).1 + W c / 2])
        (fun c hc => hfit c (List.mem_cons_of_mem _ hc))
        (fun k hk => by rw [happ.1]; exact hpres k (List.mem_append_right _ hk)) hnd2 hw1
    refine ⟨idx2, ?_, ?_⟩
    · simp only [childrenLoop, hrun, StrMap.upsert_id_of_mem _ _ hcin, StrMap.get, hn1,
        Option.getD_some, planForest, maxForest, hw c n hn]
      rw [hrun2]
      simp
    · simp only [planForest]
      refine Applied.append lh _ _ idx idx1 idx2 happ happ2 ?_
      intro k hk1 hk2
      rw [planSubtree_ids] at hk1
      rw [planForest_subtree_ids] at hk2
      exact hdisj hk1 hk2

theorem maxSubtree_succ (lh : F32) (K : String → List String) (f : Nat) (id : String)
    (lvl : Nat) :
    maxSubtree lh K (f + 1) id lvl
      = maxForest (fun c => maxSubtree lh K f c (lvl + 1)) (K id) ((lvl : F32) * lh) := rfl

theorem layoutSubtree_spec (W : String → F32) (lh sd : F32) (cm : ChildrenMap) :
    ∀ f, SubtreeSpec W lh sd cm f := by
  intro f
  induction f with
  | zero =>
    intro id lvl sx idx hfit
    exact absurd hfit (by simp [fits])
  | succ f ih =>
    intro id lvl sx idx hfit hpres hnd hw
    have hid : id ∈ idx.keys := hpres id (by simp [subtreeIds])
    obtain ⟨n, hn⟩ := StrMap.find?_isSome_of_mem idx id hid
    have hgetn : idx.get id = n := by simp [StrMap.get, hn]
    have hk0 : (idx.upsert id (fun n => { n with y := (lvl : F32) * lh })).keys = idx.keys :=
      StrMap.keys_upsert_of_mem _ _ _ hid
    cases hk : kids cm id with
    | nil =>
      refine ⟨(idx.upsert id (fun n => { n with y := (lvl : F32) * lh })).upsert id
          (fun n => { n with x := sx }), ?_, ?_⟩
      · rw [layoutSubtree_leaf _ _ _ _ _ _ _ _ hk, maxSubtree_succ, hk]
        simp [planSubtree, hk, maxForest]
      · simp only [planSubtree, hk]
        refine ⟨?_, ?_, ?_⟩
        · rw [StrMap.keys_upsert_of_mem _ _ _ (by rw [hk0]; exact hid), hk0]
        · intro k hk1
          simp only [List.map_cons, List.map_nil, List.mem_singleton] at hk1
          simp [StrMap.find?_upsert, hk1]
        · intro p hp
          simp only [List.mem_singleton] at hp
          subst hp
          exact ⟨n, hn, by simp [StrMap.find?_upsert, StrMap.get, hn]⟩
    | cons c cs =>
      have hfit1 : ∀ c1 ∈ kids cm id, fits (kids cm) f c1 := hfit
      rw [hk] at hfit1
      simp only [subtreeIds, hk] at hpres hnd
      obtain ⟨hnotin, hndf⟩ := List.nodup_cons.1 hnd
      have hw0 : WidthsOK W (idx.upsert id (fun n => { n with y := (lvl : F32) * lh })) := by
        intro k m hm
        rw [StrMap.find?_upsert] at hm
        by_cases hkid : k = id
        · simp only [hkid, if_true, Option.some.injEq, hgetn] at hm
          subst hm
          rw [hkid]
          exact hw id n hn
        · simp only [hkid, if_false] at hm
          exact hw k m hm
      obtain ⟨idx1, hrun, happ⟩ :=
        childrenLoop_spec W lh sd cm f ih (lvl + 1) (c :: cs) sx ((lvl : F32) * lh)
          (idx.upsert id (fun n => { n with y := (lvl : F32) * lh })) [] hfit1
          (fun k hk1 => by rw [hk0]; exact hpres k (List.mem_cons_of_mem _ hk1)) hndf hw0
      have hid1 : id ∈ idx1.keys := by rw [happ.1, hk0]; exact hid
      have hnotin1 : id ∉ (planForest W (fun c cx => planSubtree W (kids cm) sd f c (lvl + 1) cx)
          (c :: cs) sx).2.2.map (fun p => p.id) := by
        rw [planForest_subtree_ids]
        exact hnotin
      have hfind1 : idx1.find? id = some { n with y := (lvl : F32) * lh } := by
        rw [happ.2.1 id hnotin1, StrMap.find?_upsert]
        simp [hgetn]
      refine ⟨idx1.upsert id (fun n => { n with x :=
          ((planForest W (fun c cx => planSubtree W (kids cm) sd f c (lvl + 1) cx)
              (c :: cs) sx).1.head?.getD 0
            + (planForest W (fun c cx => planSubtree W (kids cm) sd f c (lvl + 1) cx)
              (c :: cs) sx).1.getLast?.getD 0) / 2 - n.width / 2 }), ?_, ?_⟩
      · rw [layoutSubtree_node _ _ _ _ _ _ _ _ c cs hk, hrun, maxSubtree_succ, hk]
        simp [planSubtree, hk]
      · simp only [planSubtree, hk]
        refine ⟨?_, ?_, ?_⟩
        · rw [StrMap.keys_upsert_of_mem _ _ _ hid1, happ.1, hk0]
        · intro k hk1
          simp only [List.map_cons, List.mem_cons, not_or] at hk1
          rw [StrMap.find?_upsert]
          simp only [hk1.1, if_false]
          rw [happ.2.1 k hk1.2, StrMap.find?_upsert]
          simp [hk1.1]
        · intro p hp
          rcases List.mem_cons.1 hp with hp | hp
          · subst hp
            refine ⟨n, hn, ?_⟩
            rw [StrMap.find?_upsert]
            simp [StrMap.get, hfind1, hw id n hn]
          · obtain ⟨m, hm, hm1⟩ := happ.2.2 p hp
            have hne : p.id ≠ id := by
              intro e
              exact hnotin1 (List.mem_map.2 ⟨p, hp, e⟩)
            rw [StrMap.find?_upsert] at hm
            simp only [hne, if_false] at hm
            refine ⟨m, hm, ?_⟩
            rw [StrMap.find?_upsert]
            simp only [hne, if_false]
            exact hm1

theorem rootsLoop_spec (W : String → F32) (lh sd : F32) (cm : ChildrenMap) (f : Nat) (lvl : Nat) :
    ∀ (rs : List String) (cx my0 : F32) (idx : NodeIndex),
      (∀ r ∈ rs, fits (kids cm) f r) →
      (∀ k ∈ rs.flatMap (subtreeIds (kids cm) f), k ∈ idx.keys) →
      (rs.flatMap (subtreeIds (kids cm) f)).Nodup →
      WidthsOK W idx →
      ∃ idx1,
        rootsLoop (fun r cx idx => layoutSubtree lh sd cm f r lvl cx idx) rs cx my0 idx
          = some ((planForest W (fun c cx => planSubtree W (kids cm) sd f c lvl cx) rs cx).2.1,
              maxForest (fun c => maxSubtree lh (kids cm) f c lvl) rs my0, idx1) ∧
        Applied lh (planForest W (fun c cx => planSubtree W (kids cm) sd f c lvl cx) rs cx).2.2
          idx idx1 := by
  intro rs
  induction rs with
  | nil =>
    intro cx my0 idx _ _ _ _
    exact ⟨idx, by simp [rootsLoop, planForest, maxForest], Applied.nil lh idx⟩
  | cons c rest ih =>
    intro cx my0 idx hfit hpres hnd hw
    have hfc := hfit c (List.mem_cons_self _ _)
    simp only [List.flatMap_cons] at hpres hnd
    obtain ⟨hnd1, hnd2, hdisj⟩ := List.nodup_append.1 hnd
    obtain ⟨idx1, hrun, happ⟩ :=
      layoutSubtree_spec W lh sd cm f c lvl cx idx hfc
        (fun k hk => hpres k (List.mem_append_left _ hk)) hnd1 hw
    have hw1 := WidthsOK.applied W lh _ idx idx1 hw happ
    obtain ⟨idx2, hrun2, happ2⟩ :=
      ih (planSubtree W (kids cm) sd f c lvl cx).2.1
        (max my0 (maxSubtree lh (kids cm) f c lvl)) idx1
        (fun c hc => hfit c (List.mem_cons_of_mem _ hc))
        (fun k hk => by rw [happ.1]; exact hpres k (List.mem_append_right _ hk)) hnd2 hw1
    refine ⟨idx2, ?_, ?_⟩
    · simp only [rootsLoop, hrun, planForest, maxForest]
      rw [hrun2]
    · simp only [planForest]
      refine Applied.append lh _ _ idx idx1 idx2 happ happ2 ?_
      intro k hk1 hk2
      rw [planSubtree_ids] at hk1
      rw [planForest_subtree_ids] at hk2
      exact hdisj hk1 hk2

/-! ## More fuel never changes a result -/

theorem childrenLoop_mono (step1 step2 : String → F32 → NodeIndex → Option (F32 × F32 × NodeIndex))
    (h : ∀ c cx idx r, step1 c cx idx = some r → step2 c cx idx = some r) :
    ∀ (cs : List String) (cx my : F32) (idx : NodeIndex) (cen : List F32)
      (r : F32 × F32 × NodeIndex × List F32),
      childrenLoop step1 cs cx my idx cen = some r →
      childrenLoop step2 cs cx my idx cen = some r := by
  intro cs
  induction cs with
  | nil => intro cx my idx cen r hr; exact hr
  | cons c rest ih =>
    intro cx my idx cen r hr
    simp only [childrenLoop] at hr ⊢
    cases h1 : step1 c cx idx with
    | none => rw [h1] at hr; cases hr
    | some r1 =>
      rw [h1] at hr
      rw [h c cx idx r1 h1]
      exact ih _ _ _ _ r hr

theorem rootsLoop_mono (step1 step2 : String → F32 → NodeIndex → Option (F32 × F32 × NodeIndex))
    (h : ∀ c cx idx r, step1 c cx idx = some r → step2 c cx idx = some r) :
    ∀ (cs : List String) (cx my : F32) (idx : NodeIndex) (r : F32 × F32 × NodeIndex),
      rootsLoop step1 cs cx my idx = some r → rootsLoop step2 cs cx my idx = some r := by
  intro cs
  induction cs with
  | nil => intro cx my idx r hr; exact hr
  | cons c rest ih =>
    intro cx my idx r hr
    simp only [rootsLoop] at hr ⊢
    cases h1 : step1 c cx idx with
    | none => rw [h1] at hr; cases hr
    | some r1 =>
      rw [h1] at hr
      rw [h c cx idx r1 h1]
      exact ih _ _ _ r hr

theorem layoutSubtree_mono (lh sd : F32) (cm : ChildrenMap) (f : Nat) :
    ∀ (id : String) (lvl : Nat) (sx : F32) (idx : NodeIndex) (r : F32 × F32 × NodeIndex),
      layoutSubtree lh sd cm f id lvl sx idx = some r →
      layoutSubtree lh sd cm (f + 1) id lvl sx idx = some r := by
  induction f with
  | zero => intro id lvl sx idx r hr; simp [layoutSubtree] at hr
  | succ f ih =>
    intro id lvl sx idx r hr
    cases hk : kids cm id with
    | nil =>
      rw [layoutSubtree_leaf _ _ _ _ _ _ _ _ hk] at hr ⊢
      exact hr
    | cons c cs =>
      rw [layoutSubtree_node _ _ _ _ _ _ _ _ c cs hk] at hr ⊢
      cases h1 : childrenLoop
          (fun childId cx idx => layoutSubtree lh sd cm f childId (lvl + 1) cx idx)
          (c :: cs) sx ((lvl : F32) * lh)
          (idx.upsert id (fun n => { n with y := (lvl : F32) * lh })) [] with
      | none => rw [h1] at hr; cases hr
      | some r1 =>
        rw [h1] at hr
        rw [childrenLoop_mono _ _ (fun c cx idx r h => ih c (lvl + 1) cx idx r h) _ _ _ _ _ r1 h1]
        exact hr

theorem layoutSubtree_mono_le (lh sd : F32) (cm : ChildrenMap) (f g : Nat) (hfg : f ≤ g)
    (id : String) (lvl : Nat) (sx : F32) (idx : NodeIndex) (r : F32 × F32 × NodeIndex)
    (hr : layoutSubtree lh sd cm f id lvl sx idx = some r) :
    layoutSubtree lh sd cm g id lvl sx idx = some r := by
  induction hfg with
  | refl => exact hr
  | step _ ih => exact layoutSubtree_mono lh sd cm _ id lvl sx idx r ih

theorem calculateLayoutFuel_mono (f g : Nat) (hfg : f ≤ g) (nodes : List Node) (lh sd : F32)
    (r : LayoutResult) (hr : calculateLayoutFuel f nodes lh sd = some r) :
    calculateLayoutFuel g nodes lh sd = some r := by
  unfold calculateLayoutFuel at hr ⊢
  simp only at hr ⊢
  cases h1 : rootsLoop
      (fun rootId cx idx => layoutSubtree lh sd (buildMaps nodes).2 f rootId 0 cx idx)
      (rootNodeIds nodes) 0 0 (buildMaps nodes).1 with
  | none => rw [h1] at hr; cases hr
  | some r1 =>
    rw [h1] at hr
    rw [rootsLoop_mono _ _
      (fun c cx idx r h => layoutSubtree_mono_le lh sd (buildMaps nodes).2 f g hfg c 0 cx idx r h)
      _ _ _ _ r1 h1]
    exact hr

/-! ## The shape of the forest under unique ids -/

theorem eq_of_id_eq (nodes : List Node) (hu : UniqueIds nodes) (n m : Node)
    (hn : n ∈ nodes) (hm : m ∈ nodes) (h : n.id = m.id) : n = m :=
  List.inj_on_of_nodup_map hu hn hm h

theorem AtDepth.unique (nodes : List Node) (hu : UniqueIds nodes) (id : String) (d1 d2 : Nat)
    (h1 : AtDepth nodes id d1) (h2 : AtDepth nodes id d2) : d1 = d2 := by
  induction h1 generalizing d2 with
  | root n hn hp =>
    generalize hid : n.id = i at h2
    cases h2 with
    | root m hm hq => rfl
    | child m d hm hq hr =>
      have := eq_of_id_eq nodes hu n m hn hm hid
      subst this
      exact absurd hp hq
  | child n d hn hp hr ih =>
    generalize hid : n.id = i at h2
    cases h2 with
    | root m hm hq =>
      have := eq_of_id_eq nodes hu n m hn hm hid
      subst this
      exact absurd hq hp
    | child m e hm hq hs =>
      have := eq_of_id_eq nodes hu n m hn hm hid
      subst this
      rw [ih e hs]

theorem mem_childIds (nodes : List Node) (p c : String) :
    c ∈ childIds nodes p ↔ p ≠ "" ∧ ∃ n ∈ nodes, n.parentId = p ∧ n.id = c := by
  unfold childIds
  by_cases hp : p = ""
  · simp [hp]
  · simp [hp, and_assoc]

theorem mem_rootIds (nodes : List Node) (r : String) :
    r ∈ rootIds nodes ↔ ∃ n ∈ nodes, n.parentId = "" ∧ n.id = r := by
  simp [rootIds, and_assoc]

theorem childIds_nodup (nodes : List Node) (hu : UniqueIds nodes) (p : String) :
    (childIds nodes p).Nodup := by
  unfold childIds
  by_cases hp : p = ""
  · simp [hp]
  · simp only [hp, if_false]
    exact List.Nodup.sublist (List.Sublist.map _ (List.filter_sublist _)) hu

theorem rootIds_nodup (nodes : List Node) (hu : UniqueIds nodes) : (rootIds nodes).Nodup :=
  List.Nodup.sublist (List.Sublist.map _ (List.filter_sublist _)) hu

theorem AtDepth.of_child (nodes : List Node) (p c : String) (l : Nat)
    (hc : c ∈ childIds nodes p) (hp : AtDepth nodes p l) : AtDepth nodes c (l + 1) := by
  obtain ⟨hne, n, hn, hnp, hnc⟩ := (mem_childIds nodes p c).1 hc
  subst hnc
  subst hnp
  exact AtDepth.child n l hn hne hp

theorem AtDepth.of_root (nodes : List Node) (r : String) (hr : r ∈ rootIds nodes) :
    AtDepth nodes r 0 := by
  obtain ⟨n, hn, hp, rfl⟩ := (mem_rootIds nodes r).1 hr
  exact AtDepth.root n hn hp

theorem AtDepth.mem_ids (nodes : List Node) (id : String) (d : Nat) (h : AtDepth nodes id d) :
    id ∈ nodes.map (fun n => n.id) := by
  cases h with
  | root n hn _ => exact List.mem_map.2 ⟨n, hn, rfl⟩
  | child n d hn _ _ => exact List.mem_map.2 ⟨n, hn, rfl⟩

theorem parent_unique (nodes : List Node) (hu : UniqueIds nodes) (p q c : String)
    (hp : c ∈ childIds nodes p) (hq : c ∈ childIds nodes q) : p = q := by
  obtain ⟨_, n, hn, hnp, hnc⟩ := (mem_childIds nodes p c).1 hp
  obtain ⟨_, m, hm, hmp, hmc⟩ := (mem_childIds nodes q c).1 hq
  have := eq_of_id_eq nodes hu n m hn hm (hnc.trans hmc.symm)
  subst this
  exact hnp.symm.trans hmp

theorem subtree_depth (nodes : List Node) (f : Nat) :
    ∀ (c e : String) (l : Nat), AtDepth nodes c l → e ∈ subtreeIds (childIds nodes) f c →
      ∃ j, AtDepth nodes e (l + j) := by
  induction f with
  | zero => intro c e l _ he; simp [subtreeIds] at he
  | succ f ih =>
    intro c e l hc he
    simp only [subtreeIds, List.mem_cons, List.mem_flatMap] at he
    rcases he with rfl | ⟨c1, hc1, he1⟩
    · exact ⟨0, hc⟩
    · obtain ⟨j, hj⟩ := ih c1 e (l + 1) (AtDepth.of_child nodes c c1 l hc1 hc) he1
      exact ⟨j + 1, by rw [show l + (j + 1) = l + 1 + j by omega]; exact hj⟩

theorem subtree_disjoint (nodes : List Node) (hu : UniqueIds nodes) (f1 : Nat) :
    ∀ (f2 : Nat) (l : Nat) (c1 c2 e : String), AtDepth nodes c1 l → AtDepth nodes c2 l →
      c1 ≠ c2 → e ∈ subtreeIds (childIds nodes) f1 c1 →
      e ∈ subtreeIds (childIds nodes) f2 c2 → False := by
  induction f1 with
  | zero => intro f2 l c1 c2 e _ _ _ h1; simp [subtreeIds] at h1
  | succ f1 ih =>
    intro f2 l c1 c2 e hd1 hd2 hne h1 h2
    cases f2 with
    | zero => simp [subtreeIds] at h2
    | succ f2 =>
      simp only [subtreeIds, List.mem_cons, List.mem_flatMap] at h1 h2
      rcases h1 with rfl | ⟨k1, hk1, he1⟩
      · rcases h2 with rfl | ⟨k2, hk2, he2⟩
        · exact hne rfl
        · obtain ⟨j, hj⟩ := subtree_depth nodes f2 k2 e (l + 1)
            (AtDepth.of_child nodes c2 k2 l hk2 hd2) he2
          have := AtDepth.unique nodes hu e _ _ hd1 hj
          omega
      · rcases h2 with rfl | ⟨k2, hk2, he2⟩
        · obtain ⟨j, hj⟩ := subtree_depth nodes f1 k1 e (l + 1)
            (AtDepth.of_child nodes c1 k1 l hk1 hd1) he1
          have := AtDepth.unique nodes hu e _ _ hd2 hj
          omega
        · by_cases hk : k1 = k2
          · subst hk
            exact hne (parent_unique nodes hu c1 c2 k1 hk1 hk2)
          · exact ih f2 (l + 1) k1 k2 e (AtDepth.of_child nodes c1 k1 l hk1 hd1)
              (AtDepth.of_child nodes c2 k2 l hk2 hd2) hk he1 he2

theorem forest_nodup (nodes : List Node) (hu : UniqueIds nodes) (f : Nat) (l : Nat)
    (cs : List String) (hcs : cs.Nodup) (hd : ∀ c ∈ cs, AtDepth nodes c l)
    (hN : ∀ c ∈ cs, (subtreeIds (childIds nodes) f c).Nodup) :
    (cs.flatMap (subtreeIds (childIds nodes) f)).Nodup := by
  rw [List.nodup_flatMap]
  refine ⟨hN, ?_⟩
  have hp : List.Pairwise (fun a b => a ≠ b) cs := hcs
  refine List.Pairwise.imp_of_mem ?_ hp
  intro a b ha hb hab e h1 h2
  exact subtree_disjoint nodes hu f f l a b e (hd a ha) (hd b hb) hab h1 h2

theorem subtree_nodup (nodes : List Node) (hu : UniqueIds nodes) (f : Nat) :
    ∀ (c : String) (l : Nat), AtDepth nodes c l → (subtreeIds (childIds nodes) f c).Nodup := by
  induction f with
  | zero => intro c l _; simp [subtreeIds]
  | succ f ih =>
    intro c l hc
    simp only [subtreeIds, List.nodup_cons]
    refine ⟨?_, ?_⟩
    · intro hmem
      obtain ⟨k, hk, hek⟩ := List.mem_flatMap.1 hmem
      obtain ⟨j, hj⟩ := subtree_depth nodes f k c (l + 1) (AtDepth.of_child nodes c k l hk hc) hek
      have := AtDepth.unique nodes hu c _ _ hc hj
      omega
    · exact forest_nodup nodes hu f (l + 1) _ (childIds_nodup nodes hu c)
        (fun k hk => AtDepth.of_child nodes c k l hk hc)
        (fun k hk => ih k (l + 1) (AtDepth.of_child nodes c k l hk hc))

theorem subtree_subset (nodes : List Node) (f : Nat) :
    ∀ (c e : String), c ∈ nodes.map (fun n => n.id) → e ∈ subtreeIds (childIds nodes) f c →
      e ∈ nodes.map (fun n => n.id) := by
  induction f with
  | zero => intro c e _ he; simp [subtreeIds] at he
  | succ f ih =>
    intro c e hc he
    simp only [subtreeIds, List.mem_cons, List.mem_flatMap] at he
    rcases he with rfl | ⟨k, hk, hek⟩
    · exact hc
    · obtain ⟨_, n, hn, _, hnk⟩ := (mem_childIds nodes c k).1 hk
      exact ih k e (List.mem_map.2 ⟨n, hn, hnk⟩) hek

theorem length_le_flatMap {α β : Type} (g : α → List β) (l : List α) (a : α) (h : a ∈ l) :
    (g a).length ≤ (l.flatMap g).length := by
  induction l with
  | nil => simp at h
  | cons b rest ih =>
    simp only [List.flatMap_cons, List.length_append]
    rcases List.mem_cons.1 h with rfl | h
    · omega
    · have := ih h
      omega

theorem not_fits_length (K : String → List String) (f : Nat) :
    ∀ c, ¬ fits K f c → f ≤ (subtreeIds K f c).length := by
  induction f with
  | zero => intro c _; exact Nat.zero_le _
  | succ f ih =>
    intro c h
    simp only [fits, not_forall] at h
    obtain ⟨k, hk, hnk⟩ := h
    have h1 := ih k hnk
    have h2 := length_le_flatMap (subtreeIds K f) (K c) k hk
    simp only [subtreeIds, List.length_cons]
    omega

theorem fits_of_depth (nodes : List Node) (hu : UniqueIds nodes) (c : String) (l : Nat)
    (hc : AtDepth nodes c l) : fits (childIds nodes) (nodes.length + 1) c := by
  by_contra h
  have h1 := not_fits_length (childIds nodes) (nodes.length + 1) c h
  have h2 : (subtreeIds (childIds nodes) (nodes.length + 1) c).length
      ≤ (nodes.map (fun n => n.id)).length :=
    List.Subperm.length_le (List.Nodup.subperm (subtree_nodup nodes hu _ c l hc)
      (fun e he => subtree_subset nodes _ c e (AtDepth.mem_ids nodes c l hc) he))
  rw [List.length_map] at h2
  omega

theorem fits_closed (K : String → List String) (f : Nat) :
    ∀ (r k c : String), fits K f r → k ∈ subtreeIds K f r → c ∈ K k → c ∈ subtreeIds K f r := by
  induction f with
  | zero => intro r k c h; simp [fits] at h
  | succ f ih =>
    intro r k c hfit hk hc
    simp only [subtreeIds, List.mem_cons, List.mem_flatMap] at hk ⊢
    right
    rcases hk with rfl | ⟨k1, hk1, hkk⟩
    · refine ⟨c, hc, ?_⟩
      obtain ⟨g, rfl⟩ := fits_pos K f c (hfit c hc)
      simp [subtreeIds]
    · exact ⟨k1, hk1, ih k1 k c (hfit k1 hk1) hkk hc⟩

theorem covered (nodes : List Node) (hu : UniqueIds nodes) (e : String) (d : Nat)
    (h : AtDepth nodes e d) :
    e ∈ (rootIds nodes).flatMap (subtreeIds (childIds nodes) (nodes.length + 1)) := by
  induction h with
  | root n hn hp =>
    exact List.mem_flatMap.2 ⟨n.id, (mem_rootIds nodes n.id).2 ⟨n, hn, hp, rfl⟩,
      by simp [subtreeIds]⟩
  | child n d hn hp hr ih =>
    obtain ⟨r, hr1, hr2⟩ := List.mem_flatMap.1 ih
    refine List.mem_flatMap.2 ⟨r, hr1, ?_⟩
    exact fits_closed (childIds nodes) _ r n.parentId n.id
      (fits_of_depth nodes hu r 0 (AtDepth.of_root nodes r hr1)) hr2
      ((mem_childIds nodes n.parentId n.id).2 ⟨hp, n, hn, rfl, rfl⟩)

theorem forest_all_nodup (nodes : List Node) (hu : UniqueIds nodes) (f : Nat) :
    ((rootIds nodes).flatMap (subtreeIds (childIds nodes) f)).Nodup :=
  forest_nodup nodes hu f 0 _ (rootIds_nodup nodes hu)
    (fun r hr => AtDepth.of_root nodes r hr)
    (fun r hr => subtree_nodup nodes hu f r 0 (AtDepth.of_root nodes r hr))

theorem forest_all_subset (nodes : List Node) (f : Nat) (e : String)
    (he : e ∈ (rootIds nodes).flatMap (subtreeIds (childIds nodes) f)) :
    e ∈ nodes.map (fun n => n.id) := by
  obtain ⟨r, hr, her⟩ := List.mem_flatMap.1 he
  obtain ⟨n, hn, _, hnr⟩ := (mem_rootIds nodes r).1 hr
  exact subtree_subset nodes f r e (List.mem_map.2 ⟨n, hn, hnr⟩) her

/-! ## Resolving, acyclic parent references -/

theorem link_depth (nodes : List Node) (hu : UniqueIds nodes) (a b : String) (d : Nat)
    (hl : ParentLink nodes a b) (hd : AtDepth nodes a d) :
    ∃ e, d = e + 1 ∧ AtDepth nodes b e := by
  obtain ⟨n, hn, hna, hne, hnb⟩ := hl
  cases hd with
  | root m hm hp =>
    have := eq_of_id_eq nodes hu n m hn hm hna
    subst this
    exact absurd hp hne
  | child m e hm hp hr =>
    have := eq_of_id_eq nodes hu n m hn hm hna
    subst this
    exact ⟨e, rfl, hnb ▸ hr⟩

theorem ancestor_depth (nodes : List Node) (hu : UniqueIds nodes) (a b : String)
    (h : Relation.TransGen (ParentLink nodes) a b) :
    ∀ d, AtDepth nodes a d → ∃ e, e < d ∧ AtDepth nodes b e := by
  induction h with
  | single hl =>
    intro d hd
    obtain ⟨e, he, hb⟩ := link_depth nodes hu _ _ d hl hd
    exact ⟨e, by omega, hb⟩
  | tail _ hl ih =>
    intro d hd
    obtain ⟨e, he, hb⟩ := ih d hd
    obtain ⟨e1, he1, hc⟩ := link_depth nodes hu _ _ e hl hb
    exact ⟨e1, by omega, hc⟩

theorem link_source (nodes : List Node) (a b : String)
    (h : Relation.TransGen (ParentLink nodes) a b) : ∃ n ∈ nodes, n.id = a := by
  induction h with
  | single hl =>
    obtain ⟨n, hn, hna, -⟩ := hl
    exact ⟨n, hn, hna⟩
  | tail _ _ ih => exact ih

theorem resolves_acyclic_of_parentsOK (nodes : List Node) (hu : UniqueIds nodes)
    (hok : ParentsOK nodes) : Resolves nodes ∧ Acyclic nodes := by
  constructor
  · intro n hn hne
    obtain ⟨d, hd⟩ := hok n hn
    obtain ⟨e, -, he⟩ := link_depth nodes hu n.id n.parentId d ⟨n, hn, rfl, hne, rfl⟩ hd
    obtain ⟨p, hp, hpid⟩ := List.mem_map.1 (AtDepth.mem_ids nodes _ e he)
    exact ⟨p, hp, hpid⟩
  · intro a h
    obtain ⟨n, hn, rfl⟩ := link_source nodes a a h
    obtain ⟨d, hd⟩ := hok n hn
    obtain ⟨e, he, hd1⟩ := ancestor_depth nodes hu n.id n.id h d hd
    have := AtDepth.unique nodes hu n.id d e hd hd1
    omega

theorem parentsOK_of_resolves_acyclic (nodes : List Node) (hr : Resolves nodes)
    (ha : Acyclic nodes) : ParentsOK nodes := by
  have hwf : WellFounded (fun (p n : {a : String // a ∈ nodes.map (fun n => n.id)}) =>
      Relation.TransGen (ParentLink nodes) n.1 p.1) := by
    haveI : IsTrans {a : String // a ∈ nodes.map (fun n => n.id)}
        (fun p n => Relation.TransGen (ParentLink nodes) n.1 p.1) :=
      ⟨fun _ _ _ h1 h2 => Relation.TransGen.trans h2 h1⟩
    haveI : IsIrrefl {a : String // a ∈ nodes.map (fun n => n.id)}
        (fun p n => Relation.TransGen (ParentLink nodes) n.1 p.1) :=
      ⟨fun a h => ha a.1 h⟩
    exact Finite.wellFounded_of_trans_of_irrefl _
  have key : ∀ s : {a : String // a ∈ nodes.map (fun n => n.id)}, ∃ d, AtDepth nodes s.1 d := by
    intro s
    induction s using hwf.induction with
    | _ s ih =>
      obtain ⟨n, hn, hns⟩ := List.mem_map.1 s.2
      by_cases hp : n.parentId = ""
      · exact ⟨0, hns ▸ AtDepth.root n hn hp⟩
      · obtain ⟨p, hpm, hpid⟩ := hr n hn hp
        obtain ⟨d, hd⟩ := ih ⟨p.id, List.mem_map.2 ⟨p, hpm, rfl⟩⟩
          (Relation.TransGen.single ⟨n, hn, hns, hp, hpid.symm⟩)
        exact ⟨d + 1, hns ▸ AtDepth.child n d hn hp (hpid ▸ hd)⟩
  intro n hn
  exact key ⟨n.id, List.mem_map.2 ⟨n, hn, rfl⟩⟩

theorem parentsOK_iff (nodes : List Node) (hu : UniqueIds nodes) :
    ParentsOK nodes ↔ Resolves nodes ∧ Acyclic nodes :=
  ⟨resolves_acyclic_of_parentsOK nodes hu,
    fun h => parentsOK_of_resolves_acyclic nodes h.1 h.2⟩

/-! ## Levels in the plan -/

theorem planForest_mem (W : String → F32) (step : String → F32 → F32 × F32 × List Placed)
    (cs : List String) : ∀ (cx : F32) (p : Placed), p ∈ (planForest W step cs cx).2.2 →
      ∃ c ∈ cs, ∃ cx1, p ∈ (step c cx1).2.2 := by
  induction cs with
  | nil => intro cx p hp; simp [planForest] at hp
  | cons c rest ih =>
    intro cx p hp
    simp only [planForest, List.mem_append] at hp
    rcases hp with hp | hp
    · exact ⟨c, List.mem_cons_self _ _, cx, hp⟩
    · obtain ⟨c1, hc1, cx1, h1⟩ := ih _ p hp
      exact ⟨c1, List.mem_cons_of_mem _ hc1, cx1, h1⟩

theorem planSubtree_level (nodes : List Node) (W : String → F32) (sd : F32) (f : Nat) :
    ∀ (id : String) (lvl : Nat) (sx : F32) (p : Placed), AtDepth nodes id lvl →
      p ∈ (planSubtree W (childIds nodes) sd f id lvl sx).2.2 → AtDepth nodes p.id p.level := by
  induction f with
  | zero => intro id lvl sx p _ hp; simp [planSubtree] at hp
  | succ f ih =>
    intro id lvl sx p hid hp
    cases hk : childIds nodes id with
    | nil =>
      simp only [planSubtree, hk, List.mem_singleton] at hp
      subst hp
      exact hid
    | cons c cs =>
      simp only [planSubtree, hk, List.mem_cons] at hp
      rcases hp with rfl | hp
      · exact hid
      · obtain ⟨c1, hc1, cx1, h1⟩ := planForest_mem _ _ _ _ p hp
        exact ih c1 (lvl + 1) cx1 p (AtDepth.of_child nodes id c1 lvl (hk ▸ hc1) hid) h1

theorem layoutPlan_level (nodes : List Node) (sd : F32) (p : Placed)
    (hp : p ∈ (layoutPlan nodes sd).2.2) : AtDepth nodes p.id p.level := by
  obtain ⟨r, hr, cx1, h1⟩ := planForest_mem _ _ _ _ p hp
  exact planSubtree_level nodes _ sd _ r 0 cx1 p (AtDepth.of_root nodes r hr) h1

theorem layoutPlan_ids (nodes : List Node) (sd : F32) :
    (layoutPlan nodes sd).2.2.map (fun p => p.id)
      = (rootIds nodes).flatMap (subtreeIds (childIds nodes) (nodes.length + 1)) :=
  planForest_subtree_ids _ _ sd _ 0 _ 0

/-! ## The result of `calculateLayout` -/

theorem widthsOK_input (nodes : List Node) :
    WidthsOK (widthOf nodes) (nodes.map (fun n => (n.id, n))) := by
  intro k n hn
  simp [widthOf, StrMap.get, hn]

theorem calculateLayout_applied (nodes : List Node) (lh sd : F32) (hu : UniqueIds nodes) :
    ∃ idx1,
      calculateLayout nodes lh sd
        = some { nodes := StrMap.values idx1, connectors := generateConnectors idx1,
                 totalWidth := (layoutPlan nodes sd).2.1,
                 totalHeight := layoutMax nodes lh + lh } ∧
      Applied lh (layoutPlan nodes sd).2.2 (nodes.map (fun n => (n.id, n))) idx1 := by
  have hK : kids (buildMaps nodes).2 = childIds nodes := funext (kids_buildMaps nodes)
  have hkeys : StrMap.keys (nodes.map (fun n => (n.id, n))) = nodes.map (fun n => n.id) := by
    simp [StrMap.keys]
  have := rootsLoop_spec (widthOf nodes) lh sd (buildMaps nodes).2 (nodes.length + 1) 0
    (rootIds nodes) 0 0 (nodes.map (fun n => (n.id, n)))
    (by
      intro r hr
      rw [hK]
      exact fits_of_depth nodes hu r 0 (AtDepth.of_root nodes r hr))
    (by
      intro k hk
      rw [hK] at hk
      rw [hkeys]
      exact forest_all_subset nodes _ k hk)
    (by
      rw [hK]
      exact forest_all_nodup nodes hu _)
    (widthsOK_input nodes)
  rw [hK] at this
  obtain ⟨idx1, hrun, happ⟩ := this
  refine ⟨idx1, ?_, happ⟩
  unfold calculateLayout calculateLayoutFuel
  simp only [rootNodeIds_eq, buildMaps_index nodes hu]
  rw [hrun]
  rfl

theorem StrMap.ext_of_keys {β : Type} (m1 m2 : StrMap β) (hk : m1.keys = m2.keys)
    (hn : m1.keys.Nodup) (hf : ∀ k ∈ m1.keys, m1.find? k = m2.find? k) : m1 = m2 := by
  induction m1 generalizing m2 with
  | nil =>
    cases m2 with
    | nil => rfl
    | cons e rest => simp [StrMap.keys] at hk
  | cons e1 r1 ih =>
    cases m2 with
    | nil => simp [StrMap.keys] at hk
    | cons e2 r2 =>
      obtain ⟨k1, v1⟩ := e1
      obtain ⟨k2, v2⟩ := e2
      simp only [StrMap.keys, List.map_cons, List.cons.injEq] at hk
      obtain ⟨hk12, hkr⟩ := hk
      subst hk12
      simp only [StrMap.keys, List.map_cons, List.nodup_cons] at hn
      have hv : v1 = v2 := by
        have := hf k1 (by simp [StrMap.keys])
        simpa [StrMap.find?] using this
      subst hv
      have hrest : r1 = r2 := by
        refine ih r2 hkr hn.2 ?_
        intro k hk
        have hne : ¬ k1 = k := fun e => hn.1 (e ▸ hk)
        have := hf k (by simp only [StrMap.keys, List.map_cons]; exact List.mem_cons_of_mem _ hk)
        simpa [StrMap.find?, hne] using this
      rw [hrest]

theorem find?_mapped (nodes : List Node) (g : Node → Node) (k : String) :
    StrMap.find? (nodes.map (fun n => (n.id, g n))) k
      = (nodes.find? (fun n => n.id = k)).map g := by
  induction nodes with
  | nil => simp [StrMap.find?]
  | cons n rest ih =>
    by_cases h : n.id = k
    · simp [StrMap.find?, List.find?_cons, h]
    · simp [StrMap.find?, List.find?_cons, h, ih]

theorem find?_node (nodes : List Node) (hu : UniqueIds nodes) (n : Node) (hn : n ∈ nodes) :
    nodes.find? (fun m => m.id = n.id) = some n := by
  induction nodes with
  | nil => simp at hn
  | cons a rest ih =>
    simp only [UniqueIds, List.map_cons, List.nodup_cons] at hu
    by_cases h : a.id = n.id
    · rcases List.mem_cons.1 hn with rfl | hr
      · simp [List.find?_cons]
      · exact absurd (h ▸ List.mem_map.2 ⟨n, hr, rfl⟩) hu.1
    · rcases List.mem_cons.1 hn with rfl | hr
      · exact absurd rfl h
      · simp only [List.find?_cons, h, decide_False]
        exact ih hu.2 hr

theorem calculateLayout_eq (nodes : List Node) (lh sd : F32) (hu : UniqueIds nodes) :
    calculateLayout nodes lh sd
      = some { nodes := nodes.map (placeNode lh (layoutPlan nodes sd).2.2),
               connectors := generateConnectors
                 (nodes.map (fun n => (n.id, placeNode lh (layoutPlan nodes sd).2.2 n))),
               totalWidth := (layoutPlan nodes sd).2.1,
               totalHeight := layoutMax nodes lh + lh } := by
  obtain ⟨idx1, hrun, happ⟩ := calculateLayout_applied nodes lh sd hu
  have hkeys : StrMap.keys (nodes.map (fun n => (n.id, n))) = nodes.map (fun n => n.id) := by
    simp [StrMap.keys]
  have hidx : idx1 = nodes.map (fun n => (n.id, placeNode lh (layoutPlan nodes sd).2.2 n)) := by
    refine StrMap.ext_of_keys _ _ ?_ ?_ ?_
    · rw [happ.1, hkeys]
      simp [StrMap.keys]
    · rw [happ.1, hkeys]
      exact hu
    · intro k hk
      rw [happ.1, hkeys] at hk
      obtain ⟨n, hn, rfl⟩ := List.mem_map.1 hk
      rw [find?_mapped, find?_node nodes hu n hn]
      simp only [Option.map_some']
      have h0 : StrMap.find? (nodes.map (fun n => (n.id, n))) n.id = some n := by
        have := find?_mapped nodes (fun n => n) n.id
        simp only [List.map_id'] at this
        rw [find?_node nodes hu n hn] at this
        simpa using this
      unfold placeNode
      cases hfind : (layoutPlan nodes sd).2.2.find? (fun p => p.id = n.id) with
      | none =>
        simp only
        rw [happ.2.1 n.id ?_, h0]
        intro hmem
        obtain ⟨p, hp, hpid⟩ := List.mem_map.1 hmem
        have := List.find?_eq_none.1 hfind p hp
        simp [hpid] at this
      | some p =>
        simp only
        have hp := List.mem_of_find?_eq_some hfind
        have hpid : p.id = n.id := by
          have := List.find?_some hfind
          simpa using this
        obtain ⟨m, hm, hm1⟩ := happ.2.2 p hp
        rw [hpid, h0] at hm
        cases hm
        rw [hpid] at hm1
        exact hm1
  rw [hrun, hidx]
  simp [StrMap.values]

theorem calculateLayoutFuel_stable (nodes : List Node) (lh sd : F32) (hu : UniqueIds nodes)
    (f : Nat) (hf : nodes.length + 1 ≤ f) :
    calculateLayoutFuel f nodes lh sd = calculateLayout nodes lh sd := by
  have hrun := calculateLayout_eq nodes lh sd hu
  rw [hrun]
  exact calculateLayoutFuel_mono _ f hf nodes lh sd _ hrun

/-! ## Positions in the plan: leaves and centred parents -/

theorem planForest_cons (W : String → F32) (step : String → F32 → F32 × F32 × List Placed)
    (c : String) (rest : List String) (cx : F32) :
    planForest W step (c :: rest) cx
      = (((step c cx).1 + W c / 2) :: (planForest W step rest (step c cx).2.1).1,
         (planForest W step rest (step c cx).2.1).2.1,
         (step c cx).2.2 ++ (planForest W step rest (step c cx).2.1).2.2) := rfl

theorem planSubtree_nil (W : String → F32) (K : String → List String) (sd : F32) (f : Nat)
    (id : String) (lvl : Nat) (sx : F32) (h : K id = []) :
    planSubtree W K sd (f + 1) id lvl sx = (sx, sx + sd, [⟨id, lvl, sx⟩]) := by
  simp only [planSubtree, h]

theorem planSubtree_cons (W : String → F32) (K : String → List String) (sd : F32) (f : Nat)
    (id : String) (lvl : Nat) (sx : F32) (c : String) (cs : List String) (h : K id = c :: cs) :
    planSubtree W K sd (f + 1) id lvl sx
      = (((planForest W (fun c cx => planSubtree W K sd f c (lvl + 1) cx) (c :: cs) sx).1.head?.getD 0
            + (planForest W (fun c cx => planSubtree W K sd f c (lvl + 1) cx)
                (c :: cs) sx).1.getLast?.getD 0) / 2 - W id / 2,
         (planForest W (fun c cx => planSubtree W K sd f c (lvl + 1) cx) (c :: cs) sx).2.1,
         ⟨id, lvl,
           ((planForest W (fun c cx => planSubtree W K sd f c (lvl + 1) cx)
                (c :: cs) sx).1.head?.getD 0
            + (planForest W (fun c cx => planSubtree W K sd f c (lvl + 1) cx)
                (c :: cs) sx).1.getLast?.getD 0) / 2 - W id / 2⟩ ::
           (planForest W (fun c cx => planSubtree W K sd f c (lvl + 1) cx) (c :: cs) sx).2.2) := by
  simp only [planSubtree, h]

theorem planSubtree_self_of_fits (W : String → F32) (K : String → List String) (sd : F32) (f : Nat)
    (id : String) (lvl : Nat) (sx : F32) (h : fits K f id) :
    (⟨id, lvl, (planSubtree W K sd f id lvl sx).1⟩ : Placed)
      ∈ (planSubtree W K sd f id lvl sx).2.2 := by
  obtain ⟨g, rfl⟩ := fits_pos K f id h
  exact planSubtree_self W K sd g id lvl sx

theorem planForest_parts (W : String → F32) (step : String → F32 → F32 × F32 × List Placed)
    (cs : List String) : ∀ (cx : F32) (c : String), c ∈ cs →
      ∃ cxc, ∀ p ∈ (step c cxc).2.2, p ∈ (planForest W step cs cx).2.2 := by
  induction cs with
  | nil => intro cx c hc; simp at hc
  | cons a rest ih =>
    intro cx c hc
    rcases List.mem_cons.1 hc with rfl | hc
    · exact ⟨cx, fun p hp => by simp only [planForest, List.mem_append]; exact Or.inl hp⟩
    · obtain ⟨cxc, h⟩ := ih (step a cx).2.1 c hc
      exact ⟨cxc, fun p hp => by simp only [planForest, List.mem_append]; exact Or.inr (h p hp)⟩

theorem getLast?_cons_of_some {α : Type} (a v : α) (l : List α) (h : l.getLast? = some v) :
    (a :: l).getLast? = some v := by
  cases l with
  | nil => simp at h
  | cons b rest => rw [List.getLast?_cons_cons]; exact h

theorem planForest_last (W : String → F32) (step : String → F32 → F32 × F32 × List Placed)
    (cs : List String) : ∀ (cx : F32) (cl : String), cs.getLast? = some cl →
      ∃ cxl, (planForest W step cs cx).1.getLast? = some ((step cl cxl).1 + W cl / 2) ∧
        ∀ p ∈ (step cl cxl).2.2, p ∈ (planForest W step cs cx).2.2 := by
  induction cs with
  | nil => intro cx cl h; simp at h
  | cons a rest ih =>
    intro cx cl h
    cases rest with
    | nil =>
      simp only [List.getLast?_singleton, Option.some.injEq] at h
      subst h
      exact ⟨cx, by simp [planForest], fun p hp => by simp [planForest, hp]⟩
    | cons b rest2 =>
      rw [List.getLast?_cons_cons] at h
      obtain ⟨cxl, h1, h2⟩ := ih (step a cx).2.1 cl h
      refine ⟨cxl, ?_, fun p hp => ?_⟩
      · rw [planForest_cons]
        exact getLast?_cons_of_some _ _ _ h1
      · rw [planForest_cons]
        exact List.mem_append_right _ (h2 p hp)

theorem mem_of_getLast? {α : Type} (l : List α) (a : α) (h : l.getLast? = some a) : a ∈ l := by
  obtain ⟨ys, rfl⟩ := List.getLast?_eq_some_iff.1 h
  simp

theorem planSubtree_centre (W : String → F32) (K : String → List String) (sd : F32) (f : Nat) :
    ∀ (id : String) (lvl : Nat) (sx : F32), fits K f id →
      ∀ k ∈ subtreeIds K f id, ∀ c1 cl, (K k).head? = some c1 → (K k).getLast? = some cl →
        ∃ pk p1 pl, pk ∈ (planSubtree W K sd f id lvl sx).2.2 ∧
          p1 ∈ (planSubtree W K sd f id lvl sx).2.2 ∧
          pl ∈ (planSubtree W K sd f id lvl sx).2.2 ∧
          pk.id = k ∧ p1.id = c1 ∧ pl.id = cl ∧
          pk.x = ((p1.x + W c1 / 2) + (pl.x + W cl / 2)) / 2 - W k / 2 := by
  induction f with
  | zero => intro id lvl sx h; simp [fits] at h
  | succ f ih =>
    intro id lvl sx hfit k hk c1 cl hc1 hcl
    have hfit1 : ∀ c ∈ K id, fits K f c := hfit
    simp only [subtreeIds, List.mem_cons, List.mem_flatMap] at hk
    rcases hk with rfl | ⟨c, hc, hkc⟩
    · obtain ⟨cs, hcs⟩ := List.head?_eq_some_iff.1 hc1
      have hc1mem : c1 ∈ K k := by rw [hcs]; exact List.mem_cons_self _ _
      have hclmem : cl ∈ K k := mem_of_getLast? _ _ hcl
      obtain ⟨cxl, hl1, hl2⟩ := planForest_last W
        (fun c cx => planSubtree W K sd f c (lvl + 1) cx) (K k) sx cl hcl
      rw [hcs] at hl1 hl2
      rw [planSubtree_cons W K sd f k lvl sx c1 cs hcs]
      refine ⟨_, ⟨c1, lvl + 1, (planSubtree W K sd f c1 (lvl + 1) sx).1⟩,
        ⟨cl, lvl + 1, (planSubtree W K sd f cl (lvl + 1) cxl).1⟩,
        List.mem_cons_self _ _, ?_, ?_, rfl, rfl, rfl, ?_⟩
      · refine List.mem_cons_of_mem _ ?_
        rw [planForest_cons]
        exact List.mem_append_left _
          (planSubtree_self_of_fits W K sd f c1 (lvl + 1) sx (hfit1 c1 hc1mem))
      · exact List.mem_cons_of_mem _
          (hl2 _ (planSubtree_self_of_fits W K sd f cl (lvl + 1) cxl (hfit1 cl hclmem)))
      · simp only
        rw [hl1]
        rw [planForest_cons]
        simp only [List.head?_cons, Option.getD_some]
    · obtain ⟨cxc, hsub⟩ := planForest_parts W
        (fun c cx => planSubtree W K sd f c (lvl + 1) cx) (K id) sx c hc
      obtain ⟨pk, p1, pl, hpk, hp1, hpl, e1, e2, e3, e4⟩ :=
        ih c (lvl + 1) cxc (hfit1 c hc) k hkc c1 cl hc1 hcl
      cases hK : K id with
      | nil => rw [hK] at hc; simp at hc
      | cons a rest =>
        rw [hK] at hsub
        rw [planSubtree_cons W K sd f id lvl sx a rest hK]
        exact ⟨pk, p1, pl, List.mem_cons_of_mem _ (hsub pk hpk),
          List.mem_cons_of_mem _ (hsub p1 hp1), List.mem_cons_of_mem _ (hsub pl hpl),
          e1, e2, e3, e4⟩

theorem advance_add (sd : F32) (m n : Nat) (cx : F32) :
    advance sd (m + n) cx = advance sd m (advance sd n cx) :=
  Function.iterate_add_apply _ m n cx

theorem advance_zero (sd : F32) (cx : F32) : advance sd 0 cx = cx := rfl

theorem advance_one (sd : F32) (cx : F32) : advance sd 1 cx = cx + sd := rfl

theorem advance_succ (sd : F32) (k : Nat) (cx : F32) :
    advance sd (k + 1) cx = advance sd k cx + sd :=
  Function.iterate_succ_apply' _ k cx

theorem forest_leaves (W : String → F32) (K : String → List String) (sd : F32)
    (step : String → F32 → F32 × F32 × List Placed) (cs : List String)
    (hstep : ∀ c ∈ cs, ∀ cx,
      (∀ (j : Nat) (p : Placed), ((step c cx).2.2.filter (fun p => (K p.id).isEmpty))[j]? = some p →
        p.x = advance sd j cx) ∧
      (step c cx).2.1
        = advance sd ((step c cx).2.2.filter (fun p => (K p.id).isEmpty)).length cx) :
    ∀ cx,
      (∀ (j : Nat) (p : Placed), ((planForest W step cs cx).2.2.filter (fun p => (K p.id).isEmpty))[j]? = some p →
        p.x = advance sd j cx) ∧
      (planForest W step cs cx).2.1
        = advance sd ((planForest W step cs cx).2.2.filter (fun p => (K p.id).isEmpty)).length
            cx := by
  induction cs with
  | nil => intro cx; simp [planForest, advance]
  | cons c rest ih =>
    intro cx
    obtain ⟨h1, h2⟩ := hstep c (List.mem_cons_self _ _) cx
    obtain ⟨h3, h4⟩ := ih (fun c hc => hstep c (List.mem_cons_of_mem _ hc)) (step c cx).2.1
    simp only [planForest, List.filter_append, List.length_append]
    refine ⟨?_, ?_⟩
    · intro j p hj
      by_cases hlt : j < ((step c cx).2.2.filter (fun p => (K p.id).isEmpty)).length
      · rw [List.getElem?_append_left hlt] at hj
        exact h1 j p hj
      · have hge : ((step c cx).2.2.filter (fun p => (K p.id).isEmpty)).length ≤ j :=
          Nat.le_of_not_lt hlt
        rw [List.getElem?_append_right hge] at hj
        rw [h3 _ p hj, h2, ← advance_add, Nat.sub_add_cancel hge]
    · rw [h4, h2, ← advance_add, Nat.add_comm]

theorem planSubtree_leaves (W : String → F32) (K : String → List String) (sd : F32) (f : Nat) :
    ∀ (id : String) (lvl : Nat), fits K f id → ∀ (sx : F32),
      (∀ (j : Nat) (p : Placed), ((planSubtree W K sd f id lvl sx).2.2.filter (fun p => (K p.id).isEmpty))[j]?
          = some p → p.x = advance sd j sx) ∧
      (planSubtree W K sd f id lvl sx).2.1
        = advance sd ((planSubtree W K sd f id lvl sx).2.2.filter
            (fun p => (K p.id).isEmpty)).length sx := by
  induction f with
  | zero => intro id lvl h; simp [fits] at h
  | succ f ih =>
    intro id lvl hfit sx
    have hfit1 : ∀ c ∈ K id, fits K f c := hfit
    cases hK : K id with
    | nil =>
      rw [planSubtree_nil W K sd f id lvl sx hK]
      refine ⟨?_, ?_⟩
      · intro j p hj
        simp only [List.filter_cons, hK, List.isEmpty_nil, if_true, List.filter_nil] at hj
        cases j with
        | zero =>
          simp only [List.getElem?_cons_zero, Option.some.injEq] at hj
          subst hj
          rfl
        | succ j => simp at hj
      · simp [List.filter_cons, hK, advance]
    | cons c cs =>
      rw [hK] at hfit1
      have := forest_leaves W K sd (fun c cx => planSubtree W K sd f c (lvl + 1) cx) (c :: cs)
        (fun c1 hc1 cx => ih c1 (lvl + 1) (hfit1 c1 hc1) cx) sx
      rw [planSubtree_cons W K sd f id lvl sx c cs hK]
      simp only [List.filter_cons, hK, List.isEmpty_cons, Bool.false_eq_true, if_false]
      exact this

theorem levels_succ (K : String → List String) (f : Nat) (id : String) (lvl : Nat) :
    levels K (f + 1) id lvl = (id, lvl) :: (K id).flatMap (fun c => levels K f c (lvl + 1)) :=
  rfl

theorem planForest_map {β : Type} (φ : Placed → β) (W : String → F32)
    (step : String → F32 → F32 × F32 × List Placed) (g : String → List β)
    (h : ∀ c cx, (step c cx).2.2.map φ = g c) (cs : List String) (cx : F32) :
    (planForest W step cs cx).2.2.map φ = cs.flatMap g := by
  induction cs generalizing cx with
  | nil => simp [planForest]
  | cons c rest ih => simp [planForest, h, ih]

theorem planSubtree_levels (W : String → F32) (K : String → List String) (sd : F32) (f : Nat) :
    ∀ (id : String) (lvl : Nat) (sx : F32),
      (planSubtree W K sd f id lvl sx).2.2.map (fun p => (p.id, p.level)) = levels K f id lvl := by
  induction f with
  | zero => intro id lvl sx; simp [planSubtree, levels]
  | succ f ih =>
    intro id lvl sx
    rw [levels_succ]
    cases hk : K id with
    | nil => rw [planSubtree_nil W K sd f id lvl sx hk]; simp
    | cons c cs =>
      rw [planSubtree_cons W K sd f id lvl sx c cs hk]
      simp only [List.map_cons]
      rw [planForest_map (fun p => (p.id, p.level)) W _
        (fun c => levels K f c (lvl + 1)) (fun c cx => ih c (lvl + 1) cx)]

theorem layoutPlan_levels (nodes : List Node) (sd : F32) :
    (layoutPlan nodes sd).2.2.map (fun p => (p.id, p.level))
      = (rootIds nodes).flatMap (fun c => levels (childIds nodes) (nodes.length + 1) c 0) :=
  planForest_map _ _ _ _ (fun c cx => planSubtree_levels _ _ sd _ c 0 cx) _ 0

/-! ## The plan of the whole layout -/

theorem layoutPlan_nodup (nodes : List Node) (sd : F32) (hu : UniqueIds nodes) :
    ((layoutPlan nodes sd).2.2.map (fun p => p.id)).Nodup := by
  rw [layoutPlan_ids]
  exact forest_all_nodup nodes hu _

theorem layoutPlan_fits (nodes : List Node) (hu : UniqueIds nodes) (r : String)
    (hr : r ∈ rootIds nodes) : fits (childIds nodes) (nodes.length + 1) r :=
  fits_of_depth nodes hu r 0 (AtDepth.of_root nodes r hr)

theorem layoutPlan_leaves (nodes : List Node) (sd : F32) (hu : UniqueIds nodes) :
    (∀ (j : Nat) (p : Placed),
      ((layoutPlan nodes sd).2.2.filter (fun p => (childIds nodes p.id).isEmpty))[j]? = some p →
        p.x = advance sd j 0) ∧
    (layoutPlan nodes sd).2.1
      = advance sd ((layoutPlan nodes sd).2.2.filter
          (fun p => (childIds nodes p.id).isEmpty)).length 0 :=
  forest_leaves (widthOf nodes) (childIds nodes) sd
    (fun c cx => planSubtree (widthOf nodes) (childIds nodes) sd (nodes.length + 1) c 0 cx)
    (rootIds nodes)
    (fun c hc cx => planSubtree_leaves (widthOf nodes) (childIds nodes) sd _ c 0
      (layoutPlan_fits nodes hu c hc) cx) 0

theorem layoutPlan_centre (nodes : List Node) (sd : F32) (hu : UniqueIds nodes) (k : String)
    (d : Nat) (hk : AtDepth nodes k d) (c1 cl : String)
    (hc1 : (childIds nodes k).head? = some c1) (hcl : (childIds nodes k).getLast? = some cl) :
    ∃ pk p1 pl, pk ∈ (layoutPlan nodes sd).2.2 ∧ p1 ∈ (layoutPlan nodes sd).2.2 ∧
      pl ∈ (layoutPlan nodes sd).2.2 ∧ pk.id = k ∧ p1.id = c1 ∧ pl.id = cl ∧
      pk.x = ((p1.x + widthOf nodes c1 / 2) + (pl.x + widthOf nodes cl / 2)) / 2
        - widthOf nodes k / 2 := by
  obtain ⟨r, hr, hkr⟩ := List.mem_flatMap.1 (covered nodes hu k d hk)
  obtain ⟨cxc, hsub⟩ := planForest_parts (widthOf nodes)
    (fun c cx => planSubtree (widthOf nodes) (childIds nodes) sd (nodes.length + 1) c 0 cx)
    (rootIds nodes) 0 r hr
  obtain ⟨pk, p1, pl, h1, h2, h3, e⟩ := planSubtree_centre (widthOf nodes) (childIds nodes) sd _
    r 0 cxc (layoutPlan_fits nodes hu r hr) k hkr c1 cl hc1 hcl
  exact ⟨pk, p1, pl, hsub pk h1, hsub p1 h2, hsub pl h3, e⟩

theorem placed_of_depth (nodes : List Node) (sd : F32) (hu : UniqueIds nodes) (e : String)
    (d : Nat) (h : AtDepth nodes e d) :
    ∃ p ∈ (layoutPlan nodes sd).2.2, p.id = e ∧ p.level = d := by
  have hmem := covered nodes hu e d h
  rw [← layoutPlan_ids nodes sd] at hmem
  obtain ⟨p, hp, hpe⟩ := List.mem_map.1 hmem
  refine ⟨p, hp, hpe, ?_⟩
  have := layoutPlan_level nodes sd p hp
  rw [hpe] at this
  exact AtDepth.unique nodes hu e _ _ this h

theorem depth_of_placed (nodes : List Node) (sd : F32) (k : String)
    (h : k ∈ (layoutPlan nodes sd).2.2.map (fun p => p.id)) : ∃ d, AtDepth nodes k d := by
  obtain ⟨p, hp, rfl⟩ := List.mem_map.1 h
  exact ⟨p.level, layoutPlan_level nodes sd p hp⟩

/-! ## The placed nodes -/

theorem placeNode_static (lh : F32) (plan : List Placed) (n : Node) :
    (placeNode lh plan n).id = n.id ∧ (placeNode lh plan n).parentId = n.parentId ∧
    (placeNode lh plan n).spouseId = n.spouseId ∧ (placeNode lh plan n).width = n.width ∧
    (placeNode lh plan n).height = n.height ∧
    (placeNode lh plan n).generation = n.generation := by
  unfold placeNode
  cases plan.find? (fun p => p.id = n.id) with
  | none => simp
  | some p => simp

theorem placeNode_of_mem (lh : F32) (plan : List Placed)
    (hn : (plan.map (fun p => p.id)).Nodup) (n : Node) (p : Placed) (hp : p ∈ plan)
    (hid : p.id = n.id) :
    placeNode lh plan n = { n with x := p.x, y := (p.level : F32) * lh } := by
  unfold placeNode
  cases hfind : plan.find? (fun q => q.id = n.id) with
  | none =>
    have := List.find?_eq_none.1 hfind p hp
    simp [hid] at this
  | some q =>
    have hq := List.mem_of_find?_eq_some hfind
    have hqid : q.id = n.id := by
      have := List.find?_some hfind
      simpa using this
    have : q = p := List.inj_on_of_nodup_map hn hq hp (hqid.trans hid.symm)
    subst this
    rfl

theorem placeNode_of_not_mem (lh : F32) (plan : List Placed) (n : Node)
    (h : n.id ∉ plan.map (fun p => p.id)) : placeNode lh plan n = n := by
  unfold placeNode
  cases hfind : plan.find? (fun q => q.id = n.id) with
  | none => rfl
  | some q =>
    have hq := List.mem_of_find?_eq_some hfind
    have hqid : q.id = n.id := by
      have := List.find?_some hfind
      simpa using this
    exact absurd (List.mem_map.2 ⟨q, hq, hqid⟩) h

theorem widthOf_node (nodes : List Node) (hu : UniqueIds nodes) (n : Node) (hn : n ∈ nodes) :
    widthOf nodes n.id = n.width := by
  have := find?_mapped nodes (fun n => n) n.id
  simp only [List.map_id'] at this
  rw [find?_node nodes hu n hn] at this
  simp only [Option.map_some'] at this
  simp [widthOf, StrMap.get, this]

theorem final_node (nodes : List Node) (lh sd : F32) (hu : UniqueIds nodes) (m : Node)
    (hm : m ∈ nodes.map (placeNode lh (layoutPlan nodes sd).2.2)) (p : Placed)
    (hp : p ∈ (layoutPlan nodes sd).2.2) (hid : p.id = m.id) :
    m.x = p.x ∧ m.y = (p.level : F32) * lh ∧ m.width = widthOf nodes m.id := by
  obtain ⟨n, hn, rfl⟩ := List.mem_map.1 hm
  have hs := placeNode_static lh (layoutPlan nodes sd).2.2 n
  rw [hs.1] at hid ⊢
  rw [placeNode_of_mem lh _ (layoutPlan_nodup nodes sd hu) n p hp hid]
  exact ⟨rfl, rfl, (widthOf_node nodes hu n hn).symm⟩

theorem final_exists (nodes : List Node) (lh : F32) (plan : List Placed) (k : String)
    (hk : k ∈ nodes.map (fun n => n.id)) :
    ∃ m ∈ nodes.map (placeNode lh plan), m.id = k := by
  obtain ⟨n, hn, rfl⟩ := List.mem_map.1 hk
  exact ⟨placeNode lh plan n, List.mem_map.2 ⟨n, hn, rfl⟩, (placeNode_static lh plan n).1⟩

/-! ## The layout contract -/

theorem sampleFamily_unique : UniqueIds sampleFamily := by
  unfold UniqueIds sampleFamily
  decide

theorem sampleFamily_depth_p : AtDepth sampleFamily "p" 0 :=
  AtDepth.root ⟨"p", "", "", 7, 9, 4, 10, 5⟩ (by simp [sampleFamily]) rfl

theorem sampleFamily_parentsOK : ParentsOK sampleFamily := by
  intro n hn
  simp only [sampleFamily, List.mem_cons, List.mem_singleton, List.not_mem_nil, or_false] at hn
  rcases hn with rfl | rfl | rfl
  · exact ⟨0, sampleFamily_depth_p⟩
  · exact ⟨1, AtDepth.child ⟨"a", "p", "b", 1, 2, 2, 10, 0⟩ 0 (by simp [sampleFamily])
      (by decide) sampleFamily_depth_p⟩
  · exact ⟨1, AtDepth.child ⟨"b", "p", "a", 3, 4, 2, 10, 0⟩ 0 (by simp [sampleFamily])
      (by decide) sampleFamily_depth_p⟩

theorem parentsOK_of_dfs (nodes : List Node) (h : ∀ n ∈ nodes, n.id ∈ dfsOrder nodes) :
    ParentsOK nodes := by
  intro n hn
  refine depth_of_placed nodes 0 n.id ?_
  rw [layoutPlan_ids]
  exact h n hn

theorem offCentre_unique : UniqueIds offCentre := by
  unfold UniqueIds offCentre
  decide

theorem offCentre_parentsOK : ParentsOK offCentre :=
  parentsOK_of_dfs offCentre (by decide)

/-- C1, counterexample: the leaf `x0` and the root `p` of width `0.3` with its
single child `c0` of width `1.1`, laid out with `siblingDistance = 0.1`: `p` is
placed at `x = 0.5` and `c0` at `x = 0.1`.  The centre of `p` and the centre of
its only child differ, both when the centres are computed in `float` arithmetic
and when they are computed exactly from the returned positions. -/
theorem rounded_centre_counterexample :
    UniqueIds offCentre ∧ Resolves offCentre ∧ Acyclic offCentre ∧
    (∀ n ∈ offCentre, F32.IsFloat n.width) ∧ F32.IsFloat (F32.dec 1 10) ∧
    childIds offCentre "p" = ["c0"] ∧
    (calculateLayout offCentre 1 (F32.dec 1 10)).map
      (fun r => r.nodes.map (fun m => (m.id, m.x, m.width)))
      = some [("x0", 0, F32.dec 11 10), ("p", F32.fin (1 / 2), F32.dec 3 10),
          ("c0", F32.dec 1 10, F32.dec 11 10)] ∧
    F32.fin (1 / 2) + F32.dec 3 10 / 2 ≠ F32.dec 1 10 + F32.dec 11 10 / 2 ∧
    (1 / 2 : ℚ) + (F32.dec 3 10).toRat / 2 ≠ (F32.dec 1 10).toRat + (F32.dec 11 10).toRat / 2 := by
  refine ⟨offCentre_unique,
    (resolves_acyclic_of_parentsOK offCentre offCentre_unique offCentre_parentsOK).1,
    (resolves_acyclic_of_parentsOK offCentre offCentre_unique offCentre_parentsOK).2,
    by decide!, by decide!, by decide, by decide!, by decide!, by decide!⟩

/-- C1, amended: with unique ids and parent references that all resolve and are
acyclic, a node `p` with children is placed at
`x = ((cf + cl) / 2) - p.width / 2`, every operation rounded to `float`, where
`cf = first.x + first.width / 2` and `cl = last.x + last.width / 2` are the
rounded centres of its first and last child (children in input order) at their
final positions; with a single child the first and the last child coincide. -/
theorem parent_placed_over_children (nodes : List Node) (lh sd : F32) (hu : UniqueIds nodes)
    (hres : Resolves nodes) (hacyc : Acyclic nodes) (p : Node) (hp : p ∈ nodes)
    (first last : String)
    (hfirst : (childIds nodes p.id).head? = some first)
    (hlast : (childIds nodes p.id).getLast? = some last) :
    ∃ r, calculateLayout nodes lh sd = some r ∧
      (∃ P ∈ r.nodes, P.id = p.id) ∧ (∃ F ∈ r.nodes, F.id = first) ∧
      (∃ L ∈ r.nodes, L.id = last) ∧
      (childIds nodes p.id = [first] → last = first) ∧
      ∀ P ∈ r.nodes, ∀ F ∈ r.nodes, ∀ L ∈ r.nodes, P.id = p.id → F.id = first → L.id = last →
        P.x = ((F.x + F.width / 2) + (L.x + L.width / 2)) / 2 - P.width / 2 := by
  have hrun := calculateLayout_eq nodes lh sd hu
  obtain ⟨d, hd⟩ := parentsOK_of_resolves_acyclic nodes hres hacyc p hp
  obtain ⟨pk, p1, pl, hpk, hp1, hpl, ek, e1, el, heq⟩ :=
    layoutPlan_centre nodes sd hu p.id d hd first last hfirst hlast
  have hfm : first ∈ nodes.map (fun n => n.id) := by
    obtain ⟨_, n, hn, _, hnid⟩ :=
      (mem_childIds nodes p.id first).1 (List.mem_of_mem_head? hfirst)
    exact List.mem_map.2 ⟨n, hn, hnid⟩
  have hlm : last ∈ nodes.map (fun n => n.id) := by
    obtain ⟨_, n, hn, _, hnid⟩ :=
      (mem_childIds nodes p.id last).1 (mem_of_getLast? _ _ hlast)
    exact List.mem_map.2 ⟨n, hn, hnid⟩
  refine ⟨_, hrun, final_exists nodes lh _ p.id (List.mem_map.2 ⟨p, hp, rfl⟩),
    final_exists nodes lh _ first hfm, final_exists nodes lh _ last hlm, ?_, ?_⟩
  · intro hone
    rw [hone] at hlast
    simpa using hlast.symm
  · intro P hP F hF L hL hPid hFid hLid
    obtain ⟨hx, -, hw⟩ := final_node nodes lh sd hu P hP pk hpk (ek.trans hPid.symm)
    obtain ⟨hx1, -, hw1⟩ := final_node nodes lh sd hu F hF p1 hp1 (e1.trans hFid.symm)
    obtain ⟨hxl, -, hwl⟩ := final_node nodes lh sd hu L hL pl hpl (el.trans hLid.symm)
    rw [hx, hw, hx1, hw1, hxl, hwl, hPid, hFid, hLid]
    exact heq

theorem sampleFamily_resolves : Resolves sampleFamily :=
  (resolves_acyclic_of_parentsOK sampleFamily sampleFamily_unique sampleFamily_parentsOK).1

theorem sampleFamily_acyclic : Acyclic sampleFamily :=
  (resolves_acyclic_of_parentsOK sampleFamily sampleFamily_unique sampleFamily_parentsOK).2

theorem parent_placed_over_children_witness :
    ∃ r, calculateLayout sampleFamily 100 30 = some r ∧
      (∃ P ∈ r.nodes, P.id = "p") ∧ (∃ F ∈ r.nodes, F.id = "a") ∧
      (∃ L ∈ r.nodes, L.id = "b") ∧
      (childIds sampleFamily "p" = ["a"] → "b" = "a") ∧
      ∀ P ∈ r.nodes, ∀ F ∈ r.nodes, ∀ L ∈ r.nodes, P.id = "p" → F.id = "a" → L.id = "b" →
        P.x = ((F.x + F.width / 2) + (L.x + L.width / 2)) / 2 - P.width / 2 :=
  parent_placed_over_children sampleFamily 100 30 sampleFamily_unique sampleFamily_resolves
    sampleFamily_acyclic ⟨"p", "", "", 7, 9, 4, 10, 5⟩ (by simp [sampleFamily]) "a" "b"
    (by decide) (by decide)

theorem leafOrder_eq (nodes : List Node) (sd : F32) :
    leafOrder nodes
      = ((layoutPlan nodes sd).2.2.filter (fun p => (childIds nodes p.id).isEmpty)).map
          (fun p => p.id) := by
  unfold leafOrder dfsOrder
  rw [← layoutPlan_ids nodes sd, List.filter_map]
  rfl

theorem elevenRoots_unique : UniqueIds elevenRoots := by
  unfold UniqueIds elevenRoots
  decide

theorem elevenRoots_parentsOK : ParentsOK elevenRoots :=
  parentsOK_of_dfs elevenRoots (by decide)

/-- C2, counterexample: eleven roots laid out with `siblingDistance = 0.1`.  The
leaf number 10 of the traversal is `r10`; it is placed at
`x = 8388609 / 8388608`, the result of adding `0.1` ten times to `0` in `float`
arithmetic.  This is neither the `float` product `10 * 0.1 = 1` nor the exact
product of `10` and the `float` `0.1`. -/
theorem accumulated_cursor_counterexample :
    UniqueIds elevenRoots ∧ Resolves elevenRoots ∧ Acyclic elevenRoots ∧
    F32.IsFloat (F32.dec 1 10) ∧
    (leafOrder elevenRoots)[10]? = some "r10" ∧
    (calculateLayout elevenRoots 1 (F32.dec 1 10)).map
      (fun r => (r.nodes.filter (fun m => m.id = "r10")).map (fun m => m.x))
      = some [F32.fin (8388609 / 8388608)] ∧
    ((10 : Nat) : F32) * F32.dec 1 10 = F32.fin 1 ∧
    (10 : ℚ) * (F32.dec 1 10).toRat = 67108865 / 67108864 ∧
    (8388609 / 8388608 : ℚ) ≠ 1 ∧ (8388609 / 8388608 : ℚ) ≠ 67108865 / 67108864 := by
  refine ⟨elevenRoots_unique,
    (resolves_acyclic_of_parentsOK elevenRoots elevenRoots_unique elevenRoots_parentsOK).1,
    (resolves_acyclic_of_parentsOK elevenRoots elevenRoots_unique elevenRoots_parentsOK).2,
    by decide!, by decide, by decide!, by decide!, by decide!, by norm_num, by norm_num⟩

/-- C2, amended: with unique ids, the `k`-th leaf (counted from 0) met by the
depth-first traversal over roots and children in input order is placed at the
value obtained from `0` by adding `siblingDistance` `k` times, every sum rounded
to `float`; so the first leaf is at `0` and the second at `0 + siblingDistance`,
which is `siblingDistance` itself.  (No assumption on the parent references is
needed: the traversal only meets nodes that hang from a root.) -/
theorem leaf_positions (nodes : List Node) (lh sd : F32) (hu : UniqueIds nodes) (k : Nat)
    (leaf : String) (hk : (leafOrder nodes)[k]? = some leaf) :
    ∃ r, calculateLayout nodes lh sd = some r ∧
      (∃ m ∈ r.nodes, m.id = leaf) ∧ (∀ m ∈ r.nodes, m.id = leaf → m.x = advance sd k 0) ∧
      advance sd 0 0 = 0 ∧ advance sd 1 0 = 0 + sd ∧ (F32.IsFloat sd → 0 + sd = sd) := by
  have hrun := calculateLayout_eq nodes lh sd hu
  rw [leafOrder_eq nodes sd, List.getElem?_map] at hk
  cases hp : ((layoutPlan nodes sd).2.2.filter (fun p => (childIds nodes p.id).isEmpty))[k]? with
  | none => rw [hp] at hk; simp at hk
  | some p =>
    rw [hp] at hk
    simp only [Option.map_some', Option.some.injEq] at hk
    have hx := (layoutPlan_leaves nodes sd hu).1 k p hp
    have hpmem : p ∈ (layoutPlan nodes sd).2.2 := by
      obtain ⟨h, he⟩ := List.getElem?_eq_some_iff.1 hp
      have := List.getElem_mem h
      rw [he] at this
      exact (List.mem_filter.1 this).1
    have hids : leaf ∈ nodes.map (fun n => n.id) := by
      refine forest_all_subset nodes (nodes.length + 1) leaf ?_
      rw [← layoutPlan_ids nodes sd]
      exact List.mem_map.2 ⟨p, hpmem, hk⟩
    refine ⟨_, hrun, final_exists nodes lh _ leaf hids, ?_, rfl, rfl,
      F32.zero_add_of_isFloat⟩
    intro m hm hmid
    rw [(final_node nodes lh sd hu m hm p hpmem (hk.trans hmid.symm)).1, hx]

theorem leaf_positions_witness :
    ∃ r, calculateLayout sampleFamily 100 30 = some r ∧
      (∃ m ∈ r.nodes, m.id = "b") ∧ (∀ m ∈ r.nodes, m.id = "b" → m.x = advance 30 1 0) ∧
      advance 30 0 0 = 0 ∧ advance 30 1 0 = 0 + 30 ∧ (F32.IsFloat 30 → (0 : F32) + 30 = 30) :=
  leaf_positions sampleFamily 100 30 sampleFamily_unique 1 "b" (by decide)

/-! ### The `generation` field is not used -/

theorem childIds_setGeneration (g : String → Int) (nodes : List Node) :
    childIds (nodes.map (setGeneration g)) = childIds nodes := by
  funext pid
  unfold childIds
  by_cases hp : pid = ""
  · simp [hp]
  · simp only [hp, if_false, List.filter_map, List.map_map]
    rfl

theorem rootIds_setGeneration (g : String → Int) (nodes : List Node) :
    rootIds (nodes.map (setGeneration g)) = rootIds nodes := by
  unfold rootIds
  simp only [List.filter_map, List.map_map]
  rfl

theorem StrMap.find?_map_snd {β : Type} (h : β → β) (idx : StrMap β) (k : String) :
    StrMap.find? (idx.map (fun e => (e.1, h e.2))) k = (idx.find? k).map h := by
  induction idx with
  | nil => rfl
  | cons e rest ih =>
    obtain ⟨k0, v⟩ := e
    by_cases h0 : k0 = k
    · simp [StrMap.find?, h0]
    · simp only [List.map_cons, StrMap.find?, h0, if_false]
      exact ih

theorem widthOf_setGeneration (g : String → Int) (nodes : List Node) :
    widthOf (nodes.map (setGeneration g)) = widthOf nodes := by
  funext k
  unfold widthOf StrMap.get
  have h1 : (nodes.map (setGeneration g)).map (fun n => (n.id, n))
      = (nodes.map (fun n => (n.id, n))).map (fun e => (e.1, setGeneration g e.2)) := by
    simp only [List.map_map]
    rfl
  rw [h1, StrMap.find?_map_snd]
  cases StrMap.find? (nodes.map (fun n => (n.id, n))) k with
  | none => rfl
  | some n => rfl

theorem layoutPlan_setGeneration (g : String → Int) (nodes : List Node) (sd : F32) :
    layoutPlan (nodes.map (setGeneration g)) sd = layoutPlan nodes sd := by
  unfold layoutPlan
  rw [childIds_setGeneration, rootIds_setGeneration, widthOf_setGeneration, List.length_map]

theorem placeNode_setGeneration (g : String → Int) (lh : F32) (plan : List Placed) (n : Node) :
    placeNode lh plan (setGeneration g n) = setGeneration g (placeNode lh plan n) := by
  unfold placeNode
  have : (setGeneration g n).id = n.id := rfl
  rw [this]
  cases plan.find? (fun p => p.id = n.id) with
  | none => rfl
  | some p => rfl

theorem parentConnector_setGeneration (g : String → Int) (idx : NodeIndex) (n : Node) :
    parentConnector (idx.map (fun e => (e.1, setGeneration g e.2))) (setGeneration g n)
      = parentConnector idx n := by
  unfold parentConnector
  rw [StrMap.find?_map_snd]
  have : (setGeneration g n).parentId = n.parentId := rfl
  rw [this]
  cases idx.find? n.parentId with
  | none => rfl
  | some p => rfl

theorem spouseConnector_setGeneration (g : String → Int) (idx : NodeIndex) (n : Node) :
    spouseConnector (idx.map (fun e => (e.1, setGeneration g e.2))) (setGeneration g n)
      = spouseConnector idx n := by
  unfold spouseConnector
  rw [StrMap.find?_map_snd]
  have : (setGeneration g n).spouseId = n.spouseId := rfl
  rw [this]
  cases idx.find? n.spouseId with
  | none => rfl
  | some p => rfl

theorem generateConnectors_setGeneration (g : String → Int) (idx : NodeIndex) :
    generateConnectors (idx.map (fun e => (e.1, setGeneration g e.2))) = generateConnectors idx := by
  unfold generateConnectors StrMap.values
  simp only [List.map_map, List.filterMap_map]
  congr 1
  · apply List.filterMap_congr
    intro e _
    exact parentConnector_setGeneration g idx e.2
  · apply List.filterMap_congr
    intro e _
    exact spouseConnector_setGeneration g idx e.2

theorem layoutMax_setGeneration (g : String → Int) (nodes : List Node) (lh : F32) :
    layoutMax (nodes.map (setGeneration g)) lh = layoutMax nodes lh := by
  unfold layoutMax
  rw [childIds_setGeneration, rootIds_setGeneration, List.length_map]

theorem calculateLayout_setGeneration (g : String → Int) (nodes : List Node) (lh sd : F32)
    (hu : UniqueIds nodes) (r : LayoutResult) (hr : calculateLayout nodes lh sd = some r) :
    calculateLayout (nodes.map (setGeneration g)) lh sd
      = some { r with nodes := r.nodes.map (setGeneration g) } := by
  have hu1 : UniqueIds (nodes.map (setGeneration g)) := by
    unfold UniqueIds
    rw [List.map_map]
    exact hu
  have hra := calculateLayout_eq nodes lh sd hu
  have hrb := calculateLayout_eq (nodes.map (setGeneration g)) lh sd hu1
  rw [layoutPlan_setGeneration, layoutMax_setGeneration] at hrb
  rw [hra] at hr
  cases hr
  rw [hrb]
  have hidx : (nodes.map (setGeneration g)).map
        (fun n => (n.id, placeNode lh (layoutPlan nodes sd).2.2 n))
      = (nodes.map (fun n => (n.id, placeNode lh (layoutPlan nodes sd).2.2 n))).map
          (fun e => (e.1, setGeneration g e.2)) := by
    simp only [List.map_map]
    apply List.map_congr_left
    intro n _
    simp only [Function.comp]
    rw [placeNode_setGeneration]
    rfl
  rw [hidx, generateConnectors_setGeneration]
  simp only [List.map_map]
  congr 2
  apply List.map_congr_left
  intro n _
  simp only [Function.comp]
  rw [placeNode_setGeneration]

/-- C3, counterexample: a single root laid out with `levelHeight = +∞` gets
`y = 0 * ∞`, which is not a number, and not `0`.  And in the chain of seven nodes
laid out with `levelHeight = 0.1` the node `n3`, three parent links below its
root, gets the `float` product `y = 5033165 / 16777216`, which is not the exact
product `40265319 / 134217728` of `3` and the `float` `0.1`. -/
theorem levelHeight_counterexample :
    UniqueIds danglingAsRoot ∧ AtDepth danglingAsRoot "z" 0 ∧
    (calculateLayout danglingAsRoot (F32.inf false) 30).map
      (fun r => r.nodes.map (fun m => (m.id, m.y))) = some [("z", F32.nan)] ∧
    F32.nan ≠ (0 : F32) ∧
    UniqueIds chain ∧ AtDepth chain "n3" 3 ∧
    (calculateLayout chain (F32.dec 1 10) 1).map
      (fun r => (r.nodes.filter (fun m => m.id = "n3")).map (fun m => m.y))
      = some [F32.fin (5033165 / 16777216)] ∧
    ((3 : Nat) : F32) * F32.dec 1 10 = F32.fin (5033165 / 16777216) ∧
    (3 : ℚ) * (F32.dec 1 10).toRat = 40265319 / 134217728 ∧
    (5033165 / 16777216 : ℚ) ≠ 40265319 / 134217728 := by
  have hu1 : UniqueIds danglingAsRoot := by
    unfold UniqueIds danglingAsRoot
    decide
  have hu2 : UniqueIds chain := by
    unfold UniqueIds chain
    decide
  have d0 : AtDepth chain "n0" 0 :=
    AtDepth.root ⟨"n0", "", "", 0, 0, 1, 1, 0⟩ (by simp [chain]) rfl
  have d1 : AtDepth chain "n1" 1 :=
    AtDepth.child ⟨"n1", "n0", "", 0, 0, 1, 1, 0⟩ 0 (by simp [chain]) (by decide) d0
  have d2 : AtDepth chain "n2" 2 :=
    AtDepth.child ⟨"n2", "n1", "", 0, 0, 1, 1, 0⟩ 1 (by simp [chain]) (by decide) d1
  have d3 : AtDepth chain "n3" 3 :=
    AtDepth.child ⟨"n3", "n2", "", 0, 0, 1, 1, 0⟩ 2 (by simp [chain]) (by decide) d2
  exact ⟨hu1, AtDepth.root ⟨"z", "", "", 7, 9, 1, 10, 5⟩ (by simp [danglingAsRoot]) rfl,
    by decide!, by decide!, hu2, d3, by decide!, by decide!, by decide!, by norm_num⟩

/-- C3, amended: with unique ids, a node that is `d` parent links away from its
root gets `y = d * levelHeight`, the product of the level converted to `float`
and `levelHeight`, rounded to `float`; a root gets `y = 0` whenever
`levelHeight` is finite; and the `generation` fields of the input play no part:
replacing them changes nothing in the result except the `generation` fields
that are passed through. -/
theorem y_is_depth_times_levelHeight (nodes : List Node) (lh sd : F32) (hu : UniqueIds nodes)
    (n : Node) (hn : n ∈ nodes) (d : Nat) (hd : AtDepth nodes n.id d) :
    ∃ r, calculateLayout nodes lh sd = some r ∧
      (∃ m ∈ r.nodes, m.id = n.id) ∧ (∀ m ∈ r.nodes, m.id = n.id → m.y = (d : F32) * lh) ∧
      (d = 0 → F32.IsFinite lh → ∀ m ∈ r.nodes, m.id = n.id → m.y = 0) ∧
      ∀ g : String → Int, calculateLayout (nodes.map (setGeneration g)) lh sd
        = some { r with nodes := r.nodes.map (setGeneration g) } := by
  have hrun := calculateLayout_eq nodes lh sd hu
  obtain ⟨p, hp, hpid, hpl⟩ := placed_of_depth nodes sd hu n.id d hd
  have hy : ∀ m ∈ nodes.map (placeNode lh (layoutPlan nodes sd).2.2), m.id = n.id →
      m.y = (d : F32) * lh := by
    intro m hm hmid
    rw [(final_node nodes lh sd hu m hm p hp (hpid.trans hmid.symm)).2.1, hpl]
  refine ⟨_, hrun, final_exists nodes lh _ n.id (List.mem_map.2 ⟨n, hn, rfl⟩), hy, ?_, ?_⟩
  · intro hd0 hfin m hm hmid
    rw [hy m hm hmid, hd0]
    exact F32.zero_mul_of_isFinite hfin
  · intro g
    exact calculateLayout_setGeneration g nodes lh sd hu _ hrun

theorem y_is_depth_times_levelHeight_witness :
    ∃ r, calculateLayout sampleFamily 100 30 = some r ∧
      (∃ m ∈ r.nodes, m.id = "a") ∧ (∀ m ∈ r.nodes, m.id = "a" → m.y = ((1 : Nat) : F32) * 100) ∧
      ((1 : Nat) = 0 → F32.IsFinite 100 → ∀ m ∈ r.nodes, m.id = "a" → m.y = 0) ∧
      ∀ g : String → Int, calculateLayout (sampleFamily.map (setGeneration g)) 100 30
        = some { r with nodes := r.nodes.map (setGeneration g) } :=
  y_is_depth_times_levelHeight sampleFamily 100 30 sampleFamily_unique
    ⟨"a", "p", "b", 1, 2, 2, 10, 0⟩ (by simp [sampleFamily]) 1
    (AtDepth.child ⟨"a", "p", "b", 1, 2, 2, 10, 0⟩ 0 (by simp [sampleFamily]) (by decide)
      sampleFamily_depth_p)

/-! ### Connectors -/

theorem filterMap_filter_none {α β : Type} (key : α → String) (tag : β → String)
    (g : α → Option β) (htag : ∀ a b, g a = some b → tag b = key a) (k : String)
    (l : List α) (hl : ∀ a ∈ l, key a ≠ k) :
    (l.filterMap g).filter (fun b => tag b = k) = [] := by
  rw [List.filter_eq_nil_iff]
  intro b hb
  obtain ⟨a, ha, hab⟩ := List.mem_filterMap.1 hb
  have := htag a b hab
  simp only [decide_eq_true_eq]
  rw [this]
  exact hl a ha

theorem filterMap_filter_unique {α β : Type} (key : α → String) (tag : β → String)
    (g : α → Option β) (htag : ∀ a b, g a = some b → tag b = key a)
    (l : List α) (hn : (l.map key).Nodup) (a : α) (ha : a ∈ l) (b : β) (hb : g a = some b) :
    (l.filterMap g).filter (fun b => tag b = key a) = [b] := by
  induction l with
  | nil => simp at ha
  | cons x rest ih =>
    simp only [List.map_cons, List.nodup_cons] at hn
    rcases List.mem_cons.1 ha with rfl | har
    · have hrest := filterMap_filter_none key tag g htag (key a) rest
        (fun a1 h1 e => hn.1 (e ▸ List.mem_map.2 ⟨a1, h1, rfl⟩))
      simp only [List.filterMap_cons, hb, List.filter_cons, htag a b hb, decide_True, if_true,
        hrest]
    · have hne : key x ≠ key a := fun e => hn.1 (e ▸ List.mem_map.2 ⟨a, har, rfl⟩)
      cases hx : g x with
      | none =>
        simp only [List.filterMap_cons, hx]
        exact ih hn.2 har
      | some bx =>
        simp only [List.filterMap_cons, hx, List.filter_cons, htag x bx hx, hne, decide_False,
          Bool.false_eq_true, if_false]
        exact ih hn.2 har

theorem length_filterMap {α β : Type} (g : α → Option β) (q : α → Bool)
    (l : List α) (h : ∀ a ∈ l, (g a).isSome = q a) :
    (l.filterMap g).length = (l.filter q).length := by
  induction l with
  | nil => rfl
  | cons x rest ih =>
    have hx := h x (List.mem_cons_self _ _)
    have hr := ih (fun a ha => h a (List.mem_cons_of_mem _ ha))
    cases hg : g x with
    | none =>
      rw [hg] at hx
      simp only [List.filterMap_cons, hg, List.filter_cons, ← hx, Option.isSome_none,
        Bool.false_eq_true, if_false]
      exact hr
    | some b =>
      rw [hg] at hx
      simp only [List.filterMap_cons, hg, List.filter_cons, ← hx, Option.isSome_some, if_true,
        List.length_cons, hr]

theorem final_find (nodes : List Node) (lh : F32) (plan : List Placed) (k : String) :
    StrMap.find? (nodes.map (fun n => (n.id, placeNode lh plan n))) k
      = (nodes.find? (fun n => n.id = k)).map (placeNode lh plan) :=
  find?_mapped nodes (placeNode lh plan) k

theorem parentConnector_resolved (nodes : List Node) (lh : F32) (plan : List Placed)
    (hu : UniqueIds nodes) (c p : Node) (hp : p ∈ nodes) (hne : c.parentId ≠ "")
    (hpc : p.id = c.parentId) :
    parentConnector (nodes.map (fun n => (n.id, placeNode lh plan n))) (placeNode lh plan c)
      = some ⟨p.id, c.id, "parent-child",
          (placeNode lh plan p).x + (placeNode lh plan p).width / 2,
          (placeNode lh plan p).y + (placeNode lh plan p).height,
          (placeNode lh plan c).x + (placeNode lh plan c).width / 2,
          (placeNode lh plan c).y⟩ := by
  unfold parentConnector
  rw [(placeNode_static lh plan c).2.1, final_find nodes lh plan, ← hpc,
    find?_node nodes hu p hp]
  have hne1 : p.id ≠ "" := by rw [hpc]; exact hne
  simp only [hne1, ne_eq, not_false_eq_true, if_true, Option.map_some']
  rw [(placeNode_static lh plan p).1, (placeNode_static lh plan c).1]

theorem parentConnector_some (nodes : List Node) (lh : F32) (plan : List Placed)
    (c : Node) (k : Connector)
    (h : parentConnector (nodes.map (fun n => (n.id, placeNode lh plan n)))
      (placeNode lh plan c) = some k) :
    c.parentId ≠ "" ∧ (∃ p ∈ nodes, p.id = c.parentId) ∧ k.toId = c.id ∧
      k.type = "parent-child" := by
  unfold parentConnector at h
  rw [(placeNode_static lh plan c).2.1, final_find nodes lh plan] at h
  by_cases hne : c.parentId = ""
  · simp [hne] at h
  · simp only [hne, ne_eq, not_false_eq_true, if_true] at h
    cases hf : nodes.find? (fun n => n.id = c.parentId) with
    | none => rw [hf] at h; simp at h
    | some p =>
      rw [hf] at h
      simp only [Option.map_some', Option.some.injEq] at h
      have hp := List.mem_of_find?_eq_some hf
      have hpid : p.id = c.parentId := by
        have := List.find?_some hf
        simpa using this
      refine ⟨hne, ⟨p, hp, hpid⟩, ?_, ?_⟩
      · rw [← h]
        exact (placeNode_static lh plan c).1
      · rw [← h]

theorem spouseConnector_some (nodes : List Node) (lh : F32) (plan : List Placed)
    (n : Node) (k : Connector)
    (h : spouseConnector (nodes.map (fun n => (n.id, placeNode lh plan n)))
      (placeNode lh plan n) = some k) :
    n.spouseId ≠ "" ∧ (∃ m ∈ nodes, m.id = n.spouseId ∧ n.id < m.id) ∧ k.fromId = n.id ∧
      k.toId = n.spouseId ∧ k.type = "spouse" := by
  unfold spouseConnector at h
  rw [(placeNode_static lh plan n).2.2.1, final_find nodes lh plan] at h
  by_cases hne : n.spouseId = ""
  · simp [hne] at h
  · simp only [hne, ne_eq, not_false_eq_true, if_true] at h
    cases hf : nodes.find? (fun m => m.id = n.spouseId) with
    | none => rw [hf] at h; simp at h
    | some m =>
      rw [hf] at h
      simp only [Option.map_some'] at h
      rw [(placeNode_static lh plan m).1, (placeNode_static lh plan n).1] at h
      have hm := List.mem_of_find?_eq_some hf
      have hmid : m.id = n.spouseId := by
        have := List.find?_some hf
        simpa using this
      by_cases hlt : n.id < m.id
      · simp only [hlt, if_true, Option.some.injEq] at h
        refine ⟨hne, ⟨m, hm, hmid, hlt⟩, ?_, ?_, ?_⟩
        · rw [← h]
        · rw [← h]
          exact hmid
        · rw [← h]
      · simp [hlt] at h

theorem spouseConnector_resolved (nodes : List Node) (lh : F32) (plan : List Placed)
    (hu : UniqueIds nodes) (n m : Node) (hm : m ∈ nodes) (hne : n.spouseId ≠ "")
    (hmn : m.id = n.spouseId) (hlt : n.id < m.id) :
    spouseConnector (nodes.map (fun n => (n.id, placeNode lh plan n))) (placeNode lh plan n)
      = some ⟨n.id, m.id, "spouse",
          (placeNode lh plan n).x + (placeNode lh plan n).width,
          (placeNode lh plan n).y + (placeNode lh plan n).height / 2,
          (placeNode lh plan m).x,
          (placeNode lh plan m).y + (placeNode lh plan m).height / 2⟩ := by
  unfold spouseConnector
  rw [(placeNode_static lh plan n).2.2.1, final_find nodes lh plan, ← hmn,
    find?_node nodes hu m hm]
  have hne1 : m.id ≠ "" := by rw [hmn]; exact hne
  simp only [hne1, ne_eq, not_false_eq_true, if_true, Option.map_some']
  rw [(placeNode_static lh plan m).1, (placeNode_static lh plan n).1]
  simp [hlt]

theorem connectors_eq (nodes : List Node) (lh : F32) (plan : List Placed) :
    generateConnectors (nodes.map (fun n => (n.id, placeNode lh plan n)))
      = nodes.filterMap (fun n =>
          parentConnector (nodes.map (fun n => (n.id, placeNode lh plan n))) (placeNode lh plan n))
        ++ nodes.filterMap (fun n =>
          spouseConnector (nodes.map (fun n => (n.id, placeNode lh plan n)))
            (placeNode lh plan n)) := by
  unfold generateConnectors StrMap.values
  simp only [List.map_map, List.filterMap_map]
  rfl

theorem parent_part_kind (nodes : List Node) (lh : F32) (plan : List Placed)
    (k : Connector)
    (hk : k ∈ nodes.filterMap (fun n =>
      parentConnector (nodes.map (fun n => (n.id, placeNode lh plan n))) (placeNode lh plan n))) :
    k.type = "parent-child" := by
  obtain ⟨c, _, hc⟩ := List.mem_filterMap.1 hk
  exact (parentConnector_some nodes lh plan c k hc).2.2.2

theorem spouse_part_kind (nodes : List Node) (lh : F32) (plan : List Placed)
    (k : Connector)
    (hk : k ∈ nodes.filterMap (fun n =>
      spouseConnector (nodes.map (fun n => (n.id, placeNode lh plan n))) (placeNode lh plan n))) :
    k.type = "spouse" := by
  obtain ⟨c, _, hc⟩ := List.mem_filterMap.1 hk
  exact (spouseConnector_some nodes lh plan c k hc).2.2.2.2

theorem kinds_differ : ("spouse" : String) ≠ "parent-child" := by decide

/-- C4: with unique ids, the parent-child connectors correspond one-to-one with
the nodes whose non-empty `parentId` is the id of an input node: for such a
node `c` with parent `p` the only parent-child connector ending at `c` runs from
the bottom centre of `p` to the top centre of `c` in the final positions, every
parent-child connector ends at such a node, and their number is the number of
such nodes. -/
theorem parent_child_connectors (nodes : List Node) (lh sd : F32) (hu : UniqueIds nodes) :
    ∃ r, calculateLayout nodes lh sd = some r ∧
      (∀ c ∈ nodes, c.parentId ≠ "" → ∀ p ∈ nodes, p.id = c.parentId →
        ∃ C ∈ r.nodes, ∃ P ∈ r.nodes, C.id = c.id ∧ P.id = p.id ∧
          r.connectors.filter (fun k => k.type = "parent-child" ∧ k.toId = c.id)
            = [⟨p.id, c.id, "parent-child", P.x + P.width / 2, P.y + P.height,
                C.x + C.width / 2, C.y⟩]) ∧
      (∀ k ∈ r.connectors, k.type = "parent-child" →
        ∃ c ∈ nodes, c.parentId ≠ "" ∧ (∃ p ∈ nodes, p.id = c.parentId) ∧ k.toId = c.id) ∧
      (r.connectors.filter (fun k => k.type = "parent-child")).length
        = (nodes.filter (fun c => c.parentId ≠ "" ∧ ∃ p ∈ nodes, p.id = c.parentId)).length := by
  have hrun := calculateLayout_eq nodes lh sd hu
  refine ⟨_, hrun, ?_, ?_, ?_⟩
  · intro c hc hne p hp hpc
    refine ⟨placeNode lh _ c, List.mem_map.2 ⟨c, hc, rfl⟩, placeNode lh _ p,
      List.mem_map.2 ⟨p, hp, rfl⟩, (placeNode_static lh _ c).1, (placeNode_static lh _ p).1, ?_⟩
    simp only
    rw [connectors_eq, List.filter_append]
    have hsp : (nodes.filterMap (fun n =>
        spouseConnector (nodes.map (fun n => (n.id, placeNode lh (layoutPlan nodes sd).2.2 n)))
          (placeNode lh (layoutPlan nodes sd).2.2 n))).filter
        (fun k => k.type = "parent-child" ∧ k.toId = c.id) = [] := by
      rw [List.filter_eq_nil_iff]
      intro k hk
      have := spouse_part_kind nodes lh _ k hk
      simp [this, kinds_differ]
    have hpc1 : (nodes.filterMap (fun n =>
        parentConnector (nodes.map (fun n => (n.id, placeNode lh (layoutPlan nodes sd).2.2 n)))
          (placeNode lh (layoutPlan nodes sd).2.2 n))).filter
        (fun k => k.type = "parent-child" ∧ k.toId = c.id)
        = (nodes.filterMap (fun n =>
        parentConnector (nodes.map (fun n => (n.id, placeNode lh (layoutPlan nodes sd).2.2 n)))
          (placeNode lh (layoutPlan nodes sd).2.2 n))).filter (fun k => k.toId = c.id) := by
      apply List.filter_congr
      intro k hk
      have := parent_part_kind nodes lh _ k hk
      simp [this]
    rw [hsp, hpc1, List.append_nil]
    exact filterMap_filter_unique (fun n : Node => n.id) (fun k : Connector => k.toId) _
      (fun a b hab => (parentConnector_some nodes lh _ a b hab).2.2.1) nodes hu c hc _
      (parentConnector_resolved nodes lh _ hu c p hp hne hpc)
  · intro k hk hkind
    simp only at hk
    rw [connectors_eq, List.mem_append] at hk
    rcases hk with hk | hk
    · obtain ⟨c, hc, hck⟩ := List.mem_filterMap.1 hk
      obtain ⟨h1, h2, h3, -⟩ := parentConnector_some nodes lh _ c k hck
      exact ⟨c, hc, h1, h2, h3⟩
    · have := spouse_part_kind nodes lh _ k hk
      rw [this] at hkind
      exact absurd hkind kinds_differ
  · simp only
    rw [connectors_eq, List.filter_append]
    have hsp : (nodes.filterMap (fun n =>
        spouseConnector (nodes.map (fun n => (n.id, placeNode lh (layoutPlan nodes sd).2.2 n)))
          (placeNode lh (layoutPlan nodes sd).2.2 n))).filter
        (fun k => k.type = "parent-child") = [] := by
      rw [List.filter_eq_nil_iff]
      intro k hk
      have := spouse_part_kind nodes lh _ k hk
      simp [this, kinds_differ]
    have hpc1 : (nodes.filterMap (fun n =>
        parentConnector (nodes.map (fun n => (n.id, placeNode lh (layoutPlan nodes sd).2.2 n)))
          (placeNode lh (layoutPlan nodes sd).2.2 n))).filter
        (fun k => k.type = "parent-child")
        = nodes.filterMap (fun n =>
        parentConnector (nodes.map (fun n => (n.id, placeNode lh (layoutPlan nodes sd).2.2 n)))
          (placeNode lh (layoutPlan nodes sd).2.2 n)) := by
      rw [List.filter_eq_self]
      intro k hk
      have := parent_part_kind nodes lh _ k hk
      simp [this]
    rw [hsp, hpc1, List.append_nil]
    apply length_filterMap
    intro c hc
    by_cases hres : c.parentId ≠ "" ∧ ∃ p ∈ nodes, p.id = c.parentId
    · obtain ⟨hne, p, hp, hpc⟩ := hres
      rw [parentConnector_resolved nodes lh _ hu c p hp hne hpc]
      simp only [Option.isSome_some]
      symm
      rw [decide_eq_true_eq]
      exact ⟨hne, p, hp, hpc⟩
    · cases hg : parentConnector
          (nodes.map (fun n => (n.id, placeNode lh (layoutPlan nodes sd).2.2 n)))
          (placeNode lh (layoutPlan nodes sd).2.2 c) with
      | none =>
        simp only [Option.isSome_none]
        symm
        rw [decide_eq_false_iff_not]
        exact hres
      | some k =>
        obtain ⟨h1, h2, -⟩ := parentConnector_some nodes lh _ c k hg
        exact absurd ⟨h1, h2⟩ hres

theorem parent_child_connectors_witness :
    ∃ r, calculateLayout sampleFamily 100 30 = some r ∧
      (∀ c ∈ sampleFamily, c.parentId ≠ "" → ∀ p ∈ sampleFamily, p.id = c.parentId →
        ∃ C ∈ r.nodes, ∃ P ∈ r.nodes, C.id = c.id ∧ P.id = p.id ∧
          r.connectors.filter (fun k => k.type = "parent-child" ∧ k.toId = c.id)
            = [⟨p.id, c.id, "parent-child", P.x + P.width / 2, P.y + P.height,
                C.x + C.width / 2, C.y⟩]) ∧
      (∀ k ∈ r.connectors, k.type = "parent-child" →
        ∃ c ∈ sampleFamily, c.parentId ≠ "" ∧ (∃ p ∈ sampleFamily, p.id = c.parentId) ∧
          k.toId = c.id) ∧
      (r.connectors.filter (fun k => k.type = "parent-child")).length
        = (sampleFamily.filter
            (fun c => c.parentId ≠ "" ∧ ∃ p ∈ sampleFamily, p.id = c.parentId)).length :=
  parent_child_connectors sampleFamily 100 30 sampleFamily_unique

theorem not_lt_empty (a : String) : ¬ a < "" := by
  rw [String.lt_iff_toList_lt]
  simp

theorem spouse_filter (nodes : List Node) (lh : F32) (plan : List Placed) (hu : UniqueIds nodes)
    (n m : Node) (hn : n ∈ nodes) (hm : m ∈ nodes) (hmn : m.id = n.spouseId)
    (hlt : n.id < m.id) :
    (generateConnectors (nodes.map (fun n => (n.id, placeNode lh plan n)))).filter
        (fun k => k.type = "spouse" ∧
          ((k.fromId = n.id ∧ k.toId = m.id) ∨ (k.fromId = m.id ∧ k.toId = n.id)))
      = [⟨n.id, m.id, "spouse",
          (placeNode lh plan n).x + (placeNode lh plan n).width,
          (placeNode lh plan n).y + (placeNode lh plan n).height / 2,
          (placeNode lh plan m).x,
          (placeNode lh plan m).y + (placeNode lh plan m).height / 2⟩] := by
  have hne : n.spouseId ≠ "" := by
    intro e
    rw [← hmn] at e
    rw [e] at hlt
    exact not_lt_empty _ hlt
  rw [connectors_eq, List.filter_append]
  have hpc : (nodes.filterMap (fun n =>
      parentConnector (nodes.map (fun n => (n.id, placeNode lh plan n)))
        (placeNode lh plan n))).filter
      (fun k => k.type = "spouse" ∧
        ((k.fromId = n.id ∧ k.toId = m.id) ∨ (k.fromId = m.id ∧ k.toId = n.id))) = [] := by
    rw [List.filter_eq_nil_iff]
    intro k hk
    have := parent_part_kind nodes lh plan k hk
    simp [this, kinds_differ.symm]
  have hsp : (nodes.filterMap (fun n =>
      spouseConnector (nodes.map (fun n => (n.id, placeNode lh plan n)))
        (placeNode lh plan n))).filter
      (fun k => k.type = "spouse" ∧
        ((k.fromId = n.id ∧ k.toId = m.id) ∨ (k.fromId = m.id ∧ k.toId = n.id)))
      = (nodes.filterMap (fun n =>
      spouseConnector (nodes.map (fun n => (n.id, placeNode lh plan n)))
        (placeNode lh plan n))).filter (fun k => k.fromId = n.id) := by
    apply List.filter_congr
    intro k hk
    obtain ⟨a, ha, hak⟩ := List.mem_filterMap.1 hk
    obtain ⟨-, ⟨b, -, hb, hab⟩, hfrom, hto, hkind⟩ := spouseConnector_some nodes lh plan a k hak
    rw [Bool.eq_iff_iff]
    simp only [decide_eq_true_eq]
    constructor
    · rintro ⟨-, ⟨h1, -⟩ | ⟨h1, h2⟩⟩
      · exact h1
      · exfalso
        rw [hfrom] at h1
        rw [hto] at h2
        rw [h1, hb, h2] at hab
        exact lt_asymm hlt hab
    · intro h1
      refine ⟨hkind, Or.inl ⟨h1, ?_⟩⟩
      rw [hfrom] at h1
      have := eq_of_id_eq nodes hu a n ha hn h1
      subst this
      rw [hto, hmn]
  rw [hpc, hsp, List.nil_append]
  exact filterMap_filter_unique (fun n : Node => n.id) (fun k : Connector => k.fromId) _
    (fun a b hab => (spouseConnector_some nodes lh plan a b hab).2.2.1) nodes hu n hn _
    (spouseConnector_resolved nodes lh plan hu n m hm hne hmn hlt)

theorem no_reverse_spouse (nodes : List Node) (lh : F32) (plan : List Placed)
    (n m : Node) (hlt : n.id < m.id) (k : Connector)
    (hk : k ∈ generateConnectors (nodes.map (fun n => (n.id, placeNode lh plan n))))
    (hkind : k.type = "spouse") : ¬ (k.fromId = m.id ∧ k.toId = n.id) := by
  rw [connectors_eq, List.mem_append] at hk
  rcases hk with hk | hk
  · have := parent_part_kind nodes lh plan k hk
    rw [this] at hkind
    exact absurd hkind kinds_differ.symm
  · obtain ⟨a, _, hak⟩ := List.mem_filterMap.1 hk
    obtain ⟨-, ⟨b, -, hb, hab⟩, hfrom, hto, -⟩ := spouseConnector_some nodes lh plan a k hak
    rintro ⟨h1, h2⟩
    rw [hfrom] at h1
    rw [hto] at h2
    rw [h1, hb, h2] at hab
    exact lt_asymm hlt hab

/-- C5: with unique ids, when `A` names `B` as spouse and `A.id` is
lexicographically less than `B.id`, there is exactly one spouse connector
between `A` and `B`; it runs from the right middle of `A` to the left middle of
`B` in the final positions, and no spouse connector runs from `B` to `A`.  (That
`B` names `A` in return is not needed for this.) -/
theorem spouse_connector_once (nodes : List Node) (lh sd : F32) (hu : UniqueIds nodes)
    (A B : Node) (hA : A ∈ nodes) (hB : B ∈ nodes) (hAB : A.spouseId = B.id)
    (hlt : A.id < B.id) :
    ∃ r, calculateLayout nodes lh sd = some r ∧
      (∃ A1 ∈ r.nodes, ∃ B1 ∈ r.nodes, A1.id = A.id ∧ B1.id = B.id ∧
        r.connectors.filter (fun k => k.type = "spouse" ∧
            ((k.fromId = A.id ∧ k.toId = B.id) ∨ (k.fromId = B.id ∧ k.toId = A.id)))
          = [⟨A.id, B.id, "spouse", A1.x + A1.width, A1.y + A1.height / 2,
              B1.x, B1.y + B1.height / 2⟩]) ∧
      ∀ k ∈ r.connectors, k.type = "spouse" → ¬ (k.fromId = B.id ∧ k.toId = A.id) := by
  have hrun := calculateLayout_eq nodes lh sd hu
  refine ⟨_, hrun, ?_, ?_⟩
  · exact ⟨placeNode lh _ A, List.mem_map.2 ⟨A, hA, rfl⟩, placeNode lh _ B,
      List.mem_map.2 ⟨B, hB, rfl⟩, (placeNode_static lh _ A).1, (placeNode_static lh _ B).1,
      spouse_filter nodes lh _ hu A B hA hB hAB.symm hlt⟩
  · intro k hk hkind
    exact no_reverse_spouse nodes lh _ A B hlt k hk hkind

theorem spouse_connector_once_witness :
    ∃ r, calculateLayout sampleFamily 100 30 = some r ∧
      (∃ A1 ∈ r.nodes, ∃ B1 ∈ r.nodes, A1.id = "a" ∧ B1.id = "b" ∧
        r.connectors.filter (fun k => k.type = "spouse" ∧
            ((k.fromId = "a" ∧ k.toId = "b") ∨ (k.fromId = "b" ∧ k.toId = "a")))
          = [⟨"a", "b", "spouse", A1.x + A1.width, A1.y + A1.height / 2,
              B1.x, B1.y + B1.height / 2⟩]) ∧
      ∀ k ∈ r.connectors, k.type = "spouse" → ¬ (k.fromId = "b" ∧ k.toId = "a") :=
  spouse_connector_once sampleFamily 100 30 sampleFamily_unique
    ⟨"a", "p", "b", 1, 2, 2, 10, 0⟩ ⟨"b", "p", "a", 3, 4, 2, 10, 0⟩
    (by simp [sampleFamily]) (by simp [sampleFamily]) rfl
    (by rw [String.lt_iff_toList_lt]; decide)

/-- C6, counterexample: a single node with a dangling parent reference is not
laid out as a root.  It keeps its input position `(7, 9)` and the total width is
`0`, whereas with an empty `parentId` it is placed at `(0, 0)` and the total
width is `siblingDistance`. -/
theorem dangling_parent_counterexample :
    UniqueIds danglingNode ∧
    (∀ n ∈ danglingNode, n.parentId ≠ "" ∧ ∀ p ∈ danglingNode, p.id ≠ n.parentId) ∧
    (calculateLayout danglingNode 100 30).map LayoutResult.geometry
      = some ([("z", 7, 9)], 0, 100) ∧
    (calculateLayout danglingAsRoot 100 30).map LayoutResult.geometry
      = some ([("z", 0, 0)], 30, 100) ∧
    (calculateLayout danglingNode 100 30).map LayoutResult.geometry
      ≠ (calculateLayout danglingAsRoot 100 30).map LayoutResult.geometry := by
  refine ⟨by unfold UniqueIds danglingNode; decide, by simp [danglingNode], by decide!,
    by decide!, by decide!⟩

theorem not_atDepth_of_dangling (nodes : List Node) (hu : UniqueIds nodes) (n : Node)
    (hn : n ∈ nodes) (hne : n.parentId ≠ "") (hd : ∀ p ∈ nodes, p.id ≠ n.parentId) (d : Nat) :
    ¬ AtDepth nodes n.id d := by
  intro h
  generalize hid : n.id = i at h
  cases h with
  | root m hm hp =>
    have := eq_of_id_eq nodes hu n m hn hm hid
    subst this
    exact hne hp
  | child m e hm hp hr =>
    have := eq_of_id_eq nodes hu n m hn hm hid
    subst this
    obtain ⟨p, hp1, hp2⟩ := List.mem_map.1 (AtDepth.mem_ids nodes _ e hr)
    exact hd p hp1 hp2

/-- C6, amended: with unique ids, a node whose non-empty `parentId` matches no
node id is not visited by the layout: it is returned exactly as it was given,
with its input `x` and `y`, and no parent-child connector ends at it. -/
theorem dangling_parent_not_laid_out (nodes : List Node) (lh sd : F32) (hu : UniqueIds nodes)
    (n : Node) (hn : n ∈ nodes) (hne : n.parentId ≠ "")
    (hd : ∀ p ∈ nodes, p.id ≠ n.parentId) :
    ∃ r, calculateLayout nodes lh sd = some r ∧
      (∃ m ∈ r.nodes, m.id = n.id) ∧ (∀ m ∈ r.nodes, m.id = n.id → m = n) ∧
      ∀ k ∈ r.connectors, k.type = "parent-child" → k.toId ≠ n.id := by
  have hrun := calculateLayout_eq nodes lh sd hu
  refine ⟨_, hrun, final_exists nodes lh _ n.id (List.mem_map.2 ⟨n, hn, rfl⟩), ?_, ?_⟩
  · intro m hm hmid
    obtain ⟨a, ha, rfl⟩ := List.mem_map.1 hm
    rw [(placeNode_static lh _ a).1] at hmid
    have := eq_of_id_eq nodes hu a n ha hn hmid
    subst this
    apply placeNode_of_not_mem
    intro hmem
    obtain ⟨d, hd1⟩ := depth_of_placed nodes sd a.id hmem
    exact not_atDepth_of_dangling nodes hu a hn hne hd d hd1
  · intro k hk hkind hto
    simp only at hk
    rw [connectors_eq, List.mem_append] at hk
    rcases hk with hk | hk
    · obtain ⟨c, hc, hck⟩ := List.mem_filterMap.1 hk
      obtain ⟨-, ⟨p, hp, hpc⟩, h3, -⟩ := parentConnector_some nodes lh _ c k hck
      rw [h3] at hto
      have := eq_of_id_eq nodes hu c n hc hn hto
      subst this
      exact hd p hp hpc
    · have := spouse_part_kind nodes lh _ k hk
      rw [this] at hkind
      exact absurd hkind kinds_differ

theorem dangling_parent_not_laid_out_witness :
    ∃ r, calculateLayout danglingNode 100 30 = some r ∧
      (∃ m ∈ r.nodes, m.id = "z") ∧
      (∀ m ∈ r.nodes, m.id = "z" → m = ⟨"z", "q", "", 7, 9, 1, 10, 5⟩) ∧
      ∀ k ∈ r.connectors, k.type = "parent-child" → k.toId ≠ "z" :=
  dangling_parent_not_laid_out danglingNode 100 30 (by unfold UniqueIds danglingNode; decide)
    ⟨"z", "q", "", 7, 9, 1, 10, 5⟩ (by simp [danglingNode]) (by decide)
    (by simp [danglingNode])

/-- C7, counterexample: `b` names the existing node `a` as spouse, but no
spouse connector joins them, because `b` is not less than `a` and `a` names
nobody. -/
theorem lone_spouse_reference_counterexample :
    UniqueIds loneReference ∧
    (⟨"b", "", "a", 0, 0, 2, 10, 0⟩ : Node) ∈ loneReference ∧
    (⟨"a", "", "", 0, 0, 2, 10, 0⟩ : Node) ∈ loneReference ∧
    (⟨"b", "", "a", 0, 0, 2, 10, 0⟩ : Node).spouseId ≠ "" ∧
    (⟨"b", "", "a", 0, 0, 2, 10, 0⟩ : Node).spouseId = (⟨"a", "", "", 0, 0, 2, 10, 0⟩ : Node).id ∧
    (calculateLayout loneReference 100 30).map
      (fun r => (r.connectors.filter (fun k => k.type = "spouse" ∧
        ((k.fromId = "b" ∧ k.toId = "a") ∨ (k.fromId = "a" ∧ k.toId = "b")))).length)
      = some 0 := by
  refine ⟨by unfold UniqueIds loneReference; decide, by simp [loneReference],
    by simp [loneReference], by decide, rfl, by decide!⟩

/-- C7, amended: with unique ids, a node `n` whose `spouseId` is the id of an
input node `m` with `n.id` lexicographically less than `m.id` is joined to `m`
by exactly one spouse connector (in either direction), and the number of spouse
connectors is the number of nodes whose spouse reference resolves to a node
with a greater id. -/
theorem spouse_connectors_counted (nodes : List Node) (lh sd : F32) (hu : UniqueIds nodes) :
    ∃ r, calculateLayout nodes lh sd = some r ∧
      (∀ n ∈ nodes, ∀ m ∈ nodes, n.spouseId = m.id → n.id < m.id →
        (r.connectors.filter (fun k => k.type = "spouse" ∧
          ((k.fromId = n.id ∧ k.toId = m.id) ∨ (k.fromId = m.id ∧ k.toId = n.id)))).length
          = 1) ∧
      (r.connectors.filter (fun k => k.type = "spouse")).length
        = (nodes.filter (fun n => n.spouseId ≠ "" ∧
            ∃ m ∈ nodes, m.id = n.spouseId ∧ n.id < m.id)).length := by
  have hrun := calculateLayout_eq nodes lh sd hu
  refine ⟨_, hrun, ?_, ?_⟩
  · intro n hn m hm hnm hlt
    simp only
    rw [spouse_filter nodes lh _ hu n m hn hm hnm.symm hlt]
    rfl
  · simp only
    rw [connectors_eq, List.filter_append]
    have hpc : (nodes.filterMap (fun n =>
        parentConnector (nodes.map (fun n => (n.id, placeNode lh (layoutPlan nodes sd).2.2 n)))
          (placeNode lh (layoutPlan nodes sd).2.2 n))).filter
        (fun k => k.type = "spouse") = [] := by
      rw [List.filter_eq_nil_iff]
      intro k hk
      have := parent_part_kind nodes lh _ k hk
      simp [this, kinds_differ.symm]
    have hsp : (nodes.filterMap (fun n =>
        spouseConnector (nodes.map (fun n => (n.id, placeNode lh (layoutPlan nodes sd).2.2 n)))
          (placeNode lh (layoutPlan nodes sd).2.2 n))).filter
        (fun k => k.type = "spouse")
        = nodes.filterMap (fun n =>
        spouseConnector (nodes.map (fun n => (n.id, placeNode lh (layoutPlan nodes sd).2.2 n)))
          (placeNode lh (layoutPlan nodes sd).2.2 n)) := by
      rw [List.filter_eq_self]
      intro k hk
      have := spouse_part_kind nodes lh _ k hk
      simp [this]
    rw [hpc, hsp, List.nil_append]
    apply length_filterMap
    intro n hn
    by_cases hres : n.spouseId ≠ "" ∧ ∃ m ∈ nodes, m.id = n.spouseId ∧ n.id < m.id
    · obtain ⟨hne, m, hm, hmn, hlt⟩ := hres
      rw [spouseConnector_resolved nodes lh _ hu n m hm hne hmn hlt]
      simp only [Option.isSome_some]
      symm
      rw [decide_eq_true_eq]
      exact ⟨hne, m, hm, hmn, hlt⟩
    · cases hg : spouseConnector
          (nodes.map (fun n => (n.id, placeNode lh (layoutPlan nodes sd).2.2 n)))
          (placeNode lh (layoutPlan nodes sd).2.2 n) with
      | none =>
        simp only [Option.isSome_none]
        symm
        rw [decide_eq_false_iff_not]
        exact hres
      | some k =>
        obtain ⟨h1, h2, -⟩ := spouseConnector_some nodes lh _ n k hg
        exact absurd ⟨h1, h2⟩ hres

theorem spouse_connectors_counted_witness :
    ∃ r, calculateLayout sampleFamily 100 30 = some r ∧
      (∀ n ∈ sampleFamily, ∀ m ∈ sampleFamily, n.spouseId = m.id → n.id < m.id →
        (r.connectors.filter (fun k => k.type = "spouse" ∧
          ((k.fromId = n.id ∧ k.toId = m.id) ∨ (k.fromId = m.id ∧ k.toId = n.id)))).length
          = 1) ∧
      (r.connectors.filter (fun k => k.type = "spouse")).length
        = (sampleFamily.filter (fun n => n.spouseId ≠ "" ∧
            ∃ m ∈ sampleFamily, m.id = n.spouseId ∧ n.id < m.id)).length :=
  spouse_connectors_counted sampleFamily 100 30 sampleFamily_unique

/-! ### Total size and frame -/

theorem dfs_perm (nodes : List Node) (hu : UniqueIds nodes) (hok : ParentsOK nodes) :
    ((layoutPlan nodes 0).2.2.map (fun p => p.id)).Perm (nodes.map (fun n => n.id)) := by
  rw [List.perm_ext_iff_of_nodup (layoutPlan_nodup nodes 0 hu) hu]
  intro a
  constructor
  · intro ha
    rw [layoutPlan_ids] at ha
    exact forest_all_subset nodes _ a ha
  · intro ha
    obtain ⟨n, hn, rfl⟩ := List.mem_map.1 ha
    obtain ⟨d, hd⟩ := hok n hn
    rw [layoutPlan_ids]
    exact covered nodes hu n.id d hd

theorem leaves_in_plan (nodes : List Node) (sd : F32) (hu : UniqueIds nodes)
    (hok : ParentsOK nodes) :
    ((layoutPlan nodes sd).2.2.filter (fun p => (childIds nodes p.id).isEmpty)).length
      = leafCount nodes := by
  have h1 : ((layoutPlan nodes sd).2.2.filter (fun p => (childIds nodes p.id).isEmpty)).length
      = (((layoutPlan nodes sd).2.2.map (fun p => p.id)).filter
          (fun id => (childIds nodes id).isEmpty)).length := by
    rw [List.filter_map, List.length_map]
    rfl
  have h2 : (layoutPlan nodes sd).2.2.map (fun p => p.id)
      = (layoutPlan nodes 0).2.2.map (fun p => p.id) := by
    rw [layoutPlan_ids, layoutPlan_ids]
  rw [h1, h2, List.Perm.length_eq (List.Perm.filter _ (dfs_perm nodes hu hok))]
  unfold leafCount
  rw [List.filter_map, List.length_map]
  rfl

theorem single_is_root (n : Node) (hok : ParentsOK [n]) : n.parentId = "" := by
  obtain ⟨d, hd⟩ := hok n (List.mem_singleton.2 rfl)
  have hu : UniqueIds [n] := by simp [UniqueIds]
  by_contra hne
  have hdang : ∀ p ∈ [n], p.id ≠ n.parentId := by
    intro p hp e
    rw [List.mem_singleton.1 hp] at e
    generalize hid : n.id = i at hd
    cases hd with
    | root m hm hq =>
      rw [List.mem_singleton.1 hm] at hq
      exact hne hq
    | child m c hm hq hr =>
      have hmn := List.mem_singleton.1 hm
      subst hmn
      rw [← e] at hr
      have h1 : AtDepth [m] m.id (c + 1) := AtDepth.child m c hm hq (e ▸ hr)
      have := AtDepth.unique [m] hu m.id _ _ hr h1
      omega
  exact not_atDepth_of_dangling [n] hu n (List.mem_singleton.2 rfl) hne hdang d hd

theorem single_root_plan (n : Node) (sd : F32) (hp : n.parentId = "") :
    (layoutPlan [n] sd).2 = (0 + sd, [⟨n.id, 0, 0⟩]) := by
  have hk : childIds [n] n.id = [] := by
    unfold childIds
    by_cases hid : n.id = ""
    · simp [hid]
    · have : ¬ n.parentId = n.id := by rw [hp]; exact fun e => hid e.symm
      simp [hid, List.filter_cons, this]
  have hr : rootIds [n] = [n.id] := by simp [rootIds, List.filter_cons, hp]
  unfold layoutPlan
  rw [hr, planForest_cons]
  simp only [List.length_singleton]
  rw [planSubtree_nil _ _ sd _ n.id 0 0 hk]
  simp [planForest]

/-- C8, counterexample: eleven roots laid out with `siblingDistance = 0.1`.  All
eleven are leaves, and the total width is `4613735 / 4194304`, the result of
adding `0.1` eleven times to `0` in `float` arithmetic.  This is neither the
`float` product of `0.1` and `11` nor the exact product. -/
theorem accumulated_width_counterexample :
    UniqueIds elevenRoots ∧ Resolves elevenRoots ∧ Acyclic elevenRoots ∧
    F32.IsFloat (F32.dec 1 10) ∧ leafCount elevenRoots = 11 ∧
    (calculateLayout elevenRoots 1 (F32.dec 1 10)).map (fun r => r.totalWidth)
      = some (F32.fin (4613735 / 4194304)) ∧
    F32.dec 1 10 * ((11 : Nat) : F32) = F32.fin (9227469 / 8388608) ∧
    (F32.dec 1 10).toRat * 11 = 147639503 / 134217728 ∧
    (4613735 / 4194304 : ℚ) ≠ 9227469 / 8388608 ∧
    (4613735 / 4194304 : ℚ) ≠ 147639503 / 134217728 := by
  refine ⟨elevenRoots_unique,
    (resolves_acyclic_of_parentsOK elevenRoots elevenRoots_unique elevenRoots_parentsOK).1,
    (resolves_acyclic_of_parentsOK elevenRoots elevenRoots_unique elevenRoots_parentsOK).2,
    by decide!, by decide, by decide!, by decide!, by decide!, by norm_num, by norm_num⟩

/-- C8, amended: with unique ids and parent references that all resolve and are
acyclic, the total width is the value obtained from `0` by adding
`siblingDistance` once per leaf (a leaf is a node that no node names as its
parent), every sum rounded to `float`; so the empty list gives width `0`, and a
single node gives width `0 + siblingDistance`, which is `siblingDistance`, with
that node at `x = 0` and `y = 0 * levelHeight`, which is `0` for a finite
`levelHeight`. -/
theorem total_width (nodes : List Node) (lh sd : F32) (hu : UniqueIds nodes)
    (hres : Resolves nodes) (hacyc : Acyclic nodes) :
    ∃ r, calculateLayout nodes lh sd = some r ∧
      r.totalWidth = advance sd (leafCount nodes) 0 ∧
      (nodes = [] → r.totalWidth = 0) ∧
      (∀ n, nodes = [n] → r.totalWidth = 0 + sd ∧ (F32.IsFloat sd → r.totalWidth = sd) ∧
        ∀ m ∈ r.nodes, m.x = 0 ∧ m.y = ((0 : Nat) : F32) * lh ∧ (F32.IsFinite lh → m.y = 0)) := by
  have hrun := calculateLayout_eq nodes lh sd hu
  have hok := parentsOK_of_resolves_acyclic nodes hres hacyc
  have hmain : (layoutPlan nodes sd).2.1 = advance sd (leafCount nodes) 0 := by
    rw [(layoutPlan_leaves nodes sd hu).2, leaves_in_plan nodes sd hu hok]
  refine ⟨_, hrun, hmain, ?_, ?_⟩
  · intro hnil
    simp only
    rw [hmain, hnil]
    rfl
  · intro n hn
    subst hn
    have hp := single_is_root n hok
    have hplan := single_root_plan n sd hp
    have hw : (layoutPlan [n] sd).2.1 = 0 + sd := by rw [hplan]
    refine ⟨hw, fun hf => ?_, ?_⟩
    · simp only
      rw [hw]
      exact F32.zero_add_of_isFloat hf
    · intro m hm
      simp only [List.map_cons, List.map_nil, List.mem_singleton] at hm
      rw [hm, hplan]
      refine ⟨by simp [placeNode], by simp [placeNode], fun hfin => ?_⟩
      simp only [placeNode, List.find?_cons, decide_True]
      exact F32.zero_mul_of_isFinite hfin

theorem total_width_witness :
    ∃ r, calculateLayout sampleFamily 100 30 = some r ∧
      r.totalWidth = advance 30 (leafCount sampleFamily) 0 ∧
      (sampleFamily = [] → r.totalWidth = 0) ∧
      (∀ n, sampleFamily = [n] → r.totalWidth = 0 + 30 ∧
        (F32.IsFloat 30 → r.totalWidth = 30) ∧
        ∀ m ∈ r.nodes, m.x = 0 ∧ m.y = ((0 : Nat) : F32) * 100 ∧
          (F32.IsFinite 100 → m.y = 0)) :=
  total_width sampleFamily 100 30 sampleFamily_unique sampleFamily_resolves
    sampleFamily_acyclic

theorem calculateLayout_nil (lh sd : F32) :
    calculateLayout [] lh sd = some ⟨[], [], 0, 0 + lh⟩ := by
  simp [calculateLayout, calculateLayoutFuel, buildMaps, rootNodeIds, rootsLoop,
    generateConnectors, StrMap.values]

/-! ### The value of `maxY` -/

theorem maxForest_spec (step : String → F32) (cs : List String)
    (hstep : ∀ c ∈ cs, step c ≠ F32.nan) :
    ∀ my, my ≠ F32.nan →
      my ≤ maxForest step cs my ∧ (∀ c ∈ cs, step c ≤ maxForest step cs my) ∧
      (maxForest step cs my = my ∨ ∃ c ∈ cs, maxForest step cs my = step c) := by
  induction cs with
  | nil =>
    intro my hmy
    exact ⟨F32.le_refl_of_ne_nan hmy, fun c hc => absurd hc (List.not_mem_nil c), Or.inl rfl⟩
  | cons c rest ih =>
    intro my hmy
    have hc := hstep c (List.mem_cons_self _ _)
    have hm : max my (step c) ≠ F32.nan := by
      rcases F32.max_cases my (step c) with h | h <;> rw [h] <;> assumption
    obtain ⟨h1, h2, h3⟩ := ih (fun c hc => hstep c (List.mem_cons_of_mem _ hc)) _ hm
    refine ⟨F32.le_chain (F32.le_max_l hmy) h1, ?_, ?_⟩
    · intro c1 hc1
      rcases List.mem_cons.1 hc1 with rfl | hc1
      · exact F32.le_chain (F32.le_max_r hmy hc) h1
      · exact h2 c1 hc1
    · rcases h3 with h3 | ⟨c1, hc1, h3⟩
      · rcases F32.max_cases my (step c) with h | h
        · left
          show maxForest step rest (max my (step c)) = my
          rw [h3, h]
        · right
          refine ⟨c, List.mem_cons_self _ _, ?_⟩
          show maxForest step rest (max my (step c)) = step c
          rw [h3, h]
      · exact Or.inr ⟨c1, List.mem_cons_of_mem _ hc1, h3⟩

theorem maxSubtree_spec (lh : F32) (K : String → List String)
    (hY : ∀ l : Nat, (l : F32) * lh ≠ F32.nan) (f : Nat) :
    ∀ id lvl, fits K f id →
      (∀ e ∈ levels K f id lvl, (e.2 : F32) * lh ≤ maxSubtree lh K f id lvl) ∧
      (∃ e ∈ levels K f id lvl, maxSubtree lh K f id lvl = (e.2 : F32) * lh) := by
  induction f with
  | zero => intro id lvl h; simp [fits] at h
  | succ f ih =>
    intro id lvl hfit
    have hfit1 : ∀ c ∈ K id, fits K f c := hfit
    have hne : ∀ c ∈ K id, maxSubtree lh K f c (lvl + 1) ≠ F32.nan := by
      intro c hc
      obtain ⟨e, -, he⟩ := (ih c (lvl + 1) (hfit1 c hc)).2
      rw [he]
      exact hY _
    obtain ⟨h1, h2, h3⟩ := maxForest_spec (fun c => maxSubtree lh K f c (lvl + 1)) (K id) hne
      ((lvl : F32) * lh) (hY lvl)
    rw [maxSubtree_succ, levels_succ]
    refine ⟨?_, ?_⟩
    · intro e he
      rcases List.mem_cons.1 he with rfl | he
      · exact h1
      · obtain ⟨c, hc, hec⟩ := List.mem_flatMap.1 he
        exact F32.le_chain ((ih c (lvl + 1) (hfit1 c hc)).1 e hec) (h2 c hc)
    · rcases h3 with h3 | ⟨c, hc, h3⟩
      · exact ⟨(id, lvl), List.mem_cons_self _ _, h3⟩
      · obtain ⟨e, he, hee⟩ := (ih c (lvl + 1) (hfit1 c hc)).2
        exact ⟨e, List.mem_cons_of_mem _ (List.mem_flatMap.2 ⟨c, hc, he⟩), by rw [h3]; exact hee⟩

theorem layoutMax_spec (nodes : List Node) (lh sd : F32) (hu : UniqueIds nodes)
    (hY : ∀ l : Nat, (l : F32) * lh ≠ F32.nan) :
    0 ≤ layoutMax nodes lh ∧
    (∀ p ∈ (layoutPlan nodes sd).2.2, (p.level : F32) * lh ≤ layoutMax nodes lh) ∧
    (layoutMax nodes lh = 0 ∨
      ∃ p ∈ (layoutPlan nodes sd).2.2, layoutMax nodes lh = (p.level : F32) * lh) := by
  generalize hM : nodes.length + 1 = M
  have hfit : ∀ c ∈ rootIds nodes, fits (childIds nodes) M c := by
    intro c hc
    rw [← hM]
    exact layoutPlan_fits nodes hu c hc
  have hlev : (layoutPlan nodes sd).2.2.map (fun p => (p.id, p.level))
      = (rootIds nodes).flatMap (fun c => levels (childIds nodes) M c 0) := by
    rw [← hM]
    exact layoutPlan_levels nodes sd
  have hmax : layoutMax nodes lh
      = maxForest (fun c => maxSubtree lh (childIds nodes) M c 0) (rootIds nodes) 0 := by
    rw [← hM]
    rfl
  rw [hmax]
  have hspec : ∀ c ∈ rootIds nodes,
      (∀ e ∈ levels (childIds nodes) M c 0,
        (e.2 : F32) * lh ≤ maxSubtree lh (childIds nodes) M c 0) ∧
      (∃ e ∈ levels (childIds nodes) M c 0,
        maxSubtree lh (childIds nodes) M c 0 = (e.2 : F32) * lh) :=
    fun c hc => maxSubtree_spec lh (childIds nodes) hY M c 0 (hfit c hc)
  have hne : ∀ c ∈ rootIds nodes, maxSubtree lh (childIds nodes) M c 0 ≠ F32.nan := by
    intro c hc
    obtain ⟨e, -, he⟩ := (hspec c hc).2
    rw [he]
    exact hY _
  obtain ⟨h1, h2, h3⟩ := maxForest_spec
    (fun c => maxSubtree lh (childIds nodes) M c 0) (rootIds nodes) hne 0
    (F32.ne_nan_of_le_left F32.zero_le_zero)
  generalize maxForest (fun c => maxSubtree lh (childIds nodes) M c 0) (rootIds nodes) 0 = R
    at h1 h2 h3 ⊢
  refine ⟨h1, ?_, ?_⟩
  · intro p hp
    have hin : (p.id, p.level) ∈ (layoutPlan nodes sd).2.2.map (fun p => (p.id, p.level)) :=
      List.mem_map.2 ⟨p, hp, rfl⟩
    rw [hlev] at hin
    obtain ⟨c, hc, hpc⟩ := List.mem_flatMap.1 hin
    have h4 : (p.level : F32) * lh ≤ maxSubtree lh (childIds nodes) M c 0 :=
      (hspec c hc).1 (p.id, p.level) hpc
    have h5 : maxSubtree lh (childIds nodes) M c 0 ≤ R := h2 c hc
    exact F32.le_chain h4 h5
  · rcases h3 with h3 | ⟨c, hc, h3⟩
    · exact Or.inl h3
    · right
      obtain ⟨e, he, hee⟩ := (hspec c hc).2
      have hin : e ∈ (layoutPlan nodes sd).2.2.map (fun p => (p.id, p.level)) := by
        rw [hlev]
        exact List.mem_flatMap.2 ⟨c, hc, he⟩
      obtain ⟨p, hp, hpe⟩ := List.mem_map.1 hin
      refine ⟨p, hp, ?_⟩
      have h6 : R = maxSubtree lh (childIds nodes) M c 0 := h3
      rw [h6, hee, ← hpe]

theorem layoutMax_eq (nodes : List Node) (lh sd : F32) (hu : UniqueIds nodes) (l : ℚ)
    (hl : 0 < l) (hlh : lh = F32.fin l) (D : Nat) (hD1 : ∀ id d, AtDepth nodes id d → d ≤ D)
    (hD2 : D = 0 ∨ ∃ id, AtDepth nodes id D) :
    layoutMax nodes lh = (D : F32) * lh := by
  subst hlh
  have hY : ∀ n : Nat, (n : F32) * F32.fin l ≠ F32.nan :=
    fun n => F32.ne_nan_of_le_right (F32.natCast_mul_nonneg l hl n)
  obtain ⟨h0, hall, hex⟩ := layoutMax_spec nodes (F32.fin l) sd hu hY
  apply F32.le_antisymm_of_le
  · rcases hex with h | ⟨p, hp, h⟩
    · rw [h]
      exact F32.natCast_mul_nonneg l hl D
    · rw [h]
      exact F32.natCast_mul_mono l hl (hD1 p.id p.level (layoutPlan_level nodes sd p hp))
  · rcases hD2 with h | ⟨id, hid⟩
    · rw [h, F32.zero_mul_of_isFinite (by simp [F32.IsFinite])]
      exact h0
    · obtain ⟨p, hp, -, hpl⟩ := placed_of_depth nodes sd hu id D hid
      rw [← hpl]
      exact hall p hp

theorem chain_unique : UniqueIds chain := by
  unfold UniqueIds chain
  decide

theorem chain_parentsOK : ParentsOK chain :=
  parentsOK_of_dfs chain (by decide)

/-- C9, counterexample: a chain of seven nodes, so that the greatest depth is
`6`, laid out with `levelHeight = 0.1`.  The total height is
`2936013 / 4194304`, the rounded sum of the rounded product `6 * 0.1` and `0.1`.
This is neither the `float` product of `0.1` and `1 + 6` nor the exact
product. -/
theorem rounded_height_counterexample :
    UniqueIds chain ∧ (0 : F32) < F32.dec 1 10 ∧ F32.IsFloat (F32.dec 1 10) ∧
    (∀ n ∈ chain, n.id ∈ dfsOrder chain) ∧
    (levels (childIds chain) (chain.length + 1) "n0" 0).map Prod.snd = [0, 1, 2, 3, 4, 5, 6] ∧
    (calculateLayout chain (F32.dec 1 10) 1).map (fun r => r.totalHeight)
      = some (F32.fin (2936013 / 4194304)) ∧
    F32.dec 1 10 * (1 + ((6 : Nat) : F32)) = F32.fin (11744051 / 16777216) ∧
    (F32.dec 1 10).toRat * (1 + 6) = 93952411 / 134217728 ∧
    (2936013 / 4194304 : ℚ) ≠ 11744051 / 16777216 ∧
    (2936013 / 4194304 : ℚ) ≠ 93952411 / 134217728 := by
  refine ⟨chain_unique, by decide!, by decide!, by decide, by decide, by decide!, by decide!,
    by decide!, by norm_num, by norm_num⟩

/-- C9, amended: with unique ids and a finite `levelHeight > 0`, the total height
is `D * levelHeight + levelHeight`, the product and the sum each rounded to
`float`, where `D` is the greatest depth of a node reachable from a root (`0`
when there is none); the empty list gives the empty result with total width
`0` and total height `0 + levelHeight`, which is `levelHeight`. -/
theorem total_height (nodes : List Node) (lh sd : F32) (hu : UniqueIds nodes) (hlh : 0 < lh)
    (hfin : F32.IsFinite lh) (D : Nat) (hD1 : ∀ id d, AtDepth nodes id d → d ≤ D)
    (hD2 : D = 0 ∨ ∃ id, AtDepth nodes id D) :
    ∃ r, calculateLayout nodes lh sd = some r ∧
      r.totalHeight = (D : F32) * lh + lh ∧
      (nodes = [] → r = ⟨[], [], 0, 0 + lh⟩) ∧ (F32.IsFloat lh → 0 + lh = lh) := by
  have hrun := calculateLayout_eq nodes lh sd hu
  obtain ⟨l, hl, hlq⟩ := F32.pos_finite hlh hfin
  have hmy := layoutMax_eq nodes lh sd hu l hl hlq D hD1 hD2
  refine ⟨_, hrun, ?_, ?_, F32.zero_add_of_isFloat⟩
  · simp only
    rw [hmy]
  · intro hnil
    subst hnil
    rw [calculateLayout_nil] at hrun
    exact (Option.some.inj hrun).symm

theorem sampleFamily_depth_le (id : String) (d : Nat) (h : AtDepth sampleFamily id d) :
    d ≤ 1 := by
  obtain ⟨n, hn, rfl⟩ := List.mem_map.1 (AtDepth.mem_ids sampleFamily id d h)
  obtain ⟨e, he⟩ := sampleFamily_parentsOK n hn
  have hde := AtDepth.unique sampleFamily sampleFamily_unique n.id d e h he
  simp only [sampleFamily, List.mem_cons, List.mem_singleton, List.not_mem_nil, or_false] at hn
  rcases hn with rfl | rfl | rfl
  · have := AtDepth.unique sampleFamily sampleFamily_unique "p" d 0 h sampleFamily_depth_p
    omega
  · have := AtDepth.unique sampleFamily sampleFamily_unique "a" d 1 h
      (AtDepth.child ⟨"a", "p", "b", 1, 2, 2, 10, 0⟩ 0 (by simp [sampleFamily]) (by decide)
        sampleFamily_depth_p)
    omega
  · have := AtDepth.unique sampleFamily sampleFamily_unique "b" d 1 h
      (AtDepth.child ⟨"b", "p", "a", 3, 4, 2, 10, 0⟩ 0 (by simp [sampleFamily]) (by decide)
        sampleFamily_depth_p)
    omega

theorem total_height_witness :
    ∃ r, calculateLayout sampleFamily 100 30 = some r ∧
      r.totalHeight = ((1 : Nat) : F32) * 100 + 100 ∧
      (sampleFamily = [] → r = ⟨[], [], 0, 0 + 100⟩) ∧
      (F32.IsFloat 100 → (0 : F32) + 100 = 100) :=
  total_height sampleFamily 100 30 sampleFamily_unique (by decide!) (by decide!) 1
    sampleFamily_depth_le
    (Or.inr ⟨"a", AtDepth.child ⟨"a", "p", "b", 1, 2, 2, 10, 0⟩ 0 (by simp [sampleFamily])
      (by decide) sampleFamily_depth_p⟩)

/-- C10: with unique ids, the returned node list has the length of the input,
carries the same ids, and for every input node contains exactly one node with
that id, which agrees with the input node in `parentId`, `spouseId`, `width`,
`height` and `generation`: only `x` and `y` may differ. -/
theorem nodes_preserved (nodes : List Node) (lh sd : F32) (hu : UniqueIds nodes) :
    ∃ r, calculateLayout nodes lh sd = some r ∧
      r.nodes.length = nodes.length ∧
      (r.nodes.map (fun m => m.id)).Perm (nodes.map (fun n => n.id)) ∧
      ∀ n ∈ nodes,
        (r.nodes.filter (fun m => m.id = n.id)).length = 1 ∧
        ∀ m ∈ r.nodes, m.id = n.id →
          m.parentId = n.parentId ∧ m.spouseId = n.spouseId ∧ m.width = n.width ∧
          m.height = n.height ∧ m.generation = n.generation := by
  have hrun := calculateLayout_eq nodes lh sd hu
  refine ⟨_, hrun, by simp, ?_, ?_⟩
  · simp only [List.map_map]
    have : ((fun m : Node => m.id) ∘ placeNode lh (layoutPlan nodes sd).2.2)
        = fun n => n.id := by
      funext n
      exact (placeNode_static lh _ n).1
    rw [this]
  · intro n hn
    refine ⟨?_, ?_⟩
    · have := filterMap_filter_unique (fun a : Node => a.id) (fun b : Node => b.id)
        (fun a => some (placeNode lh (layoutPlan nodes sd).2.2 a))
        (fun a b hab => by
          simp only [Option.some.injEq] at hab
          rw [← hab]
          exact (placeNode_static lh _ a).1)
        nodes hu n hn _ rfl
      have hmap : nodes.filterMap (fun a => some (placeNode lh (layoutPlan nodes sd).2.2 a))
          = nodes.map (placeNode lh (layoutPlan nodes sd).2.2) :=
        congrFun (List.filterMap_eq_map (placeNode lh (layoutPlan nodes sd).2.2)) nodes
      rw [hmap] at this
      simp only at this ⊢
      rw [this]
      rfl
    · intro m hm hmid
      obtain ⟨a, ha, rfl⟩ := List.mem_map.1 hm
      have hs := placeNode_static lh (layoutPlan nodes sd).2.2 a
      rw [hs.1] at hmid
      have := eq_of_id_eq nodes hu a n ha hn hmid
      subst this
      exact hs.2

theorem nodes_preserved_witness :
    ∃ r, calculateLayout sampleFamily 100 30 = some r ∧
      r.nodes.length = sampleFamily.length ∧
      (r.nodes.map (fun m => m.id)).Perm (sampleFamily.map (fun n => n.id)) ∧
      ∀ n ∈ sampleFamily,
        (r.nodes.filter (fun m => m.id = n.id)).length = 1 ∧
        ∀ m ∈ r.nodes, m.id = n.id →
          m.parentId = n.parentId ∧ m.spouseId = n.spouseId ∧ m.width = n.width ∧
          m.height = n.height ∧ m.generation = n.generation :=
  nodes_preserved sampleFamily 100 30 sampleFamily_unique

/-! ## Horizontal ranges in the plan -/

theorem planForest_append (W : String → F32) (step : String → F32 → F32 × F32 × List Placed)
    (l1 l2 : List String) : ∀ cx : F32,
    planForest W step (l1 ++ l2) cx
      = ((planForest W step l1 cx).1 ++ (planForest W step l2 (planForest W step l1 cx).2.1).1,
         (planForest W step l2 (planForest W step l1 cx).2.1).2.1,
         (planForest W step l1 cx).2.2
           ++ (planForest W step l2 (planForest W step l1 cx).2.1).2.2) := by
  induction l1 with
  | nil => intro cx; simp [planForest]
  | cons c rest ih =>
    intro cx
    rw [List.cons_append, planForest_cons, ih, planForest_cons]
    simp

/-! ## Horizontal order of the leaves -/

theorem cursor_zero : Cursor 0 := ⟨F32.zero_isFloat, F32.zero_le_zero⟩

theorem Cursor.add {c sd : F32} (hc : Cursor c) (hsd : 0 ≤ sd) : Cursor (c + sd) :=
  ⟨F32.add_isFloat c sd, F32.zero_le_add hc.2 hsd⟩

theorem Cursor.le_add {c sd : F32} (hc : Cursor c) (hsd : 0 ≤ sd) : c ≤ c + sd :=
  F32.le_add_right hc.1 hc.2 hsd

theorem Cursor.le_self {c : F32} (hc : Cursor c) : c ≤ c :=
  F32.le_refl_of_ne_nan (F32.ne_nan_of_le_right hc.2)

theorem forest_slots (W : String → F32) (K : String → List String) (sd : F32)
    (step : String → F32 → F32 × F32 × List Placed) (cs : List String) (hsd : 0 ≤ sd)
    (hstep : ∀ c ∈ cs, ∀ cx, Cursor cx → Cursor (step c cx).2.1 ∧ cx + sd ≤ (step c cx).2.1 ∧
      ∀ p ∈ (step c cx).2.2, K p.id = [] →
        Cursor p.x ∧ cx ≤ p.x ∧ p.x + sd ≤ (step c cx).2.1) :
    ∀ cx, Cursor cx → Cursor (planForest W step cs cx).2.1 ∧
      cx ≤ (planForest W step cs cx).2.1 ∧
      (cs ≠ [] → cx + sd ≤ (planForest W step cs cx).2.1) ∧
      ∀ p ∈ (planForest W step cs cx).2.2, K p.id = [] →
        Cursor p.x ∧ cx ≤ p.x ∧ p.x + sd ≤ (planForest W step cs cx).2.1 := by
  induction cs with
  | nil =>
    intro cx hcx
    refine ⟨hcx, hcx.le_self, fun h => absurd rfl h, ?_⟩
    intro p hp
    simp [planForest] at hp
  | cons c rest ih =>
    intro cx hcx
    obtain ⟨h1, h2, h3⟩ := hstep c (List.mem_cons_self _ _) cx hcx
    obtain ⟨h4, h5, -, h7⟩ :=
      ih (fun c hc => hstep c (List.mem_cons_of_mem _ hc)) (step c cx).2.1 h1
    have h8 : cx ≤ (step c cx).2.1 := F32.le_chain (hcx.le_add hsd) h2
    rw [planForest_cons]
    refine ⟨h4, F32.le_chain h8 h5, fun _ => F32.le_chain h2 h5, ?_⟩
    intro p hp hleaf
    rcases List.mem_append.1 hp with hp | hp
    · obtain ⟨a0, a, b⟩ := h3 p hp hleaf
      exact ⟨a0, a, F32.le_chain b h5⟩
    · obtain ⟨a0, a, b⟩ := h7 p hp hleaf
      exact ⟨a0, F32.le_chain h8 a, b⟩

theorem planSubtree_slots (W : String → F32) (K : String → List String) (sd : F32)
    (hsd : 0 ≤ sd) (f : Nat) :
    ∀ (id : String) (lvl : Nat), fits K f id → ∀ sx : F32, Cursor sx →
      Cursor (planSubtree W K sd f id lvl sx).2.1 ∧
      sx + sd ≤ (planSubtree W K sd f id lvl sx).2.1 ∧
      ∀ p ∈ (planSubtree W K sd f id lvl sx).2.2, K p.id = [] →
        Cursor p.x ∧ sx ≤ p.x ∧ p.x + sd ≤ (planSubtree W K sd f id lvl sx).2.1 := by
  induction f with
  | zero => intro id lvl h; simp [fits] at h
  | succ f ih =>
    intro id lvl hfit sx hsx
    have hfit1 : ∀ c ∈ K id, fits K f c := hfit
    cases hK : K id with
    | nil =>
      rw [planSubtree_nil W K sd f id lvl sx hK]
      have h1 := hsx.add hsd
      refine ⟨h1, h1.le_self, ?_⟩
      intro p hp _
      simp only [List.mem_singleton] at hp
      subst hp
      exact ⟨hsx, hsx.le_self, h1.le_self⟩
    | cons c cs =>
      have hstep : ∀ c1 ∈ c :: cs, ∀ cx, Cursor cx →
          Cursor (planSubtree W K sd f c1 (lvl + 1) cx).2.1 ∧
          cx + sd ≤ (planSubtree W K sd f c1 (lvl + 1) cx).2.1 ∧
          ∀ p ∈ (planSubtree W K sd f c1 (lvl + 1) cx).2.2, K p.id = [] →
            Cursor p.x ∧ cx ≤ p.x ∧ p.x + sd ≤ (planSubtree W K sd f c1 (lvl + 1) cx).2.1 := by
        intro c1 hc1 cx hcx
        rw [← hK] at hc1
        exact ih c1 (lvl + 1) (hfit1 c1 hc1) cx hcx
      obtain ⟨hF1, -, hF2, hF3⟩ := forest_slots W K sd
        (fun c cx => planSubtree W K sd f c (lvl + 1) cx) (c :: cs) hsd hstep sx hsx
      rw [planSubtree_cons W K sd f id lvl sx c cs hK]
      refine ⟨hF1, hF2 (List.cons_ne_nil _ _), ?_⟩
      intro p hp hleaf
      rcases List.mem_cons.1 hp with rfl | hp
      · rw [hK] at hleaf
        exact absurd hleaf (List.cons_ne_nil _ _)
      · exact hF3 p hp hleaf

theorem forest_before (W : String → F32) (K : String → List String) (sd : F32)
    (step : String → F32 → F32 × F32 × List Placed)
    (g : String → List String) (cs l1 l2 : List String) (a b : String) (hsd : 0 ≤ sd)
    (hstep : ∀ c ∈ cs, ∀ cx, Cursor cx → Cursor (step c cx).2.1 ∧ cx + sd ≤ (step c cx).2.1 ∧
      ∀ p ∈ (step c cx).2.2, K p.id = [] →
        Cursor p.x ∧ cx ≤ p.x ∧ p.x + sd ≤ (step c cx).2.1)
    (hids : ∀ c cx, (step c cx).2.2.map (fun p => p.id) = g c)
    (hcs : cs = l1 ++ a :: l2) (hb : b ∈ l2) (u v : String) (hu : u ∈ g a) (hv : v ∈ g b)
    (hul : K u = []) (hvl : K v = []) (cx : F32) (hcx : Cursor cx) :
    ∃ p q, p ∈ (planForest W step cs cx).2.2 ∧ q ∈ (planForest W step cs cx).2.2 ∧
      p.id = u ∧ q.id = v ∧ Cursor p.x ∧ p.x + sd ≤ q.x := by
  subst hcs
  have hc1 := (forest_slots W K sd step l1 hsd (fun c hc => hstep c (by simp [hc])) cx hcx).1
  rw [planForest_append, planForest_cons]
  simp only
  rw [← hids a (planForest W step l1 cx).2.1] at hu
  obtain ⟨p, hp, hpu⟩ := List.mem_map.1 hu
  obtain ⟨cxb, hsub⟩ := planForest_parts W step l2
    (step a (planForest W step l1 cx).2.1).2.1 b hb
  rw [← hids b cxb] at hv
  obtain ⟨q, hq, hqv⟩ := List.mem_map.1 hv
  have hq2 := hsub q hq
  obtain ⟨ha0, ha1, ha2⟩ := hstep a (by simp) (planForest W step l1 cx).2.1 hc1
  obtain ⟨hp0, -, hp2⟩ := ha2 p hp (by rw [hpu]; exact hul)
  have hl2 := (forest_slots W K sd step l2 hsd (fun c hc => hstep c (by simp [hc]))
    (step a (planForest W step l1 cx).2.1).2.1 ha0).2.2.2 q hq2 (by rw [hqv]; exact hvl)
  refine ⟨p, q, ?_, ?_, hpu, hqv, hp0, F32.le_chain hp2 hl2.2.1⟩
  · exact List.mem_append_right _ (List.mem_append_left _ hp)
  · exact List.mem_append_right _ (List.mem_append_right _ hq2)

theorem planForest_parts_cursor (W : String → F32)
    (step : String → F32 → F32 × F32 × List Placed) (cs : List String)
    (hstep : ∀ c ∈ cs, ∀ cx, Cursor cx → Cursor (step c cx).2.1) :
    ∀ (cx : F32), Cursor cx → ∀ c ∈ cs,
      ∃ cxc, Cursor cxc ∧ ∀ p ∈ (step c cxc).2.2, p ∈ (planForest W step cs cx).2.2 := by
  induction cs with
  | nil => intro cx _ c hc; simp at hc
  | cons a rest ih =>
    intro cx hcx c hc
    rcases List.mem_cons.1 hc with rfl | hc
    · exact ⟨cx, hcx, fun p hp => by simp only [planForest, List.mem_append]; exact Or.inl hp⟩
    · obtain ⟨cxc, h0, h⟩ := ih (fun c hc => hstep c (List.mem_cons_of_mem _ hc))
        (step a cx).2.1 (hstep a (List.mem_cons_self _ _) cx hcx) c hc
      exact ⟨cxc, h0,
        fun p hp => by simp only [planForest, List.mem_append]; exact Or.inr (h p hp)⟩

theorem children_forest_in_plan (W : String → F32) (K : String → List String) (sd : F32)
    (hsd : 0 ≤ sd) (f : Nat) :
    ∀ (r : String) (lvl0 : Nat) (sx : F32), Cursor sx → fits K f r → ∀ k ∈ subtreeIds K f r,
      ∃ g lvl cx, Cursor cx ∧ (∀ c ∈ K k, fits K g c) ∧
        ∀ p ∈ (planForest W (fun c cx => planSubtree W K sd g c lvl cx) (K k) cx).2.2,
          p ∈ (planSubtree W K sd f r lvl0 sx).2.2 := by
  induction f with
  | zero => intro r lvl0 sx _ h; simp [fits] at h
  | succ f ih =>
    intro r lvl0 sx hsx hfit k hk
    have hfit1 : ∀ c ∈ K r, fits K f c := hfit
    simp only [subtreeIds, List.mem_cons, List.mem_flatMap] at hk
    rcases hk with rfl | ⟨c, hc, hkc⟩
    · refine ⟨f, lvl0 + 1, sx, hsx, hfit1, ?_⟩
      cases hK : K k with
      | nil => intro p hp; simp [planForest] at hp
      | cons a rest =>
        intro p hp
        rw [planSubtree_cons W K sd f k lvl0 sx a rest hK]
        exact List.mem_cons_of_mem _ hp
    · obtain ⟨cxc, hcxc, hsub⟩ := planForest_parts_cursor W
        (fun c cx => planSubtree W K sd f c (lvl0 + 1) cx) (K r)
        (fun c hc cx hcx => (planSubtree_slots W K sd hsd f c (lvl0 + 1) (hfit1 c hc) cx hcx).1)
        sx hsx c hc
      obtain ⟨g, lvl, cx, hcx, hg, hin⟩ := ih c (lvl0 + 1) cxc hcxc (hfit1 c hc) k hkc
      refine ⟨g, lvl, cx, hcx, hg, ?_⟩
      intro p hp
      cases hK : K r with
      | nil => rw [hK] at hc; simp at hc
      | cons a rest =>
        rw [hK] at hsub
        rw [planSubtree_cons W K sd f r lvl0 sx a rest hK]
        exact List.mem_cons_of_mem _ (hsub p (hin p hp))

theorem rootIds_append (l1 l2 : List Node) : rootIds (l1 ++ l2) = rootIds l1 ++ rootIds l2 := by
  simp [rootIds]

theorem childIds_append (l1 l2 : List Node) (pid : String) :
    childIds (l1 ++ l2) pid = childIds l1 pid ++ childIds l2 pid := by
  unfold childIds
  by_cases h : pid = ""
  · simp [h]
  · simp [h]

theorem rootIds_cons_root (a : Node) (l : List Node) (h : a.parentId = "") :
    rootIds (a :: l) = a.id :: rootIds l := by
  simp [rootIds, List.filter_cons, h]

theorem childIds_cons_child (a : Node) (l : List Node) (pid : String) (hne : pid ≠ "")
    (h : a.parentId = pid) : childIds (a :: l) pid = a.id :: childIds l pid := by
  simp [childIds, hne, List.filter_cons, h]

theorem root_step_slots (nodes : List Node) (sd : F32) (hu : UniqueIds nodes) (hsd : 0 ≤ sd) :
    ∀ c ∈ rootIds nodes, ∀ cx, Cursor cx →
      Cursor (planSubtree (widthOf nodes) (childIds nodes) sd (nodes.length + 1) c 0 cx).2.1 ∧
      cx + sd ≤ (planSubtree (widthOf nodes) (childIds nodes) sd (nodes.length + 1) c 0 cx).2.1 ∧
      ∀ p ∈ (planSubtree (widthOf nodes) (childIds nodes) sd (nodes.length + 1) c 0 cx).2.2,
        childIds nodes p.id = [] → Cursor p.x ∧ cx ≤ p.x ∧ p.x + sd
          ≤ (planSubtree (widthOf nodes) (childIds nodes) sd (nodes.length + 1) c 0 cx).2.1 :=
  fun c hc cx hcx => planSubtree_slots (widthOf nodes) (childIds nodes) sd hsd _ c 0
    (layoutPlan_fits nodes hu c hc) cx hcx

theorem self_mem_subtree (K : String → List String) (f : Nat) (id : String)
    (h : fits K f id) : id ∈ subtreeIds K f id := by
  obtain ⟨g, rfl⟩ := fits_pos K f id h
  simp [subtreeIds]

theorem subtree_of_inSubtree (nodes : List Node) (f : Nat) (u r : String)
    (hfit : fits (childIds nodes) f r) (h : InSubtree nodes u r) :
    u ∈ subtreeIds (childIds nodes) f r := by
  induction h using Relation.ReflTransGen.head_induction_on with
  | refl => exact self_mem_subtree _ f r hfit
  | head hl _ ih =>
    obtain ⟨n, hn, hnu, hne, hnc⟩ := hl
    refine fits_closed (childIds nodes) f r _ _ hfit ih ?_
    rw [mem_childIds]
    exact ⟨hnc ▸ hne, n, hn, hnc, hnu⟩

theorem roots_before (nodes : List Node) (sd : F32) (hu : UniqueIds nodes) (hsd : 0 ≤ sd)
    (r1 r2 : Node) (h1 : r1.parentId = "")
    (h2 : r2.parentId = "") (hprec : Precedes nodes r1 r2) (u v : String)
    (hu1 : u ∈ subtreeIds (childIds nodes) (nodes.length + 1) r1.id)
    (hv2 : v ∈ subtreeIds (childIds nodes) (nodes.length + 1) r2.id)
    (hul : childIds nodes u = []) (hvl : childIds nodes v = []) :
    ∃ p q, p ∈ (layoutPlan nodes sd).2.2 ∧ q ∈ (layoutPlan nodes sd).2.2 ∧
      p.id = u ∧ q.id = v ∧ Cursor p.x ∧ p.x + sd ≤ q.x := by
  obtain ⟨l1, l2, l3, hl⟩ := hprec
  have hroots : rootIds nodes = rootIds l1 ++ r1.id :: (rootIds l2 ++ r2.id :: rootIds l3) := by
    rw [hl, rootIds_append, rootIds_cons_root r1 _ h1, rootIds_append,
      rootIds_cons_root r2 _ h2]
  exact forest_before (widthOf nodes) (childIds nodes) sd _
    (subtreeIds (childIds nodes) (nodes.length + 1))
    (rootIds nodes) _ _ r1.id r2.id hsd (root_step_slots nodes sd hu hsd)
    (fun c cx => planSubtree_ids _ _ sd _ c 0 cx) hroots (by simp) u v hu1 hv2 hul hvl 0
    cursor_zero

theorem siblings_before (nodes : List Node) (sd : F32) (hu : UniqueIds nodes)
    (hres : Resolves nodes) (hacyc : Acyclic nodes) (hsd : 0 ≤ sd) (a b : Node)
    (hpar : a.parentId = b.parentId) (hprec : Precedes nodes a b) (u v : String)
    (hu1 : InSubtree nodes u a.id) (hv1 : InSubtree nodes v b.id)
    (hul : childIds nodes u = []) (hvl : childIds nodes v = []) :
    ∃ p q, p ∈ (layoutPlan nodes sd).2.2 ∧ q ∈ (layoutPlan nodes sd).2.2 ∧
      p.id = u ∧ q.id = v ∧ Cursor p.x ∧ p.x + sd ≤ q.x := by
  have hab : a ∈ nodes ∧ b ∈ nodes := by
    obtain ⟨l1, l2, l3, rfl⟩ := hprec
    simp
  obtain ⟨han, hbn⟩ := hab
  have hok := parentsOK_of_resolves_acyclic nodes hres hacyc
  by_cases hroot : a.parentId = ""
  · have hb0 : b.parentId = "" := hpar ▸ hroot
    have hfa := layoutPlan_fits nodes hu a.id ((mem_rootIds nodes a.id).2 ⟨a, han, hroot, rfl⟩)
    have hfb := layoutPlan_fits nodes hu b.id ((mem_rootIds nodes b.id).2 ⟨b, hbn, hb0, rfl⟩)
    exact roots_before nodes sd hu hsd a b hroot hb0 hprec u v
      (subtree_of_inSubtree nodes _ u a.id hfa hu1) (subtree_of_inSubtree nodes _ v b.id hfb hv1)
      hul hvl
  · obtain ⟨P, hP, hPid⟩ := hres a han hroot
    obtain ⟨d, hd⟩ := hok P hP
    obtain ⟨r0, hr0, hkr⟩ := List.mem_flatMap.1 (covered nodes hu P.id d hd)
    obtain ⟨cxc, hcxc, hsub⟩ := planForest_parts_cursor (widthOf nodes)
      (fun c cx => planSubtree (widthOf nodes) (childIds nodes) sd (nodes.length + 1) c 0 cx)
      (rootIds nodes) (fun c hc cx hcx => (root_step_slots nodes sd hu hsd c hc cx hcx).1)
      0 cursor_zero r0 hr0
    obtain ⟨g, lvl, cx, hcx, hg, hin⟩ := children_forest_in_plan (widthOf nodes)
      (childIds nodes) sd hsd _ r0 0 cxc hcxc (layoutPlan_fits nodes hu r0 hr0) P.id hkr
    obtain ⟨l1, l2, l3, hl⟩ := hprec
    have hne : P.id ≠ "" := by rw [hPid]; exact hroot
    have hkids : childIds nodes P.id
        = childIds l1 P.id ++ a.id :: (childIds l2 P.id ++ b.id :: childIds l3 P.id) := by
      rw [hl, childIds_append, childIds_cons_child a _ P.id hne hPid.symm, childIds_append,
        childIds_cons_child b _ P.id hne (hpar ▸ hPid.symm)]
    have hamem : a.id ∈ childIds nodes P.id := by rw [hkids]; simp
    have hbmem : b.id ∈ childIds nodes P.id := by rw [hkids]; simp
    obtain ⟨p, q, hp, hq, hpa, hqb, hp0, hpq⟩ := forest_before (widthOf nodes)
      (childIds nodes) sd
      (fun c cx => planSubtree (widthOf nodes) (childIds nodes) sd g c lvl cx)
      (subtreeIds (childIds nodes) g) (childIds nodes P.id) _ _ a.id b.id hsd
      (fun c hc cx hcx => planSubtree_slots (widthOf nodes) (childIds nodes) sd hsd g c lvl
        (hg c hc) cx hcx)
      (fun c cx => planSubtree_ids _ _ sd g c lvl cx) hkids (by simp)
      u v (subtree_of_inSubtree nodes _ u a.id (hg a.id hamem) hu1)
      (subtree_of_inSubtree nodes _ v b.id (hg b.id hbmem) hv1) hul hvl cx hcx
    exact ⟨p, q, hsub p (hin p hp), hsub q (hin q hq), hpa, hqb, hp0, hpq⟩

theorem precedes_mem (nodes : List Node) (a b : Node) (h : Precedes nodes a b) :
    a ∈ nodes ∧ b ∈ nodes := by
  obtain ⟨l1, l2, l3, rfl⟩ := h
  simp

theorem wideRoots_unique : UniqueIds wideRoots := by
  unfold UniqueIds wideRoots
  decide

theorem snugRoots_unique : UniqueIds snugRoots := by
  unfold UniqueIds snugRoots
  decide

/-- C16, counterexample: two roots of width `100` laid out with
`siblingDistance = 30` overlap: the first is placed at `x = 0` and reaches to
`100`, the second is placed at `x = 30`.  Widths below the distance do not help
either: of two roots of width `0.7` laid out with `siblingDistance = 0.7`, the
first reaches to `0.7 = 11744051 / 16777216` and the second, centred over its
only child, is placed at `x = 11744050 / 16777216`.  In both inputs the ids are
unique, the parent references resolve and are acyclic, no width is negative and
each root is in its own subtree. -/
theorem wide_roots_counterexample :
    UniqueIds wideRoots ∧ Resolves wideRoots ∧ Acyclic wideRoots ∧
    (∀ n ∈ wideRoots, n.parentId = "" ∧ 0 ≤ n.width) ∧
    (0 : F32) < 30 ∧
    Precedes wideRoots ⟨"a", "", "", 0, 0, 100, 10, 0⟩ ⟨"b", "", "", 0, 0, 100, 10, 0⟩ ∧
    InSubtree wideRoots "a" "a" ∧ InSubtree wideRoots "b" "b" ∧
    (calculateLayout wideRoots 100 30).map
      (fun r => r.nodes.map (fun m => (m.id, m.x, m.width)))
      = some [("a", 0, 100), ("b", 30, 100)] ∧
    ¬ ((0 : F32) + 100 ≤ 30) ∧
    UniqueIds snugRoots ∧ Resolves snugRoots ∧ Acyclic snugRoots ∧
    (∀ n ∈ snugRoots, 0 ≤ n.width ∧ n.width ≤ F32.dec 7 10 ∧ F32.IsFloat n.width) ∧
    (0 : F32) < F32.dec 7 10 ∧
    Precedes snugRoots ⟨"r1", "", "", 0, 0, F32.dec 7 10, 1, 0⟩
      ⟨"r2", "", "", 0, 0, F32.dec 7 10, 1, 0⟩ ∧
    InSubtree snugRoots "r1" "r1" ∧ InSubtree snugRoots "r2" "r2" ∧
    (calculateLayout snugRoots 1 (F32.dec 7 10)).map
      (fun r => r.nodes.map (fun m => (m.id, m.x, m.width)))
      = some [("r1", 0, F32.dec 7 10), ("r2", F32.fin (11744050 / 16777216), F32.dec 7 10),
          ("c", F32.dec 7 10, F32.dec 7 10)] ∧
    F32.dec 7 10 = F32.fin (11744051 / 16777216) ∧
    ¬ ((0 : F32) + F32.dec 7 10 ≤ F32.fin (11744050 / 16777216)) ∧
    ¬ ((0 : ℚ) + 11744051 / 16777216 ≤ 11744050 / 16777216) := by
  refine ⟨wideRoots_unique,
    (resolves_acyclic_of_parentsOK wideRoots wideRoots_unique
      (parentsOK_of_dfs wideRoots (by decide))).1,
    (resolves_acyclic_of_parentsOK wideRoots wideRoots_unique
      (parentsOK_of_dfs wideRoots (by decide))).2,
    by decide!, by decide!, ⟨[], [], [], rfl⟩, Relation.ReflTransGen.refl,
    Relation.ReflTransGen.refl, by decide!, by decide!, snugRoots_unique,
    (resolves_acyclic_of_parentsOK snugRoots snugRoots_unique
      (parentsOK_of_dfs snugRoots (by decide))).1,
    (resolves_acyclic_of_parentsOK snugRoots snugRoots_unique
      (parentsOK_of_dfs snugRoots (by decide))).2,
    by decide!, by decide!, ⟨[], [], [⟨"c", "r2", "", 0, 0, F32.dec 7 10, 1, 0⟩], rfl⟩,
    Relation.ReflTransGen.refl, Relation.ReflTransGen.refl, by decide!, by decide!, by decide!,
    by norm_num⟩

/-- C16, amended: with unique ids and `siblingDistance > 0`, the trees of two
distinct roots occupy separate stretches of the cursor: when the root `r1`
stands before the root `r2` in the input, every leaf `u` of the subtree of `r1`
and every leaf `v` of the subtree of `r2` (a leaf is a node without children)
are placed with `u.x + siblingDistance ≤ v.x`, and with `u.x + u.width ≤ v.x` when
`0 ≤ u.width ≤ siblingDistance`; the sums are `float` sums.  Nothing is said
about the nodes that have children: they are centred over their children,
whatever their width. -/
theorem root_trees_do_not_overlap (nodes : List Node) (lh sd : F32) (hu : UniqueIds nodes)
    (hsd : 0 < sd)
    (r1 r2 : Node) (h1 : r1.parentId = "") (h2 : r2.parentId = "")
    (hprec : Precedes nodes r1 r2) (u v : Node) (hun : u ∈ nodes) (hvn : v ∈ nodes)
    (hu1 : InSubtree nodes u.id r1.id) (hv2 : InSubtree nodes v.id r2.id)
    (hul : childIds nodes u.id = []) (hvl : childIds nodes v.id = []) :
    ∃ r, calculateLayout nodes lh sd = some r ∧
      (∃ U ∈ r.nodes, U.id = u.id) ∧ (∃ V ∈ r.nodes, V.id = v.id) ∧
      ∀ U ∈ r.nodes, ∀ V ∈ r.nodes, U.id = u.id → V.id = v.id →
        U.x + sd ≤ V.x ∧ (0 ≤ u.width → u.width ≤ sd → U.x + U.width ≤ V.x) := by
  have hrun := calculateLayout_eq nodes lh sd hu
  obtain ⟨hr1, hr2⟩ := precedes_mem nodes r1 r2 hprec
  have hf1 := layoutPlan_fits nodes hu r1.id ((mem_rootIds nodes r1.id).2 ⟨r1, hr1, h1, rfl⟩)
  have hf2 := layoutPlan_fits nodes hu r2.id ((mem_rootIds nodes r2.id).2 ⟨r2, hr2, h2, rfl⟩)
  obtain ⟨p, q, hp, hq, hpu, hqv, hp0, hpq⟩ := roots_before nodes sd hu (F32.lt_le hsd) r1 r2
    h1 h2 hprec u.id v.id (subtree_of_inSubtree nodes _ u.id r1.id hf1 hu1)
    (subtree_of_inSubtree nodes _ v.id r2.id hf2 hv2) hul hvl
  refine ⟨_, hrun, final_exists nodes lh _ u.id (List.mem_map.2 ⟨u, hun, rfl⟩),
    final_exists nodes lh _ v.id (List.mem_map.2 ⟨v, hvn, rfl⟩), ?_⟩
  intro U hU V hV hUid hVid
  obtain ⟨hx, -, hwU⟩ := final_node nodes lh sd hu U hU p hp (hpu.trans hUid.symm)
  obtain ⟨hxV, -, -⟩ := final_node nodes lh sd hu V hV q hq (hqv.trans hVid.symm)
  rw [hx, hxV, hwU, hUid, widthOf_node nodes hu u hun]
  refine ⟨hpq, fun hw0 hw1 => ?_⟩
  exact F32.le_chain (F32.add_mono hp0.le_self hw1
    (F32.ne_nan_of_le_right (F32.zero_le_add hp0.2 hw0)) (F32.ne_nan_of_le_left hpq)) hpq

theorem twoTrees_unique : UniqueIds twoTrees := by
  unfold UniqueIds twoTrees
  decide

theorem twoTrees_parentsOK : ParentsOK twoTrees :=
  parentsOK_of_dfs twoTrees (by decide)

theorem twoTrees_resolves : Resolves twoTrees :=
  (resolves_acyclic_of_parentsOK twoTrees twoTrees_unique twoTrees_parentsOK).1

theorem twoTrees_acyclic : Acyclic twoTrees :=
  (resolves_acyclic_of_parentsOK twoTrees twoTrees_unique twoTrees_parentsOK).2

theorem root_trees_do_not_overlap_witness :
    ∃ r, calculateLayout twoTrees 100 30 = some r ∧
      (∃ U ∈ r.nodes, U.id = "c") ∧ (∃ V ∈ r.nodes, V.id = "s") ∧
      ∀ U ∈ r.nodes, ∀ V ∈ r.nodes, U.id = "c" → V.id = "s" →
        U.x + 30 ≤ V.x ∧ ((0 : F32) ≤ 20 → (20 : F32) ≤ 30 → U.x + U.width ≤ V.x) :=
  root_trees_do_not_overlap twoTrees 100 30 twoTrees_unique (by decide!)
    ⟨"r", "", "", 5, 5, 20, 10, 0⟩ ⟨"s", "", "", 5, 5, 20, 10, 0⟩ rfl rfl
    ⟨[], [⟨"c", "r", "", 5, 5, 20, 10, 0⟩], [], rfl⟩
    ⟨"c", "r", "", 5, 5, 20, 10, 0⟩ ⟨"s", "", "", 5, 5, 20, 10, 0⟩
    (by simp [twoTrees]) (by simp [twoTrees])
    (Relation.ReflTransGen.single
      ⟨⟨"c", "r", "", 5, 5, 20, 10, 0⟩, by simp [twoTrees], rfl, by decide, rfl⟩)
    Relation.ReflTransGen.refl (by decide) (by decide)

theorem hugeBoxes_unique : UniqueIds hugeBoxes := by
  unfold UniqueIds hugeBoxes
  decide

/-- C17, counterexample: the roots `a` and `b`, each with one child, all of width
`2 ^ 25`, laid out with `siblingDistance = 0.5`.  The ids are unique, the parent
references resolve and are acyclic, all widths are equal and `a` stands before
`b`, but both roots are placed at `x = 0`: the centre `0.5 + 2 ^ 24` of the child
of `b` rounds to `2 ^ 24`. -/
theorem equal_positions_counterexample :
    UniqueIds hugeBoxes ∧ Resolves hugeBoxes ∧ Acyclic hugeBoxes ∧
    (0 : F32) < F32.dec 1 2 ∧ (∀ n ∈ hugeBoxes, n.width = 33554432) ∧
    F32.IsFloat (33554432 : F32) ∧ F32.IsFloat (F32.dec 1 2) ∧
    Precedes hugeBoxes ⟨"a", "", "", 0, 0, 33554432, 1, 0⟩ ⟨"b", "", "", 0, 0, 33554432, 1, 0⟩ ∧
    (calculateLayout hugeBoxes 1 (F32.dec 1 2)).map
      (fun r => r.nodes.map (fun m => (m.id, m.x)))
      = some [("a", 0), ("a1", 0), ("b", 0), ("b1", F32.dec 1 2)] ∧
    ¬ ((0 : F32) < 0) := by
  refine ⟨hugeBoxes_unique,
    (resolves_acyclic_of_parentsOK hugeBoxes hugeBoxes_unique
      (parentsOK_of_dfs hugeBoxes (by decide))).1,
    (resolves_acyclic_of_parentsOK hugeBoxes hugeBoxes_unique
      (parentsOK_of_dfs hugeBoxes (by decide))).2,
    by decide!, by decide!, by decide!, by decide!,
    ⟨[], [⟨"a1", "a", "", 0, 0, 33554432, 1, 0⟩], [⟨"b1", "b", "", 0, 0, 33554432, 1, 0⟩], rfl⟩,
    by decide!, by decide!⟩

/-- C17, amended: with unique ids, parent references that all resolve and are
acyclic and `siblingDistance > 0`, siblings are laid out from left to right in
input order, whatever their ids are: when `a` and `b` have the same `parentId`
(two roots included) and `a` stands before `b` in the input, every leaf `u` of
the subtree of `a` and every leaf `v` of the subtree of `b` end up with
`u.x + siblingDistance ≤ v.x` (a `float` sum), hence `u.x ≤ v.x`, and
`u.x < v.x` unless `u.x + siblingDistance` rounds to `u.x`.  In particular this
holds for `a` and `b` themselves when they have no children. -/
theorem siblings_left_to_right (nodes : List Node) (lh sd : F32) (hu : UniqueIds nodes)
    (hres : Resolves nodes) (hacyc : Acyclic nodes) (hsd : 0 < sd)
    (a b : Node) (hpar : a.parentId = b.parentId) (hprec : Precedes nodes a b)
    (u v : Node) (hun : u ∈ nodes) (hvn : v ∈ nodes)
    (hu1 : InSubtree nodes u.id a.id) (hv1 : InSubtree nodes v.id b.id)
    (hul : childIds nodes u.id = []) (hvl : childIds nodes v.id = []) :
    ∃ r, calculateLayout nodes lh sd = some r ∧
      (∃ U ∈ r.nodes, U.id = u.id) ∧ (∃ V ∈ r.nodes, V.id = v.id) ∧
      ∀ U ∈ r.nodes, ∀ V ∈ r.nodes, U.id = u.id → V.id = v.id →
        U.x + sd ≤ V.x ∧ U.x ≤ V.x ∧ (U.x + sd ≠ U.x → U.x < V.x) := by
  have hrun := calculateLayout_eq nodes lh sd hu
  obtain ⟨p, q, hp, hq, hpu, hqv, hp0, hpq⟩ := siblings_before nodes sd hu hres hacyc
    (F32.lt_le hsd) a b hpar hprec u.id v.id hu1 hv1 hul hvl
  refine ⟨_, hrun, final_exists nodes lh _ u.id (List.mem_map.2 ⟨u, hun, rfl⟩),
    final_exists nodes lh _ v.id (List.mem_map.2 ⟨v, hvn, rfl⟩), ?_⟩
  intro U hU V hV hUid hVid
  obtain ⟨hx, -, -⟩ := final_node nodes lh sd hu U hU p hp (hpu.trans hUid.symm)
  obtain ⟨hxV, -, -⟩ := final_node nodes lh sd hu V hV q hq (hqv.trans hVid.symm)
  rw [hx, hxV]
  have hle := hp0.le_add (F32.lt_le hsd)
  refine ⟨hpq, F32.le_chain hle hpq, fun hne => ?_⟩
  exact F32.lt_le_chain (F32.lt_of_le_ne hle (fun e => hne e.symm)) hpq

theorem siblings_left_to_right_witness :
    ∃ r, calculateLayout twoTrees 100 30 = some r ∧
      (∃ U ∈ r.nodes, U.id = "c") ∧ (∃ V ∈ r.nodes, V.id = "s") ∧
      ∀ U ∈ r.nodes, ∀ V ∈ r.nodes, U.id = "c" → V.id = "s" →
        U.x + 30 ≤ V.x ∧ U.x ≤ V.x ∧ (U.x + 30 ≠ U.x → U.x < V.x) :=
  siblings_left_to_right twoTrees 100 30 twoTrees_unique twoTrees_resolves twoTrees_acyclic
    (by decide!) ⟨"r", "", "", 5, 5, 20, 10, 0⟩ ⟨"s", "", "", 5, 5, 20, 10, 0⟩ rfl
    ⟨[], [⟨"c", "r", "", 5, 5, 20, 10, 0⟩], [], rfl⟩
    ⟨"c", "r", "", 5, 5, 20, 10, 0⟩ ⟨"s", "", "", 5, 5, 20, 10, 0⟩
    (by simp [twoTrees]) (by simp [twoTrees])
    (Relation.ReflTransGen.single
      ⟨⟨"c", "r", "", 5, 5, 20, 10, 0⟩, by simp [twoTrees], rfl, by decide, rfl⟩)
    Relation.ReflTransGen.refl (by decide) (by decide)

theorem childrenLoopLog_eq
    (stepLog : String → F32 → NodeIndex → Option ((F32 × F32 × NodeIndex) × List (String × Nat)))
    (step : String → F32 → NodeIndex → Option (F32 × F32 × NodeIndex))
    (g : String → List (String × Nat))
    (hstep : ∀ c cx idx, stepLog c cx idx = (step c cx idx).map (fun r => (r, g c))) :
    ∀ (cs : List String) (cx my : F32) (idx : NodeIndex) (cen : List F32)
      (log : List (String × Nat)),
      childrenLoopLog stepLog cs cx my idx cen log
        = (childrenLoop step cs cx my idx cen).map (fun r => (r, log ++ cs.flatMap g)) := by
  intro cs
  induction cs with
  | nil => intro cx my idx cen log; simp [childrenLoopLog, childrenLoop]
  | cons c rest ih =>
    intro cx my idx cen log
    simp only [childrenLoopLog, childrenLoop, hstep]
    cases h : step c cx idx with
    | none => rfl
    | some r =>
      simp only [Option.map_some']
      rw [ih]
      simp [List.append_assoc]

theorem rootsLoopLog_eq
    (stepLog : String → F32 → NodeIndex → Option ((F32 × F32 × NodeIndex) × List (String × Nat)))
    (step : String → F32 → NodeIndex → Option (F32 × F32 × NodeIndex))
    (g : String → List (String × Nat))
    (hstep : ∀ c cx idx, stepLog c cx idx = (step c cx idx).map (fun r => (r, g c))) :
    ∀ (cs : List String) (cx my : F32) (idx : NodeIndex) (log : List (String × Nat)),
      rootsLoopLog stepLog cs cx my idx log
        = (rootsLoop step cs cx my idx).map (fun r => (r, log ++ cs.flatMap g)) := by
  intro cs
  induction cs with
  | nil => intro cx my idx log; simp [rootsLoopLog, rootsLoop]
  | cons c rest ih =>
    intro cx my idx log
    simp only [rootsLoopLog, rootsLoop, hstep]
    cases h : step c cx idx with
    | none => rfl
    | some r =>
      simp only [Option.map_some']
      rw [ih]
      simp [List.append_assoc]

theorem layoutSubtreeLog_eq (lh sd : F32) (cm : ChildrenMap) (f : Nat) :
    ∀ (id : String) (lvl : Nat) (sx : F32) (idx : NodeIndex),
      layoutSubtreeLog lh sd cm f id lvl sx idx
        = (layoutSubtree lh sd cm f id lvl sx idx).map
            (fun r => (r, levels (kids cm) f id lvl)) := by
  induction f with
  | zero => intro id lvl sx idx; rfl
  | succ f ih =>
    intro id lvl sx idx
    rw [levels_succ]
    unfold kids
    cases hf : cm.find? id with
    | none => simp [layoutSubtreeLog, layoutSubtree, hf]
    | some l =>
      cases l with
      | nil => simp [layoutSubtreeLog, layoutSubtree, hf]
      | cons c cs =>
        simp only [layoutSubtreeLog, layoutSubtree, hf, Option.getD_some]
        rw [childrenLoopLog_eq _
          (fun childId cx idx => layoutSubtree lh sd cm f childId (lvl + 1) cx idx)
          (fun c => levels (kids cm) f c (lvl + 1)) (fun c cx idx => ih c (lvl + 1) cx idx)]
        cases childrenLoop
            (fun childId cx idx => layoutSubtree lh sd cm f childId (lvl + 1) cx idx)
            (c :: cs) sx
            ((StrMap.upsert idx id (fun n => { n with y := (lvl : F32) * lh })).get id).y
            (StrMap.upsert idx id (fun n => { n with y := (lvl : F32) * lh })) [] with
        | none => rfl
        | some r => rfl

theorem calculateLayoutLog_eq (nodes : List Node) (lh sd : F32) :
    calculateLayoutLog nodes lh sd
      = (calculateLayout nodes lh sd).map (fun r =>
          (r, (rootNodeIds nodes).flatMap
            (fun c => levels (kids (buildMaps nodes).2) (nodes.length + 1) c 0))) := by
  unfold calculateLayoutLog calculateLayout calculateLayoutFuel
  simp only
  rw [rootsLoopLog_eq _
    (fun rootId cx idx => layoutSubtree lh sd (buildMaps nodes).2 (nodes.length + 1) rootId 0
      cx idx)
    (fun c => levels (kids (buildMaps nodes).2) (nodes.length + 1) c 0)
    (fun c cx idx => layoutSubtreeLog_eq lh sd (buildMaps nodes).2 _ c 0 cx idx)]
  cases rootsLoop
      (fun rootId cx idx => layoutSubtree lh sd (buildMaps nodes).2 (nodes.length + 1) rootId 0
        cx idx)
      (rootNodeIds nodes) 0 0 (buildMaps nodes).1 with
  | none => rfl
  | some r => rfl

theorem depth_lt_length (nodes : List Node) (hu : UniqueIds nodes) (id : String) (d : Nat)
    (h : AtDepth nodes id d) : d + 1 ≤ nodes.length := by
  have key : ∃ chain : List String, chain.length = d + 1 ∧ chain.Nodup ∧
      ∀ c ∈ chain, c ∈ nodes.map (fun n => n.id) ∧ ∃ e, e ≤ d ∧ AtDepth nodes c e := by
    induction h with
    | root n hn hp =>
      exact ⟨[n.id], rfl, List.nodup_singleton _, fun c hc => by
        rw [List.mem_singleton.1 hc]
        exact ⟨List.mem_map.2 ⟨n, hn, rfl⟩, 0, le_refl _, AtDepth.root n hn hp⟩⟩
    | child n d hn hp hr ih =>
      obtain ⟨chain, hlen, hnd, hall⟩ := ih
      refine ⟨n.id :: chain, by simp [hlen], List.nodup_cons.2 ⟨?_, hnd⟩, ?_⟩
      · intro hmem
        obtain ⟨-, e, he, hde⟩ := hall n.id hmem
        have := AtDepth.unique nodes hu n.id _ _ hde (AtDepth.child n d hn hp hr)
        omega
      · intro c hc
        rcases List.mem_cons.1 hc with rfl | hc
        · exact ⟨List.mem_map.2 ⟨n, hn, rfl⟩, d + 1, le_refl _, AtDepth.child n d hn hp hr⟩
        · obtain ⟨h1, e, he, hde⟩ := hall c hc
          exact ⟨h1, e, by omega, hde⟩
  obtain ⟨chain, hlen, hnd, hall⟩ := key
  have := List.Subperm.length_le (List.Nodup.subperm hnd (fun c hc => (hall c hc).1))
  rw [List.length_map] at this
  omega

theorem not_fits_length_succ (K : String → List String) (f : Nat) :
    ∀ c, ¬ fits K f c → f + 1 ≤ (subtreeIds K (f + 1) c).length := by
  induction f with
  | zero => intro c _; simp [subtreeIds]
  | succ f ih =>
    intro c h
    simp only [fits, not_forall] at h
    obtain ⟨k, hk, hnk⟩ := h
    have h1 := ih k hnk
    have h2 := length_le_flatMap (subtreeIds K (f + 1)) (K c) k hk
    have h3 : (subtreeIds K (f + 1 + 1) c).length
        = ((K c).flatMap (subtreeIds K (f + 1))).length + 1 := by
      simp [subtreeIds]
    omega

theorem fits_length (nodes : List Node) (hu : UniqueIds nodes) (c : String) (l : Nat)
    (hc : AtDepth nodes c l) : fits (childIds nodes) nodes.length c := by
  by_contra h
  have h1 := not_fits_length_succ (childIds nodes) nodes.length c h
  have h2 : (subtreeIds (childIds nodes) (nodes.length + 1) c).length
      ≤ (nodes.map (fun n => n.id)).length :=
    List.Subperm.length_le (List.Nodup.subperm (subtree_nodup nodes hu _ c l hc)
      (fun e he => subtree_subset nodes _ c e (AtDepth.mem_ids nodes c l hc) he))
  rw [List.length_map] at h2
  omega

theorem calculateLayoutFuel_some (nodes : List Node) (lh sd : F32) (hu : UniqueIds nodes)
    (f : Nat) (hfit : ∀ r ∈ rootIds nodes, fits (childIds nodes) f r) :
    ∃ r, calculateLayoutFuel f nodes lh sd = some r := by
  have hK : kids (buildMaps nodes).2 = childIds nodes := funext (kids_buildMaps nodes)
  have hkeys : StrMap.keys (nodes.map (fun n => (n.id, n))) = nodes.map (fun n => n.id) := by
    simp [StrMap.keys]
  have := rootsLoop_spec (widthOf nodes) lh sd (buildMaps nodes).2 f 0
    (rootIds nodes) 0 0 (nodes.map (fun n => (n.id, n)))
    (by rw [hK]; exact hfit)
    (by
      intro k hk
      rw [hK] at hk
      rw [hkeys]
      exact forest_all_subset nodes _ k hk)
    (by
      rw [hK]
      exact forest_all_nodup nodes hu _)
    (widthsOK_input nodes)
  obtain ⟨idx1, hrun, -⟩ := this
  unfold calculateLayoutFuel
  simp only [rootNodeIds_eq, buildMaps_index nodes hu]
  rw [hrun]
  exact ⟨_, rfl⟩

theorem not_on_cycle (nodes : List Node) (hu : UniqueIds nodes) (id : String) (d : Nat)
    (h : AtDepth nodes id d) : ¬ Relation.TransGen (ParentLink nodes) id id := by
  intro hc
  obtain ⟨e, he, hd1⟩ := ancestor_depth nodes hu id id hc d h
  have := AtDepth.unique nodes hu id d e h hd1
  omega

/-- C19: with unique ids `calculateLayout` terminates, also when parent
references form cycles, point at the node itself or dangle.  `layoutSubtree`
is called on no node twice, every call is on a node whose chain of parent links
ends at a root, at a level below the number of input nodes (so the calls never
nest deeper than that number, and that recursion bound already gives the
result), and no node on a parent cycle is ever visited. -/
theorem layout_terminates (nodes : List Node) (lh sd : F32) (hu : UniqueIds nodes) :
    ∃ r calls, calculateLayoutLog nodes lh sd = some (r, calls) ∧
      calculateLayout nodes lh sd = some r ∧
      (∀ f, nodes.length ≤ f → calculateLayoutFuel f nodes lh sd = some r) ∧
      (calls.map Prod.fst).Nodup ∧
      ∀ c ∈ calls, AtDepth nodes c.1 c.2 ∧ c.2 + 1 ≤ nodes.length ∧
        ¬ Relation.TransGen (ParentLink nodes) c.1 c.1 := by
  have hrun := calculateLayout_eq nodes lh sd hu
  have hK : kids (buildMaps nodes).2 = childIds nodes := funext (kids_buildMaps nodes)
  have hlog := calculateLayoutLog_eq nodes lh sd
  rw [hrun, hK, rootNodeIds_eq, ← layoutPlan_levels nodes sd] at hlog
  refine ⟨_, _, hlog, hrun, ?_, ?_, ?_⟩
  · intro f hf
    obtain ⟨r1, hr1⟩ := calculateLayoutFuel_some nodes lh sd hu nodes.length
      (fun r hr => fits_length nodes hu r 0 (AtDepth.of_root nodes r hr))
    have h1 := calculateLayoutFuel_mono _ _ (Nat.le_succ nodes.length) nodes lh sd r1 hr1
    have h2 : calculateLayoutFuel (nodes.length + 1) nodes lh sd = _ := hrun
    rw [h2] at h1
    rw [← Option.some.inj h1] at hr1
    exact calculateLayoutFuel_mono _ f hf nodes lh sd _ hr1
  · rw [List.map_map]
    exact layoutPlan_nodup nodes sd hu
  · intro c hc
    obtain ⟨p, hp, rfl⟩ := List.mem_map.1 hc
    have hd := layoutPlan_level nodes sd p hp
    exact ⟨hd, depth_lt_length nodes hu p.id p.level hd, not_on_cycle nodes hu p.id p.level hd⟩

theorem layout_terminates_witness :
    ∃ r calls, calculateLayoutLog tangled 100 30 = some (r, calls) ∧
      calculateLayout tangled 100 30 = some r ∧
      (∀ f, tangled.length ≤ f → calculateLayoutFuel f tangled 100 30 = some r) ∧
      (calls.map Prod.fst).Nodup ∧
      ∀ c ∈ calls, AtDepth tangled c.1 c.2 ∧ c.2 + 1 ≤ tangled.length ∧
        ¬ Relation.TransGen (ParentLink tangled) c.1 c.1 :=
  layout_terminates tangled 100 30 (by unfold UniqueIds tangled; decide)

end TreeLayout

/-! # Viewport culling: verification -/

namespace VisibilityCalculator

theorem visible_fold (area : VisibleArea) (elements : List Rect) (acc : List String) :
    elements.foldl
      (fun (visibleIds : List String) element =>
        if isVisible element area then visibleIds ++ [element.id] else visibleIds)
      acc
    = acc ++ (elements.filter (fun e => isVisible e area)).map (fun e => e.id) := by
  induction elements generalizing acc with
  | nil => simp
  | cons e rest ih =>
    simp only [List.foldl_cons]
    rw [ih]
    by_cases h : isVisible e area = true
    · simp [h, List.filter_cons]
    · simp [h, List.filter_cons]

theorem isVisible_iff (rect : Rect) (area : VisibleArea) :
    isVisible rect area = true ↔
      ¬ (rect.x > area.right + area.buffer) ∧
      ¬ (rect.x + rect.width < area.left - area.buffer) ∧
      ¬ (rect.y > area.bottom + area.buffer) ∧
      ¬ (rect.y + rect.height < area.top - area.buffer) := by
  simp [isVisible, and_assoc]

/-- C11: `calculateVisibleElements` returns exactly the ids of the elements for
which none of the four separating conditions holds, in input order and with
repetitions kept; the sums, differences and comparisons are those of `float`.
The empty list gives the empty list, and in the area from `(0, 0)` to
`(100, 100)` without margin the rectangle at `(150, 0)` of size `10 x 10` is
left out while the one at `(95, 95)` is kept.  Since the conditions compare
rounded values, the element at `x = 0.1` of width `0.2` is kept in the area with
left edge `0.6` and margin `0.3`. -/
theorem visible_elements (elements : List Rect) (area : VisibleArea) :
    calculateVisibleElements elements area
      = (elements.filter (fun e =>
          ¬ (e.x > area.right + area.buffer) ∧
          ¬ (e.x + e.width < area.left - area.buffer) ∧
          ¬ (e.y > area.bottom + area.buffer) ∧
          ¬ (e.y + e.height < area.top - area.buffer))).map (fun e => e.id) ∧
    calculateVisibleElements [] area = [] ∧
    (∀ id, calculateVisibleElements [⟨id, 150, 0, 10, 10⟩] sampleArea = []) ∧
    (∀ id, calculateVisibleElements [⟨id, 95, 95, 10, 10⟩] sampleArea = [id]) ∧
    calculateVisibleElements [tenthsRect] tenthsArea = ["e"] := by
  have hmain : ∀ els : List Rect, calculateVisibleElements els area
      = (els.filter (fun e =>
          ¬ (e.x > area.right + area.buffer) ∧
          ¬ (e.x + e.width < area.left - area.buffer) ∧
          ¬ (e.y > area.bottom + area.buffer) ∧
          ¬ (e.y + e.height < area.top - area.buffer))).map (fun e => e.id) := by
    intro els
    unfold calculateVisibleElements
    rw [visible_fold, List.nil_append]
    congr 1
    apply List.filter_congr
    intro e _
    rw [Bool.eq_iff_iff, isVisible_iff]
    simp
  have h1 : ∀ id, isVisible ⟨id, 150, 0, 10, 10⟩ sampleArea = false := by
    intro id
    have h : ((150 : F32) > sampleArea.right + sampleArea.buffer) := by decide!
    simp [isVisible, h]
  have h2 : ∀ id, isVisible ⟨id, 95, 95, 10, 10⟩ sampleArea = true := by
    intro id
    have a1 : ¬ ((95 : F32) > sampleArea.right + sampleArea.buffer) := by decide!
    have a2 : ¬ ((95 : F32) + 10 < sampleArea.left - sampleArea.buffer) := by decide!
    have a3 : ¬ ((95 : F32) > sampleArea.bottom + sampleArea.buffer) := by decide!
    have a4 : ¬ ((95 : F32) + 10 < sampleArea.top - sampleArea.buffer) := by decide!
    rw [isVisible_iff]
    exact ⟨a1, a2, a3, a4⟩
  refine ⟨hmain elements, rfl, ?_, ?_, by decide!⟩
  · intro id
    unfold calculateVisibleElements
    rw [visible_fold]
    simp [h1 id, List.filter_cons]
  · intro id
    unfold calculateVisibleElements
    rw [visible_fold]
    simp [h2 id, List.filter_cons]

/-- C12, counterexample: the element at `x = 0.1`, `y = 0` of width `0.2` and
height `1` and the area with left edge `0.6`, top `0`, right `1`, bottom `1` and
margin `0.3`.  The sizes are not negative and the expanded box is not empty, in
`float` arithmetic and exactly; `isVisible` answers `true`, because the `float`
sum `0.1 + 0.2` and the `float` difference `0.6 - 0.3` are both
`10066330 / 33554432`; but the right edge of the element, `0.1 + 0.2` taken
exactly, lies left of `0.6 - 0.3` taken exactly, so the two closed boxes have no
point in common.  Also, the element at `x = NaN`, `y = 0` of size `1 x 1` is
visible in the area from `(0, 0)` to `(100, 100)`, though no number lies in its
box. -/
theorem rounded_boxes_counterexample :
    0 ≤ tenthsRect.width ∧ 0 ≤ tenthsRect.height ∧
    tenthsArea.left - tenthsArea.buffer ≤ tenthsArea.right + tenthsArea.buffer ∧
    tenthsArea.top - tenthsArea.buffer ≤ tenthsArea.bottom + tenthsArea.buffer ∧
    tenthsArea.left.toRat - tenthsArea.buffer.toRat
      ≤ tenthsArea.right.toRat + tenthsArea.buffer.toRat ∧
    tenthsArea.top.toRat - tenthsArea.buffer.toRat
      ≤ tenthsArea.bottom.toRat + tenthsArea.buffer.toRat ∧
    isVisible tenthsRect tenthsArea = true ∧
    tenthsRect.x + tenthsRect.width = F32.fin (10066330 / 33554432) ∧
    tenthsArea.left - tenthsArea.buffer = F32.fin (10066330 / 33554432) ∧
    tenthsRect.x.toRat + tenthsRect.width.toRat = 40265319 / 134217728 ∧
    tenthsArea.left.toRat - tenthsArea.buffer.toRat = 40265320 / 134217728 ∧
    (¬ ∃ px py : ℚ,
      (tenthsRect.x.toRat ≤ px ∧ px ≤ tenthsRect.x.toRat + tenthsRect.width.toRat ∧
        tenthsRect.y.toRat ≤ py ∧ py ≤ tenthsRect.y.toRat + tenthsRect.height.toRat) ∧
      (tenthsArea.left.toRat - tenthsArea.buffer.toRat ≤ px ∧
        px ≤ tenthsArea.right.toRat + tenthsArea.buffer.toRat ∧
        tenthsArea.top.toRat - tenthsArea.buffer.toRat ≤ py ∧
        py ≤ tenthsArea.bottom.toRat + tenthsArea.buffer.toRat)) ∧
    isVisible ⟨"n", F32.nan, 0, 1, 1⟩ sampleArea = true ∧
    (¬ ∃ px : F32, F32.nan ≤ px ∧ px ≤ F32.nan + 1) := by
  have e1 : tenthsRect.x.toRat + tenthsRect.width.toRat = 40265319 / 134217728 := by decide!
  have e2 : tenthsArea.left.toRat - tenthsArea.buffer.toRat = 40265320 / 134217728 := by
    decide!
  refine ⟨by decide!, by decide!, by decide!, by decide!, by decide!, by decide!, by decide!,
    by decide!, by decide!, e1, e2, ?_, by decide!, ?_⟩
  · rintro ⟨px, py, ⟨-, a2, -, -⟩, b1, -, -, -⟩
    rw [e1] at a2
    rw [e2] at b1
    have := b1.trans a2
    norm_num at this
  · rintro ⟨px, h, -⟩
    exact F32.ne_nan_of_le_left h rfl

/-- C12, amended: for an element whose `x` and `y` are finite `float`s and whose
width and height are not negative, and an area whose expanded box, with the
corners computed in `float` arithmetic, is not empty, `isVisible` holds exactly
when the closed box of the element and the closed expanded box of the area, both
with corners computed in `float` arithmetic, have a point in common; boxes that
touch in these rounded corners share a point and so are visible. -/
theorem isVisible_iff_intersect (rect : Rect) (area : VisibleArea)
    (hxf : F32.IsFinite rect.x) (hxr : F32.IsFloat rect.x)
    (hyf : F32.IsFinite rect.y) (hyr : F32.IsFloat rect.y)
    (hw : 0 ≤ rect.width) (hh : 0 ≤ rect.height)
    (hx : area.left - area.buffer ≤ area.right + area.buffer)
    (hy : area.top - area.buffer ≤ area.bottom + area.buffer) :
    isVisible rect area = true ↔
      ∃ px py : F32,
        (rect.x ≤ px ∧ px ≤ rect.x + rect.width ∧ rect.y ≤ py ∧ py ≤ rect.y + rect.height) ∧
        (area.left - area.buffer ≤ px ∧ px ≤ area.right + area.buffer ∧
          area.top - area.buffer ≤ py ∧ py ≤ area.bottom + area.buffer) := by
  have axis : ∀ (a a2 l r : F32), a ≤ a2 → l ≤ r → ¬ (a > r) → ¬ (a2 < l) →
      a ≤ max a l ∧ max a l ≤ a2 ∧ l ≤ max a l ∧ max a l ≤ r := by
    intro a a2 l r haa hlr h1 h2
    have han := F32.ne_nan_of_le_left haa
    have hln := F32.ne_nan_of_le_left hlr
    have har : a ≤ r := F32.not_lt_le (F32.ne_nan_of_le_right hlr) han h1
    have hla : l ≤ a2 := F32.not_lt_le (F32.ne_nan_of_le_right haa) hln h2
    refine ⟨F32.le_max_l han, ?_, F32.le_max_r han hln, ?_⟩
    · rcases F32.max_cases a l with e | e <;> rw [e]
      · exact haa
      · exact hla
    · rcases F32.max_cases a l with e | e <;> rw [e]
      · exact har
      · exact hlr
  have hxx := F32.le_add_nonneg hxr hxf hw
  have hyy := F32.le_add_nonneg hyr hyf hh
  rw [isVisible_iff]
  constructor
  · rintro ⟨h1, h2, h3, h4⟩
    obtain ⟨a1, a2, a3, a4⟩ := axis _ _ _ _ hxx hx h1 h2
    obtain ⟨b1, b2, b3, b4⟩ := axis _ _ _ _ hyy hy h3 h4
    exact ⟨_, _, ⟨a1, a2, b1, b2⟩, a3, a4, b3, b4⟩
  · rintro ⟨px, py, ⟨a1, a2, a3, a4⟩, b1, b2, b3, b4⟩
    exact ⟨F32.le_not_lt (F32.le_chain a1 b2), F32.le_not_lt (F32.le_chain b1 a2),
      F32.le_not_lt (F32.le_chain a3 b4), F32.le_not_lt (F32.le_chain b3 a4)⟩

theorem isVisible_iff_intersect_witness :
    isVisible ⟨"corner", 100, 100, 10, 10⟩ sampleArea = true ↔
      ∃ px py : F32,
        ((100 : F32) ≤ px ∧ px ≤ 100 + 10 ∧ (100 : F32) ≤ py ∧ py ≤ 100 + 10) ∧
        (sampleArea.left - sampleArea.buffer ≤ px ∧ px ≤ sampleArea.right + sampleArea.buffer ∧
          sampleArea.top - sampleArea.buffer ≤ py ∧
          py ≤ sampleArea.bottom + sampleArea.buffer) :=
  isVisible_iff_intersect ⟨"corner", 100, 100, 10, 10⟩ sampleArea (by decide!) (by decide!)
    (by decide!) (by decide!) (by decide!) (by decide!) (by decide!) (by decide!)

end VisibilityCalculator

/-! # Path points: verification -/

namespace PathCalculator

/-- C13: `generateConnectorPoints` returns the two end points for a spouse link
and otherwise the four points of an elbow through `m = (fromY + toY) / 2`, the
sum and the quotient being those of `float`; its segments are vertical,
horizontal, vertical; the two sample calls give the stated points.  The `float`
mean is not always the exact one: for `fromY = 16777216` and `toY = 1` it is
`8388608`. -/
theorem connector_points (fromX fromY toX toY : F32) :
    generateConnectorPoints fromX fromY toX toY true = [⟨fromX, fromY⟩, ⟨toX, toY⟩] ∧
    generateConnectorPoints fromX fromY toX toY false
      = [⟨fromX, fromY⟩, ⟨fromX, (fromY + toY) / 2⟩, ⟨toX, (fromY + toY) / 2⟩, ⟨toX, toY⟩] ∧
    (∀ p0 p1 p2 p3, generateConnectorPoints fromX fromY toX toY false = [p0, p1, p2, p3] →
      p0.x = p1.x ∧ p1.y = p2.y ∧ p2.x = p3.x) ∧
    generateConnectorPoints 0 0 10 20 false = [⟨0, 0⟩, ⟨0, 10⟩, ⟨10, 10⟩, ⟨10, 20⟩] ∧
    generateConnectorPoints 0 0 10 20 true = [⟨0, 0⟩, ⟨10, 20⟩] ∧
    generateConnectorPoints 1 16777216 2 1 false
      = [⟨1, 16777216⟩, ⟨1, 8388608⟩, ⟨2, 8388608⟩, ⟨2, 1⟩] := by
  refine ⟨rfl, rfl, ?_, by decide!, rfl, by decide!⟩
  intro p0 p1 p2 p3 h
  simp only [generateConnectorPoints, Bool.false_eq_true, if_false, List.cons.injEq,
    and_true] at h
  obtain ⟨h0, h1, h2, h3⟩ := h
  subst h0 h1 h2 h3
  exact ⟨rfl, rfl, rfl⟩

theorem foldl_push {α β : Type} (f : α → β) (l : List α) (acc : List β) :
    l.foldl (fun pts i => pts ++ [f i]) acc = acc ++ l.map f := by
  induction l generalizing acc with
  | nil => simp
  | cons a rest ih => simp [ih]

theorem roundRectPath_eq {D F : Type} [NatCast D] [Add D] [Mul D] [Div D] [Add F] [Sub F]
    [Mul F] (narrow : D → F) (cos sin : F → F) (pi : D) (x y width height radius : F) :
    roundRectPath narrow cos sin pi x y width height radius
      = (List.range 9).map (arcPoint narrow cos sin pi x y width height radius 0)
        ++ (List.range 9).map (arcPoint narrow cos sin pi x y width height radius 1)
        ++ (List.range 9).map (arcPoint narrow cos sin pi x y width height radius 2)
        ++ (List.range 9).map (arcPoint narrow cos sin pi x y width height radius 3) := by
  unfold roundRectPath
  simp only [foldl_push, List.nil_append]
  rfl

theorem roundRectPath_get {D F : Type} [NatCast D] [Add D] [Mul D] [Div D] [Add F] [Sub F]
    [Mul F] (narrow : D → F) (cos sin : F → F) (pi : D) (x y width height radius : F)
    (k j : Nat) (hk : k < 4) (hj : j < 9) :
    (roundRectPath narrow cos sin pi x y width height radius)[9 * k + j]?
      = some (arcPoint narrow cos sin pi x y width height radius k j) := by
  rw [roundRectPath_eq]
  have hlen : ∀ k,
      ((List.range 9).map (arcPoint narrow cos sin pi x y width height radius k)).length
        = 9 := by
    intro k
    simp
  have hget : ∀ k,
      ((List.range 9).map (arcPoint narrow cos sin pi x y width height radius k))[j]?
        = some (arcPoint narrow cos sin pi x y width height radius k j) := by
    intro k
    rw [List.getElem?_map, List.getElem?_range hj]
    rfl
  interval_cases k
  · rw [List.append_assoc, List.append_assoc, List.getElem?_append_left (by rw [hlen]; omega)]
    rw [show 9 * 0 + j = j by omega]
    exact hget 0
  · rw [List.append_assoc, List.append_assoc,
      List.getElem?_append_right (by rw [hlen]; omega), hlen,
      List.getElem?_append_left (by rw [hlen]; omega)]
    rw [show 9 * 1 + j - 9 = j by omega]
    exact hget 1
  · rw [List.append_assoc, List.append_assoc,
      List.getElem?_append_right (by rw [hlen]; omega), hlen,
      List.getElem?_append_right (by rw [hlen]; omega), hlen,
      List.getElem?_append_left (by rw [hlen]; omega)]
    rw [show 9 * 2 + j - 9 - 9 = j by omega]
    exact hget 2
  · rw [List.append_assoc, List.append_assoc,
      List.getElem?_append_right (by rw [hlen]; omega), hlen,
      List.getElem?_append_right (by rw [hlen]; omega), hlen,
      List.getElem?_append_right (by rw [hlen]; omega), hlen]
    rw [show 9 * 3 + j - 9 - 9 - 9 = j by omega]
    exact hget 3

theorem floatPath_get (cos sin : F32 → F32) (x y width height radius : F32) (k j : Nat)
    (hk : k < 4) (hj : j < 9) :
    (floatPath cos sin x y width height radius)[9 * k + j]?
      = some (arcPoint F64.toF32 cos sin F64.M_PI x y width height radius k j) :=
  roundRectPath_get F64.toF32 cos sin F64.M_PI x y width height radius k j hk hj

/-! ## The path in exact arithmetic -/

theorem angle_zero : ((0 : Nat) : ℝ) * Real.pi / ((2 * segments : Nat) : ℝ) = 0 := by
  simp

theorem angle_eight : ((8 : Nat) : ℝ) * Real.pi / ((2 * segments : Nat) : ℝ) = Real.pi / 2 := by
  simp only [segments]
  push_cast
  ring

theorem half_pi : Real.pi / ((2 : Nat) : ℝ) = Real.pi / 2 := by
  push_cast
  ring

theorem cos_three_halves : Real.cos (Real.pi / 2 + Real.pi) = 0 := by
  rw [Real.cos_add_pi, Real.cos_pi_div_two, neg_zero]

theorem sin_three_halves : Real.sin (Real.pi / 2 + Real.pi) = -1 := by
  rw [Real.sin_add_pi, Real.sin_pi_div_two]

theorem three_halves : ((3 : Nat) : ℝ) * Real.pi / ((2 : Nat) : ℝ) = Real.pi / 2 + Real.pi := by
  push_cast
  ring

theorem two_pi : Real.pi / 2 + (Real.pi / 2 + Real.pi) = 2 * Real.pi := by ring

theorem half_plus_half : Real.pi / 2 + Real.pi / 2 = Real.pi := by ring

/-- The first and the last point of each of the four arcs, for the real cosine
and sine. -/
theorem arc_ends (x y width height radius : ℝ) :
    arcPoint id Real.cos Real.sin Real.pi x y width height radius 0 0
      = ⟨x + width, y + radius⟩ ∧
    arcPoint id Real.cos Real.sin Real.pi x y width height radius 0 8
      = ⟨x + width - radius, y⟩ ∧
    arcPoint id Real.cos Real.sin Real.pi x y width height radius 1 0
      = ⟨x + width - radius, y + height⟩ ∧
    arcPoint id Real.cos Real.sin Real.pi x y width height radius 1 8
      = ⟨x + width - 2 * radius, y + height - radius⟩ ∧
    arcPoint id Real.cos Real.sin Real.pi x y width height radius 2 0
      = ⟨x, y + height - radius⟩ ∧
    arcPoint id Real.cos Real.sin Real.pi x y width height radius 2 8
      = ⟨x + radius, y + height - 2 * radius⟩ ∧
    arcPoint id Real.cos Real.sin Real.pi x y width height radius 3 0
      = ⟨x + radius, y⟩ ∧
    arcPoint id Real.cos Real.sin Real.pi x y width height radius 3 8
      = ⟨x + 2 * radius, y + radius⟩ := by
  refine ⟨?_, ?_, ?_, ?_, ?_, ?_, ?_, ?_⟩
  · simp only [arcPoint, arcAngle, id_eq, angle_zero, Real.cos_zero, Real.sin_zero,
      Point.mk.injEq]
    constructor <;> ring
  · simp only [arcPoint, arcAngle, id_eq, angle_eight, Real.cos_pi_div_two,
      Real.sin_pi_div_two, Point.mk.injEq]
    constructor <;> ring
  · simp only [arcPoint, arcAngle, id_eq, angle_zero, half_pi, zero_add, Real.cos_pi_div_two,
      Real.sin_pi_div_two, Point.mk.injEq]
    constructor <;> ring
  · simp only [arcPoint, arcAngle, id_eq, angle_eight, half_pi, half_plus_half, Real.cos_pi,
      Real.sin_pi, Point.mk.injEq]
    constructor <;> ring
  · simp only [arcPoint, arcAngle, id_eq, angle_zero, zero_add, Real.cos_pi, Real.sin_pi,
      Point.mk.injEq]
    constructor <;> ring
  · simp only [arcPoint, arcAngle, id_eq, angle_eight, cos_three_halves, sin_three_halves,
      Point.mk.injEq]
    constructor <;> ring
  · simp only [arcPoint, arcAngle, id_eq, angle_zero, zero_add, three_halves, cos_three_halves,
      sin_three_halves, Point.mk.injEq]
    constructor <;> ring
  · simp only [arcPoint, arcAngle, id_eq, angle_eight, three_halves, two_pi, Real.cos_two_pi,
      Real.sin_two_pi, Point.mk.injEq]
    constructor <;> ring

/-! ## The path in `float` arithmetic -/

set_option maxRecDepth 100000 in
theorem floatAngle_0_0 : floatAngle 0 0 = F32.fin 0 := by decide!

set_option maxRecDepth 100000 in
theorem floatAngle_0_4 : floatAngle 0 4 = F32.fin (13176795 / 16777216) := by decide!

set_option maxRecDepth 100000 in
theorem floatAngle_0_8 : floatAngle 0 8 = F32.fin (13176795 / 8388608) := by decide!

set_option maxRecDepth 100000 in
theorem floatAngle_1_0 : floatAngle 1 0 = F32.fin (13176795 / 8388608) := by decide!

set_option maxRecDepth 100000 in
theorem floatAngle_1_8 : floatAngle 1 8 = F32.fin (13176795 / 4194304) := by decide!

set_option maxRecDepth 100000 in
theorem floatAngle_2_0 : floatAngle 2 0 = F32.fin (13176795 / 4194304) := by decide!

set_option maxRecDepth 100000 in
theorem floatAngle_2_8 : floatAngle 2 8 = F32.fin (2470649 / 524288) := by decide!

set_option maxRecDepth 100000 in
theorem floatAngle_3_0 : floatAngle 3 0 = F32.fin (2470649 / 524288) := by decide!

set_option maxRecDepth 100000 in
theorem floatAngle_3_8 : floatAngle 3 8 = F32.fin (13176795 / 2097152) := by decide!

/-- The `float` angles at the ends of the four loops and in the middle of the
first: `0`, and the `float`s nearest to `π / 4`, `π / 2`, `π`, `3 π / 2` and
`2 π`. -/
theorem floatAngle_values :
    floatAngle 0 0 = F32.fin 0 ∧
    floatAngle 0 4 = F32.fin (13176795 / 16777216) ∧
    floatAngle 0 8 = F32.fin (13176795 / 8388608) ∧
    floatAngle 1 0 = F32.fin (13176795 / 8388608) ∧
    floatAngle 1 8 = F32.fin (13176795 / 4194304) ∧
    floatAngle 2 0 = F32.fin (13176795 / 4194304) ∧
    floatAngle 2 8 = F32.fin (2470649 / 524288) ∧
    floatAngle 3 0 = F32.fin (2470649 / 524288) ∧
    floatAngle 3 8 = F32.fin (13176795 / 2097152) :=
  ⟨floatAngle_0_0, floatAngle_0_4, floatAngle_0_8, floatAngle_1_0, floatAngle_1_8,
    floatAngle_2_0, floatAngle_2_8, floatAngle_3_0, floatAngle_3_8⟩

theorem ten_def : (10 : F32) = F32.fin 10 := by decide!

theorem base_right : (0 : F32) + 100 - 10 = F32.fin 90 := by decide!

theorem base_bottom : (0 : F32) + 50 - 10 = F32.fin 40 := by decide!

theorem base_near : (0 : F32) + 10 = F32.fin 10 := by decide!

/-- The points at the ends of the four arcs of the `float` path of the rectangle
`(0, 0, 100, 50)` with radius `10`, in terms of the values of `cos` and `sin`. -/
theorem float_arc_ends (cos sin : F32 → F32) :
    (floatPath cos sin 0 0 100 50 10)[0]?
      = some ⟨F32.fin 90 + F32.fin 10 * cos (floatAngle 0 0),
          F32.fin 10 - F32.fin 10 * sin (floatAngle 0 0)⟩ ∧
    (floatPath cos sin 0 0 100 50 10)[8]?
      = some ⟨F32.fin 90 + F32.fin 10 * cos (floatAngle 0 8),
          F32.fin 10 - F32.fin 10 * sin (floatAngle 0 8)⟩ ∧
    (floatPath cos sin 0 0 100 50 10)[9]?
      = some ⟨F32.fin 90 + F32.fin 10 * cos (floatAngle 1 0),
          F32.fin 40 + F32.fin 10 * sin (floatAngle 1 0)⟩ ∧
    (floatPath cos sin 0 0 100 50 10)[17]?
      = some ⟨F32.fin 90 + F32.fin 10 * cos (floatAngle 1 8),
          F32.fin 40 + F32.fin 10 * sin (floatAngle 1 8)⟩ ∧
    (floatPath cos sin 0 0 100 50 10)[18]?
      = some ⟨F32.fin 10 + F32.fin 10 * cos (floatAngle 2 0),
          F32.fin 40 + F32.fin 10 * sin (floatAngle 2 0)⟩ ∧
    (floatPath cos sin 0 0 100 50 10)[26]?
      = some ⟨F32.fin 10 + F32.fin 10 * cos (floatAngle 2 8),
          F32.fin 40 + F32.fin 10 * sin (floatAngle 2 8)⟩ ∧
    (floatPath cos sin 0 0 100 50 10)[27]?
      = some ⟨F32.fin 10 + F32.fin 10 * cos (floatAngle 3 0),
          F32.fin 10 + F32.fin 10 * sin (floatAngle 3 0)⟩ ∧
    (floatPath cos sin 0 0 100 50 10)[35]?
      = some ⟨F32.fin 10 + F32.fin 10 * cos (floatAngle 3 8),
          F32.fin 10 + F32.fin 10 * sin (floatAngle 3 8)⟩ ∧
    (floatPath cos sin 0 0 100 50 10)[4]?
      = some ⟨F32.fin 90 + F32.fin 10 * cos (floatAngle 0 4),
          F32.fin 10 - F32.fin 10 * sin (floatAngle 0 4)⟩ := by
  have g := fun k j hk hj => floatPath_get cos sin 0 0 100 50 10 k j hk hj
  have e0 : ∀ j, arcPoint F64.toF32 cos sin F64.M_PI 0 0 100 50 10 0 j
      = ⟨F32.fin 90 + F32.fin 10 * cos (floatAngle 0 j),
          F32.fin 10 - F32.fin 10 * sin (floatAngle 0 j)⟩ := by
    intro j
    show (⟨(0 : F32) + 100 - 10 + 10 * cos (floatAngle 0 j),
      0 + 10 - 10 * sin (floatAngle 0 j)⟩ : Point F32) = _
    rw [base_right, base_near, ten_def]
  have e1 : ∀ j, arcPoint F64.toF32 cos sin F64.M_PI 0 0 100 50 10 1 j
      = ⟨F32.fin 90 + F32.fin 10 * cos (floatAngle 1 j),
          F32.fin 40 + F32.fin 10 * sin (floatAngle 1 j)⟩ := by
    intro j
    show (⟨(0 : F32) + 100 - 10 + 10 * cos (floatAngle 1 j),
      0 + 50 - 10 + 10 * sin (floatAngle 1 j)⟩ : Point F32) = _
    rw [base_right, base_bottom, ten_def]
  have e2 : ∀ j, arcPoint F64.toF32 cos sin F64.M_PI 0 0 100 50 10 2 j
      = ⟨F32.fin 10 + F32.fin 10 * cos (floatAngle 2 j),
          F32.fin 40 + F32.fin 10 * sin (floatAngle 2 j)⟩ := by
    intro j
    show (⟨(0 : F32) + 10 + 10 * cos (floatAngle 2 j),
      0 + 50 - 10 + 10 * sin (floatAngle 2 j)⟩ : Point F32) = _
    rw [base_near, base_bottom, ten_def]
  have e3 : ∀ j, arcPoint F64.toF32 cos sin F64.M_PI 0 0 100 50 10 3 j
      = ⟨F32.fin 10 + F32.fin 10 * cos (floatAngle 3 j),
          F32.fin 10 + F32.fin 10 * sin (floatAngle 3 j)⟩ := by
    intro j
    show (⟨(0 : F32) + 10 + 10 * cos (floatAngle 3 j),
      0 + 10 + 10 * sin (floatAngle 3 j)⟩ : Point F32) = _
    rw [base_near, ten_def]
  refine ⟨?_, ?_, ?_, ?_, ?_, ?_, ?_, ?_, ?_⟩
  · exact (g 0 0 (by norm_num) (by norm_num)).trans (congrArg some (e0 0))
  · exact (g 0 8 (by norm_num) (by norm_num)).trans (congrArg some (e0 8))
  · exact (g 1 0 (by norm_num) (by norm_num)).trans (congrArg some (e1 0))
  · exact (g 1 8 (by norm_num) (by norm_num)).trans (congrArg some (e1 8))
  · exact (g 2 0 (by norm_num) (by norm_num)).trans (congrArg some (e2 0))
  · exact (g 2 8 (by norm_num) (by norm_num)).trans (congrArg some (e2 8))
  · exact (g 3 0 (by norm_num) (by norm_num)).trans (congrArg some (e3 0))
  · exact (g 3 8 (by norm_num) (by norm_num)).trans (congrArg some (e3 8))
  · exact (g 0 4 (by norm_num) (by norm_num)).trans (congrArg some (e0 4))

/-- C14: at `x = 0`, `y = 0`, `width = 100`, `height = 50`, `radius = 10` the last
points of the bottom-right, bottom-left and top-left arcs lie off the quarter
circles that face their corners.  In exact arithmetic point 17 is `(80, 40)`
with `px < x + width - radius`, point 26 is `(10, 30)` with
`py < y + height - radius`, and point 35 is `(20, 10)` with `px > x + radius`.
In the `float` arithmetic of the program the same holds for every `cos` and
`sin` whose values at the `float`s nearest to `π`, `3 π / 2` and `2 π` are
within `1 / 2` of `cos π = -1`, `sin (3 π / 2) = -1` and `cos (2 π) = 1`: point
17 has `px ≤ 85`, point 26 has `py ≤ 35` and point 35 has `px ≥ 15`. -/
theorem arcs_leave_their_corners :
    ((0 : ℝ) ≤ 10 ∧ 2 * (10 : ℝ) ≤ min 100 50 ∧
      (roundRectPath id Real.cos Real.sin Real.pi 0 0 100 50 10)[17]? = some ⟨80, 40⟩ ∧
      ¬ ((80 : ℝ) ≥ 0 + 100 - 10) ∧
      (roundRectPath id Real.cos Real.sin Real.pi 0 0 100 50 10)[26]? = some ⟨10, 30⟩ ∧
      ¬ ((30 : ℝ) ≥ 0 + 50 - 10) ∧
      (roundRectPath id Real.cos Real.sin Real.pi 0 0 100 50 10)[35]? = some ⟨20, 10⟩ ∧
      ¬ ((20 : ℝ) ≤ 0 + 10)) ∧
    ((0 : F32) ≤ 10 ∧ (2 : F32) * 10 ≤ 50 ∧ (2 : F32) * 10 ≤ 100 ∧
      ∀ cos sin : F32 → F32,
        cos (floatAngle 1 8) ≤ F32.fin (-1 / 2) →
        sin (floatAngle 2 8) ≤ F32.fin (-1 / 2) →
        F32.fin (1 / 2) ≤ cos (floatAngle 3 8) →
        ∃ p17 p26 p35,
          (floatPath cos sin 0 0 100 50 10)[17]? = some p17 ∧
          (floatPath cos sin 0 0 100 50 10)[26]? = some p26 ∧
          (floatPath cos sin 0 0 100 50 10)[35]? = some p35 ∧
          p17.x ≤ 85 ∧ ¬ (p17.x ≥ 0 + 100 - 10) ∧
          p26.y ≤ 35 ∧ ¬ (p26.y ≥ 0 + 50 - 10) ∧
          15 ≤ p35.x ∧ ¬ (p35.x ≤ 0 + 10)) := by
  constructor
  · obtain ⟨-, -, -, h17, -, h26, -, h35⟩ := arc_ends 0 0 100 50 10
    have g17 := roundRectPath_get id Real.cos Real.sin Real.pi (0 : ℝ) 0 100 50 10 1 8
      (by norm_num) (by norm_num)
    have g26 := roundRectPath_get id Real.cos Real.sin Real.pi (0 : ℝ) 0 100 50 10 2 8
      (by norm_num) (by norm_num)
    have g35 := roundRectPath_get id Real.cos Real.sin Real.pi (0 : ℝ) 0 100 50 10 3 8
      (by norm_num) (by norm_num)
    rw [h17] at g17
    rw [h26] at g26
    rw [h35] at g35
    norm_num at g17 g26 g35
    exact ⟨by norm_num, by norm_num, g17, by norm_num, g26, by norm_num, g35, by norm_num⟩
  · refine ⟨by decide!, by decide!, by decide!, ?_⟩
    intro cos sin h1 h2 h3
    obtain ⟨-, -, -, g17, -, g26, -, g35, -⟩ := float_arc_ends cos sin
    have a17 : F32.fin 90 + F32.fin 10 * cos (floatAngle 1 8) ≤ 85 :=
      F32.le_chain (F32.affine_mono 90 (by norm_num) h1) (by decide!)
    have a26 : F32.fin 40 + F32.fin 10 * sin (floatAngle 2 8) ≤ 35 :=
      F32.le_chain (F32.affine_mono 40 (by norm_num) h2) (by decide!)
    have a35 : (15 : F32) ≤ F32.fin 10 + F32.fin 10 * cos (floatAngle 3 8) :=
      F32.le_chain (by decide!) (F32.affine_mono 10 (by norm_num) h3)
    refine ⟨_, _, _, g17, g26, g35, a17, ?_, a26, ?_, a35, ?_⟩
    · exact fun h => F32.le_lt_absurd a17 (by decide!) h
    · exact fun h => F32.le_lt_absurd a26 (by decide!) h
    · exact fun h => F32.le_not_lt (F32.le_chain a35 h) (by decide!)

theorem arcs_leave_their_corners_witness :
    ∃ p17 p26 p35,
      (floatPath tableCos tableSin 0 0 100 50 10)[17]? = some p17 ∧
      (floatPath tableCos tableSin 0 0 100 50 10)[26]? = some p26 ∧
      (floatPath tableCos tableSin 0 0 100 50 10)[35]? = some p35 ∧
      p17.x ≤ 85 ∧ ¬ (p17.x ≥ 0 + 100 - 10) ∧
      p26.y ≤ 35 ∧ ¬ (p26.y ≥ 0 + 50 - 10) ∧
      15 ≤ p35.x ∧ ¬ (p35.x ≤ 0 + 10) :=
  arcs_leave_their_corners.2.2.2.2 tableCos tableSin
    (by rw [floatAngle_1_8]; decide!) (by rw [floatAngle_2_8]; decide!)
    (by rw [floatAngle_3_8]; decide!)

/-- C18: at `x = 0`, `y = 0`, `width = 100`, `height = 50`, `radius = 10` no joint
between two consecutive arcs runs along a side of the rectangle.  In exact
arithmetic points 8 and 9 have `px = 90`, not `x + width = 100`; points 17 and
18 have `py = 40`, not `y + height = 50`; points 26 and 27 have `px = 10`, not
`x = 0`; points 35 and 0 have `py = 10`, not `y = 0`.  In the `float` arithmetic
of the program the same holds for every `cos` and `sin` whose values at `0` and
at the `float`s nearest to `π / 2`, `π`, `3 π / 2` and `2 π` are within `1 / 2`
of `sin 0 = 0`, `cos (π / 2) = 0`, `sin π = 0`, `cos (3 π / 2) = 0` and
`sin (2 π) = 0`: points 8 and 9 have `px ≤ 95`, points 17 and 18 have `py ≤ 45`,
points 26 and 27 have `px ≥ 5`, points 35 and 0 have `py ≥ 5`. -/
theorem joints_leave_the_sides :
    ((roundRectPath id Real.cos Real.sin Real.pi 0 0 100 50 10)[8]? = some ⟨90, 0⟩ ∧
      (roundRectPath id Real.cos Real.sin Real.pi 0 0 100 50 10)[9]? = some ⟨90, 50⟩ ∧
      (roundRectPath id Real.cos Real.sin Real.pi 0 0 100 50 10)[17]? = some ⟨80, 40⟩ ∧
      (roundRectPath id Real.cos Real.sin Real.pi 0 0 100 50 10)[18]? = some ⟨0, 40⟩ ∧
      (roundRectPath id Real.cos Real.sin Real.pi 0 0 100 50 10)[26]? = some ⟨10, 30⟩ ∧
      (roundRectPath id Real.cos Real.sin Real.pi 0 0 100 50 10)[27]? = some ⟨10, 0⟩ ∧
      (roundRectPath id Real.cos Real.sin Real.pi 0 0 100 50 10)[35]? = some ⟨20, 10⟩ ∧
      (roundRectPath id Real.cos Real.sin Real.pi 0 0 100 50 10)[0]? = some ⟨100, 10⟩ ∧
      (90 : ℝ) ≠ 0 + 100 ∧ (40 : ℝ) ≠ 0 + 50 ∧ (10 : ℝ) ≠ 0) ∧
    ((0 : F32) < 10 ∧
      ∀ cos sin : F32 → F32,
        cos (floatAngle 0 8) ≤ F32.fin (1 / 2) →
        sin (floatAngle 1 8) ≤ F32.fin (1 / 2) →
        F32.fin (-1 / 2) ≤ cos (floatAngle 2 8) →
        F32.fin (-1 / 2) ≤ sin (floatAngle 3 8) →
        sin (floatAngle 0 0) ≤ F32.fin (1 / 2) →
        ∃ p8 p9 p17 p18 p26 p27 p35 p0,
          (floatPath cos sin 0 0 100 50 10)[8]? = some p8 ∧
          (floatPath cos sin 0 0 100 50 10)[9]? = some p9 ∧
          (floatPath cos sin 0 0 100 50 10)[17]? = some p17 ∧
          (floatPath cos sin 0 0 100 50 10)[18]? = some p18 ∧
          (floatPath cos sin 0 0 100 50 10)[26]? = some p26 ∧
          (floatPath cos sin 0 0 100 50 10)[27]? = some p27 ∧
          (floatPath cos sin 0 0 100 50 10)[35]? = some p35 ∧
          (floatPath cos sin 0 0 100 50 10)[0]? = some p0 ∧
          (p8.x ≤ 95 ∧ p9.x ≤ 95 ∧ p17.y ≤ 45 ∧ p18.y ≤ 45 ∧
            5 ≤ p26.x ∧ 5 ≤ p27.x ∧ 5 ≤ p35.y ∧ 5 ≤ p0.y) ∧
          (p8.x ≠ 0 + 100 ∧ p9.x ≠ 0 + 100 ∧ p17.y ≠ 0 + 50 ∧ p18.y ≠ 0 + 50 ∧
            p26.x ≠ 0 ∧ p27.x ≠ 0 ∧ p35.y ≠ 0 ∧ p0.y ≠ 0)) := by
  constructor
  · obtain ⟨h0, h8, h9, h17, h18, h26, h27, h35⟩ := arc_ends 0 0 100 50 10
    have g0 := roundRectPath_get id Real.cos Real.sin Real.pi (0 : ℝ) 0 100 50 10 0 0
      (by norm_num) (by norm_num)
    have g8 := roundRectPath_get id Real.cos Real.sin Real.pi (0 : ℝ) 0 100 50 10 0 8
      (by norm_num) (by norm_num)
    have g9 := roundRectPath_get id Real.cos Real.sin Real.pi (0 : ℝ) 0 100 50 10 1 0
      (by norm_num) (by norm_num)
    have g17 := roundRectPath_get id Real.cos Real.sin Real.pi (0 : ℝ) 0 100 50 10 1 8
      (by norm_num) (by norm_num)
    have g18 := roundRectPath_get id Real.cos Real.sin Real.pi (0 : ℝ) 0 100 50 10 2 0
      (by norm_num) (by norm_num)
    have g26 := roundRectPath_get id Real.cos Real.sin Real.pi (0 : ℝ) 0 100 50 10 2 8
      (by norm_num) (by norm_num)
    have g27 := roundRectPath_get id Real.cos Real.sin Real.pi (0 : ℝ) 0 100 50 10 3 0
      (by norm_num) (by norm_num)
    have g35 := roundRectPath_get id Real.cos Real.sin Real.pi (0 : ℝ) 0 100 50 10 3 8
      (by norm_num) (by norm_num)
    rw [h0] at g0
    rw [h8] at g8
    rw [h9] at g9
    rw [h17] at g17
    rw [h18] at g18
    rw [h26] at g26
    rw [h27] at g27
    rw [h35] at g35
    norm_num at g0 g8 g9 g17 g18 g26 g27 g35
    exact ⟨g8, g9, g17, g18, g26, g27, g35, g0, by norm_num, by norm_num, by norm_num⟩
  · refine ⟨by decide!, ?_⟩
    intro cos sin h1 h2 h3 h4 h5
    obtain ⟨g0, g8, g9, g17, g18, g26, g27, g35, -⟩ := float_arc_ends cos sin
    have e9 : floatAngle 1 0 = floatAngle 0 8 := floatAngle_1_0.trans floatAngle_0_8.symm
    have e18 : floatAngle 2 0 = floatAngle 1 8 := floatAngle_2_0.trans floatAngle_1_8.symm
    have e27 : floatAngle 3 0 = floatAngle 2 8 := floatAngle_3_0.trans floatAngle_2_8.symm
    rw [e9] at g9
    rw [e18] at g18
    rw [e27] at g27
    have a8 : F32.fin 90 + F32.fin 10 * cos (floatAngle 0 8) ≤ 95 :=
      F32.le_chain (F32.affine_mono 90 (by norm_num) h1) (by decide!)
    have a17 : F32.fin 40 + F32.fin 10 * sin (floatAngle 1 8) ≤ 45 :=
      F32.le_chain (F32.affine_mono 40 (by norm_num) h2) (by decide!)
    have a26 : (5 : F32) ≤ F32.fin 10 + F32.fin 10 * cos (floatAngle 2 8) :=
      F32.le_chain (by decide!) (F32.affine_mono 10 (by norm_num) h3)
    have a35 : (5 : F32) ≤ F32.fin 10 + F32.fin 10 * sin (floatAngle 3 8) :=
      F32.le_chain (by decide!) (F32.affine_mono 10 (by norm_num) h4)
    have a0 : (5 : F32) ≤ F32.fin 10 - F32.fin 10 * sin (floatAngle 0 0) :=
      F32.le_chain (by decide!) (F32.affine_anti 10 (by norm_num) h5)
    refine ⟨_, _, _, _, _, _, _, _, g8, g9, g17, g18, g26, g27, g35, g0,
      ⟨a8, a8, a17, a17, a26, a26, a35, a0⟩,
      F32.ne_above a8 (by decide!), F32.ne_above a8 (by decide!),
      F32.ne_above a17 (by decide!), F32.ne_above a17 (by decide!),
      F32.ne_below (by decide!) a26, F32.ne_below (by decide!) a26,
      F32.ne_below (by decide!) a35, F32.ne_below (by decide!) a0⟩

theorem joints_leave_the_sides_witness :
    ∃ p8 p9 p17 p18 p26 p27 p35 p0,
      (floatPath tableCos tableSin 0 0 100 50 10)[8]? = some p8 ∧
      (floatPath tableCos tableSin 0 0 100 50 10)[9]? = some p9 ∧
      (floatPath tableCos tableSin 0 0 100 50 10)[17]? = some p17 ∧
      (floatPath tableCos tableSin 0 0 100 50 10)[18]? = some p18 ∧
      (floatPath tableCos tableSin 0 0 100 50 10)[26]? = some p26 ∧
      (floatPath tableCos tableSin 0 0 100 50 10)[27]? = some p27 ∧
      (floatPath tableCos tableSin 0 0 100 50 10)[35]? = some p35 ∧
      (floatPath tableCos tableSin 0 0 100 50 10)[0]? = some p0 ∧
      (p8.x ≤ 95 ∧ p9.x ≤ 95 ∧ p17.y ≤ 45 ∧ p18.y ≤ 45 ∧
        5 ≤ p26.x ∧ 5 ≤ p27.x ∧ 5 ≤ p35.y ∧ 5 ≤ p0.y) ∧
      (p8.x ≠ 0 + 100 ∧ p9.x ≠ 0 + 100 ∧ p17.y ≠ 0 + 50 ∧ p18.y ≠ 0 + 50 ∧
        p26.x ≠ 0 ∧ p27.x ≠ 0 ∧ p35.y ≠ 0 ∧ p0.y ≠ 0) :=
  joints_leave_the_sides.2.2 tableCos tableSin
    (by rw [floatAngle_0_8]; decide!) (by rw [floatAngle_1_8]; decide!)
    (by rw [floatAngle_2_8]; decide!) (by rw [floatAngle_3_8]; decide!)
    (by rw [floatAngle_0_0]; decide!)

/-! ## The distance of the path points from the corner centres -/

end PathCalculator

